import Mathlib

/-!
# Queues of `data-structures/queue/go`

A shallow embedding of the two queues of the repository:

* `OptimalQueue` (`optimal_queue.go`): a ring buffer with `head`, `tail`, `size`
  cursors over a slice `data`, grown by `resize`;
* `queue` (`simple_queue.go`): a slice that is appended to and re-sliced.

Conventions of the embedding.

* A Go slice is a `List`; `len(q.data)` is `q.data.length`.  The capacity of a slice
  (`make([]T, 0, 4)` has length 0 and capacity 4) is not observable by this code, which
  never appends to or re-slices the ring buffer, so it is not represented.
* The Go `int` fields `head`, `tail`, `size` are `Nat`: they start at `0` and are only
  changed by `+ 1`, by `% len(q.data)` of a non-negative number, and by a `--` that is
  guarded by `size != 0`.  Growth is bounded by memory long before 64-bit overflow.
* A run-time panic (index out of range, integer division by zero) is `none`; every
  operation of the ring buffer therefore lives in `Option`.
* The zero value of `T` (`var zero T`, `make([]T, n)`) is `default` of `Inhabited T`.
* The slice of the simple queue is held by the queue alone, so `append`, `q.data[1:]` and
  `q.data[:0]` act on it as on a list: no other slice shares its backing array.
* The mutex is not represented: the embedding is the sequential semantics of each call.
-/

namespace Dsa

variable {T : Type}

/-! ## Slice primitives that can panic -/

/-- Slice read `xs[i]`: `none` is the index-out-of-range panic. -/
def sliceGet (xs : List T) (i : Nat) : Option T :=
  xs[i]?

/-- Slice write `xs[i] = v`: `none` is the index-out-of-range panic. -/
def sliceSet (xs : List T) (i : Nat) (v : T) : Option (List T) :=
  if i < xs.length then some (xs.set i v) else none

/-- Integer remainder `a % n`: `none` is the division-by-zero panic. -/
def goMod (a n : Nat) : Option Nat :=
  if n = 0 then none else some (a % n)

/-! ## `optimal_queue.go` -/

/-- The ring buffer `OptimalQueue[T]` (without its mutex). -/
structure OptimalQueue (T : Type) where
  data : List T
  head : Nat
  tail : Nat
  size : Nat
deriving DecidableEq, Repr

/-- `NewOptimalQueue`: `data` is `make([]T, 0, 4)`, a slice of length 0. -/
def NewOptimalQueue : OptimalQueue T :=
  { data := [], head := 0, tail := 0, size := 0 }

/-- The loop shared by `resize` and `ToSlice`:
`for i := range q.size { index := (q.head + i) % len(q.data); dst[i] = q.data[index] }`. -/
def copyLoop (q : OptimalQueue T) (dst : List T) : Option (List T) :=
  (List.range q.size).foldlM
    (fun dst i => do
      let index ← goMod (q.head + i) q.data.length
      let v ← sliceGet q.data index
      sliceSet dst i v)
    dst

/-- `resize`: doubles the buffer (a buffer of length 0 becomes one of length 4), copies
the live elements to the front. -/
def resize [Inhabited T] (q : OptimalQueue T) : Option (OptimalQueue T) := do
  let newSize := q.data.length * 2
  let newSize := if newSize = 0 then 4 else newSize
  let newData : List T := List.replicate newSize default
  let newData ← copyLoop q newData
  pure { data := newData, head := 0, tail := q.size, size := q.size }

/-- `Enqueue`. -/
def Enqueue [Inhabited T] (q : OptimalQueue T) (element : T) : Option (OptimalQueue T) := do
  let q ← if q.size = q.data.length then resize q else pure q
  let data ← sliceSet q.data q.tail element
  let tail ← goMod (q.tail + 1) data.length
  pure { data := data, head := q.head, tail := tail, size := q.size + 1 }

/-- `Dequeue`: the returned pair and the state after the call. -/
def Dequeue [Inhabited T] (q : OptimalQueue T) : Option ((T × Bool) × OptimalQueue T) :=
  if q.size = 0 then
    pure ((default, false), q)
  else do
    let element ← sliceGet q.data q.head
    let head ← goMod (q.head + 1) q.data.length
    pure ((element, true), { data := q.data, head := head, tail := q.tail, size := q.size - 1 })

/-- `Peek`: the returned pair and the state after the call. -/
def Peek [Inhabited T] (q : OptimalQueue T) : Option ((T × Bool) × OptimalQueue T) :=
  if q.size = 0 then
    pure ((default, false), q)
  else do
    let v ← sliceGet q.data q.head
    pure ((v, true), q)

/-- `Size`. -/
def Size (q : OptimalQueue T) : Nat × OptimalQueue T :=
  (q.size, q)

/-- `IsEmpty`. -/
def IsEmpty (q : OptimalQueue T) : Bool × OptimalQueue T :=
  (decide (q.size = 0), q)

/-- `Clear`: the cursors are reset, the buffer is kept. -/
def Clear (q : OptimalQueue T) : OptimalQueue T :=
  { data := q.data, head := 0, tail := 0, size := 0 }

/-- `ToSlice`: the returned slice and the state after the call. -/
def ToSlice [Inhabited T] (q : OptimalQueue T) : Option (List T × OptimalQueue T) :=
  if q.size = 0 then
    pure ([], q)
  else do
    let result : List T := List.replicate q.size default
    let result ← copyLoop q result
    pure (result, q)

/-! ## `simple_queue.go` -/

/-- The simple queue `queue[T]` (without its mutex). -/
structure queue (T : Type) where
  data : List T
deriving DecidableEq, Repr

/-- `newQueue`: `data` is `make([]T, 0)`. -/
def newQueue : queue T :=
  { data := [] }

/-- `queue.Enqueue`: `q.data = append(q.data, element)`. -/
def queue.Enqueue (q : queue T) (element : T) : queue T :=
  { data := q.data ++ [element] }

/-- `queue.Dequeue`: `q.data[0]` is read and `q.data` becomes `q.data[1:]`. -/
def queue.Dequeue [Inhabited T] (q : queue T) : Option ((T × Bool) × queue T) :=
  if q.data.length = 0 then
    pure ((default, false), q)
  else do
    let firstElement ← sliceGet q.data 0
    pure ((firstElement, true), { data := q.data.drop 1 })

/-- `queue.Peek`. -/
def queue.Peek [Inhabited T] (q : queue T) : Option ((T × Bool) × queue T) :=
  if q.data.length = 0 then
    pure ((default, false), q)
  else do
    let v ← sliceGet q.data 0
    pure ((v, true), q)

/-- `queue.Size`. -/
def queue.Size (q : queue T) : Nat × queue T :=
  (q.data.length, q)

/-- `queue.IsEmpty`. -/
def queue.IsEmpty (q : queue T) : Bool × queue T :=
  (decide (q.data.length = 0), q)

/-- `queue.Clear`: `q.data = q.data[:0]`. -/
def queue.Clear (q : queue T) : queue T :=
  { data := q.data.take 0 }

/-! ## Sequences of calls -/

/-- A call of one of the six methods of the interface `Queue[T]`. -/
inductive QueueOp (T : Type) where
  | enqueue (element : T)
  | dequeue
  | peek
  | size
  | isEmpty
  | clear
deriving DecidableEq, Repr

/-- A call of a public method of `OptimalQueue`: the interface, or `ToSlice`. -/
inductive Op (T : Type) where
  | method (m : QueueOp T)
  | toSlice
deriving DecidableEq, Repr

/-- What a call returns to its caller. -/
inductive Obs (T : Type) where
  | unit
  | pair (value : T) (found : Bool)
  | int (n : Nat)
  | bool (b : Bool)
  | slice (xs : List T)
deriving DecidableEq, Repr

/-- One interface call on the ring buffer. -/
def OptimalQueue.call [Inhabited T] (q : OptimalQueue T) :
    QueueOp T → Option (Obs T × OptimalQueue T)
  | .enqueue e => (Enqueue q e).map (fun q1 => (Obs.unit, q1))
  | .dequeue => (Dequeue q).map (fun r => (Obs.pair r.1.1 r.1.2, r.2))
  | .peek => (Peek q).map (fun r => (Obs.pair r.1.1 r.1.2, r.2))
  | .size => some (Obs.int (Size q).1, (Size q).2)
  | .isEmpty => some (Obs.bool (IsEmpty q).1, (IsEmpty q).2)
  | .clear => some (Obs.unit, Clear q)

/-- One public call on the ring buffer. -/
def OptimalQueue.step [Inhabited T] (q : OptimalQueue T) :
    Op T → Option (Obs T × OptimalQueue T)
  | .method m => q.call m
  | .toSlice => (ToSlice q).map (fun r => (Obs.slice r.1, r.2))

/-- One interface call on the simple queue. -/
def queue.call [Inhabited T] (q : queue T) : QueueOp T → Option (Obs T × queue T)
  | .enqueue e => some (Obs.unit, q.Enqueue e)
  | .dequeue => q.Dequeue.map (fun r => (Obs.pair r.1.1 r.1.2, r.2))
  | .peek => q.Peek.map (fun r => (Obs.pair r.1.1 r.1.2, r.2))
  | .size => some (Obs.int q.Size.1, q.Size.2)
  | .isEmpty => some (Obs.bool q.IsEmpty.1, q.IsEmpty.2)
  | .clear => some (Obs.unit, q.Clear)

/-- A sequence of public calls on the ring buffer: what each call returned, and the final
state; `none` when some call panics. -/
def OptimalQueue.run [Inhabited T] (q : OptimalQueue T) :
    List (Op T) → Option (List (Obs T) × OptimalQueue T)
  | [] => some ([], q)
  | op :: ops => do
    let (o, q1) ← q.step op
    let (os, q2) ← OptimalQueue.run q1 ops
    pure (o :: os, q2)

/-- A sequence of interface calls on the ring buffer. -/
def OptimalQueue.runCalls [Inhabited T] (q : OptimalQueue T) (ms : List (QueueOp T)) :
    Option (List (Obs T) × OptimalQueue T) :=
  q.run (ms.map Op.method)

/-- A sequence of interface calls on the simple queue. -/
def queue.runCalls [Inhabited T] (q : queue T) :
    List (QueueOp T) → Option (List (Obs T) × queue T)
  | [] => some ([], q)
  | m :: ms => do
    let (o, q1) ← q.call m
    let (os, q2) ← queue.runCalls q1 ms
    pure (o :: os, q2)

/-- The states the public methods can produce from `NewOptimalQueue`. -/
inductive Reachable [Inhabited T] : OptimalQueue T → Prop where
  | init : Reachable NewOptimalQueue
  | step {q q1 : OptimalQueue T} (op : Op T) (o : Obs T) :
      Reachable q → q.step op = some (o, q1) → Reachable q1

/-- The first loop of `PerformanceComparison` and `BenchmarkComparison`: one `Enqueue`
per value. -/
def enqueueAll [Inhabited T] (q : OptimalQueue T) : List T → Option (OptimalQueue T)
  | [] => some q
  | v :: vs => do
    let q1 ← Enqueue q v
    enqueueAll q1 vs

/-- The second loop of `PerformanceComparison` and `BenchmarkComparison`: `n` calls of
`Dequeue`, with what each returned. -/
def dequeueN [Inhabited T] (q : OptimalQueue T) :
    Nat → Option (List (T × Bool) × OptimalQueue T)
  | 0 => some ([], q)
  | n + 1 => do
    let (r, q1) ← Dequeue q
    let (rs, q2) ← dequeueN q1 n
    pure (r :: rs, q2)

/-- Number of `Enqueue` calls in a sequence of calls. -/
def countEnqueue : List (Op T) → Nat
  | [] => 0
  | .method (.enqueue _) :: ops => countEnqueue ops + 1
  | _ :: ops => countEnqueue ops

/-- Number of `Dequeue` calls that returned `found = true`, read off the calls and what
they returned. -/
def countDequeued : List (Op T) → List (Obs T) → Nat
  | .method .dequeue :: ops, .pair _ true :: os => countDequeued ops os + 1
  | _ :: ops, _ :: os => countDequeued ops os
  | _, _ => 0

/-! ## Representation invariant and abstraction -/

/-- The logical element at offset `i`: `q.data[(q.head + i) % len(q.data)]`. -/
def slot [Inhabited T] (q : OptimalQueue T) (i : Nat) : T :=
  q.data.getD ((q.head + i) % q.data.length) default

/-- The live elements, oldest first. -/
def contents [Inhabited T] (q : OptimalQueue T) : List T :=
  (List.range q.size).map (slot q)

/-- The representation invariant of the ring buffer.  A buffer of length 0 only occurs
before the first `Enqueue`, with both cursors at 0. -/
structure Inv (q : OptimalQueue T) : Prop where
  size_le : q.size ≤ q.data.length
  head_lt : 0 < q.data.length → q.head < q.data.length
  tail_eq : 0 < q.data.length → q.tail = (q.head + q.size) % q.data.length
  fresh : q.data.length = 0 → q.head = 0 ∧ q.tail = 0

/-- Length of the buffer that `resize` allocates. -/
def newLen (q : OptimalQueue T) : Nat :=
  if q.data.length * 2 = 0 then 4 else q.data.length * 2

/-- The state `resize` produces from a state that satisfies the invariant, in closed
form: the live elements from index 0, zero values behind them. -/
def grown [Inhabited T] (q : OptimalQueue T) : OptimalQueue T :=
  { data := contents q ++ List.replicate (newLen q - q.size) default,
    head := 0, tail := q.size, size := q.size }

/-- The state after the write of `Enqueue` (the part after the resize check), in closed
form. -/
def pushed (q : OptimalQueue T) (element : T) : OptimalQueue T :=
  { data := q.data.set q.tail element, head := q.head,
    tail := (q.tail + 1) % q.data.length, size := q.size + 1 }

/-- The state after a `Dequeue` of a non-empty queue, in closed form. -/
def popped (q : OptimalQueue T) : OptimalQueue T :=
  { data := q.data, head := (q.head + 1) % q.data.length, tail := q.tail, size := q.size - 1 }

/-! ## Concrete states and call sequences -/

/-- Calls that fill a buffer of length 4 and make the live elements wrap around its end:
four `Enqueue`, two `Dequeue`, two `Enqueue`. -/
def wrapCalls : List (Op Nat) :=
  [.method (.enqueue 1), .method (.enqueue 2), .method (.enqueue 3), .method (.enqueue 4),
   .method .dequeue, .method .dequeue, .method (.enqueue 5), .method (.enqueue 6)]

/-- The state after `wrapCalls`: the buffer is full and the live elements `3, 4, 5, 6`
start at index 2. -/
def wrappedFull : OptimalQueue Nat :=
  { data := [5, 6, 3, 4], head := 2, tail := 2, size := 4 }

/-- The scenario of `TestOptimalQueue` with the values of its message: `Enqueue` of
1, 2, 3, 4, 5, then `ToSlice`, `Peek`, three `Dequeue`, `ToSlice` and `Size`. -/
def scenarioCalls : List (Op Nat) :=
  [.method (.enqueue 1), .method (.enqueue 2), .method (.enqueue 3), .method (.enqueue 4),
   .method (.enqueue 5), .toSlice, .method .peek,
   .method .dequeue, .method .dequeue, .method .dequeue, .toSlice, .method .size]

/-- What the calls of `scenarioCalls` return. -/
def scenarioResults : List (Obs Nat) :=
  [.unit, .unit, .unit, .unit, .unit, .slice [1, 2, 3, 4, 5], .pair 1 true,
   .pair 1 true, .pair 2 true, .pair 3 true, .slice [4, 5], .int 2]

/-- The state after `scenarioCalls`: the fifth `Enqueue` has doubled the buffer. -/
def afterScenario : OptimalQueue Nat :=
  { data := [1, 2, 3, 4, 5, 0, 0, 0], head := 3, tail := 5, size := 2 }

/-- The state after `Enqueue(7)` and `Dequeue` on a fresh queue: empty, with the cursors
at index 1. -/
def drained : OptimalQueue Nat :=
  { data := [7, 0, 0, 0], head := 1, tail := 1, size := 0 }

/-- The first three calls of `testSimpleQueue`, for any list of values: one
`queue.Enqueue` per value. -/
def queue.enqueueAll (q : queue T) : List T → queue T
  | [] => q
  | v :: vs => queue.enqueueAll (q.Enqueue v) vs

/-- The loop of `testSimpleQueue`: `n` calls of `queue.Dequeue`, with what each returned. -/
def queue.dequeueN [Inhabited T] (q : queue T) :
    Nat → Option (List (T × Bool) × queue T)
  | 0 => some ([], q)
  | n + 1 => do
    let (r, q1) ← q.Dequeue
    let (rs, q2) ← queue.dequeueN q1 n
    pure (r :: rs, q2)

/-! ## Machine integers -/

/-- A value of the Go type `int` (64-bit two's complement). -/
def isInt (x : Int) : Prop := -2 ^ 63 ≤ x ∧ x < 2 ^ 63

instance (x : Int) : Decidable (isInt x) := by unfold isInt; infer_instance

/-- The value of type `int` that a mathematical result wraps to. -/
def wrapInt (x : Int) : Int := Int.bmod x (2 ^ 64)

/-- Go `a + b` on `int`. -/
def goAdd (a b : Int) : Int := wrapInt (a + b)

/-- Go `a - b` on `int`. -/
def goSub (a b : Int) : Int := wrapInt (a - b)

/-! ## `leetcode/two-sum` -/

/-- The loop of `twoSum` from index `i` on: `numMap` is the Go map (a missing key is
`none`), `none` as result is the `nil` slice. -/
def twoSumLoop (target : Int) (numMap : Int → Option Nat) (i : Nat) :
    List Int → Option (List Nat)
  | [] => none
  | num :: rest =>
    let complement := goSub target num
    match numMap complement with
    | some index => some [index, i]
    | none => twoSumLoop target (fun k => if k = num then some i else numMap k) (i + 1) rest

/-- `twoSum`: the indices `[index, i]`, or `none` for `nil`. -/
def twoSum (nums : List Int) (target : Int) : Option (List Nat) :=
  twoSumLoop target (fun _ => none) 0 nums

/-! ## `leetcode/add-two-numbers` -/

/-- The loop of `addTwoNumbers`, on the node values of the two lists (a `nil` list is
`[]`) and the carry; the result is the values of the nodes appended after `dummyHead`.
`/` and `%` are Go's truncated division and remainder.  Sums are taken in `Int`: for lists
of decimal digits no sum exceeds 19. -/
def addTwoNumbersLoop (l1 l2 : List Int) (carry : Int) : List Int :=
  if l1 ≠ [] ∨ l2 ≠ [] ∨ carry ≠ 0 then
    let x := l1.headD 0
    let y := l2.headD 0
    let sum := carry + x + y
    sum.tmod 10 :: addTwoNumbersLoop l1.tail l2.tail (sum.tdiv 10)
  else
    []
termination_by (l1.length + l2.length, carry.natAbs)
decreasing_by
  rename_i h
  by_cases hl : l1 ≠ [] ∨ l2 ≠ []
  · apply Prod.Lex.left
    rcases hl with hl | hl
    · cases l1 with
      | nil => exact absurd rfl hl
      | cons a l1 => simp only [List.tail_cons, List.length_cons]; have := List.length_tail l2; omega
    · cases l2 with
      | nil => exact absurd rfl hl
      | cons a l2 => simp only [List.tail_cons, List.length_cons]; have := List.length_tail l1; omega
  · have h1 : l1 = [] := by by_contra hne; exact hl (Or.inl hne)
    have h2 : l2 = [] := by by_contra hne; exact hl (Or.inr hne)
    subst h1 h2
    have hc : carry ≠ 0 := by
      rcases h with h | h | h
      · exact absurd rfl h
      · exact absurd rfl h
      · exact h
    apply Prod.Lex.right
    simp only [List.headD_nil, Int.add_zero]
    rw [Int.natAbs_tdiv]
    have : 0 < carry.natAbs := Int.natAbs_pos.mpr hc
    exact Nat.div_lt_self this (by decide)

/-- `addTwoNumbers`. -/
def addTwoNumbers (l1 l2 : List Int) : List Int :=
  addTwoNumbersLoop l1 l2 0

/-- The number a list of digits stands for, least significant digit first, without
bound on its size. -/
def decimalValue : List Int → Int
  | [] => 0
  | d :: ds => d + 10 * decimalValue ds

/-- Every element is a decimal digit. -/
def allDigits (l : List Int) : Prop := ∀ d ∈ l, 0 ≤ d ∧ d ≤ 9

instance (l : List Int) : Decidable (allDigits l) := by unfold allDigits; infer_instance

/-! ## `leetcode/longest-substring-without-repeating-characters`

A Go string is represented by the list of its characters (valid UTF-8 text).
`for end, char := range s` yields each character with the byte offset at which its
encoding starts; `[]rune(s)` is the list itself. -/

/-- The pairs `(end, char)` of `range s`, for the part of a string that starts at byte
`offset`. -/
def rangeString (offset : Nat) : List Char → List (Nat × Char)
  | [] => []
  | c :: cs => (offset, c) :: rangeString (offset + c.utf8Size) cs

/-- The loop of `lengthOfLongestSubstring` over the remaining pairs of `range s`;
`charIndex` is the Go map (a missing key is `none`). -/
def lengthOfLongestSubstringLoop (charIndex : Char → Option Int) (maxLength start : Int) :
    List (Nat × Char) → Int
  | [] => maxLength
  | (e, char) :: rest =>
    let start :=
      match charIndex char with
      | some prevIndex => if prevIndex ≥ start then prevIndex + 1 else start
      | none => start
    let charIndex := fun k => if k = char then some (e : Int) else charIndex k
    let currentLength := (e : Int) - start + 1
    let maxLength := if currentLength > maxLength then currentLength else maxLength
    lengthOfLongestSubstringLoop charIndex maxLength start rest

/-- `lengthOfLongestSubstring`. -/
def lengthOfLongestSubstring (s : List Char) : Int :=
  lengthOfLongestSubstringLoop (fun _ => none) 0 0 (rangeString 0 s)

/-- The loop of `lengthOfLongestSubstringASCII`; `charLastIndex` is the slice of 128
entries, `none` is an index-out-of-range panic. -/
def lengthOfLongestSubstringASCIILoop (charLastIndex : List Int) (maxLength start : Int) :
    List (Nat × Char) → Option Int
  | [] => some maxLength
  | (e, char) :: rest =>
    if char.toNat < 128 then do
      let lastIndex ← sliceGet charLastIndex char.toNat
      let start := if lastIndex ≥ start then lastIndex + 1 else start
      let charLastIndex ← sliceSet charLastIndex char.toNat (e : Int)
      let currentLength := (e : Int) - start + 1
      let maxLength := if currentLength > maxLength then currentLength else maxLength
      lengthOfLongestSubstringASCIILoop charLastIndex maxLength start rest
    else
      let currentLength := (e : Int) - start + 1
      let maxLength := if currentLength > maxLength then currentLength else maxLength
      lengthOfLongestSubstringASCIILoop charLastIndex maxLength start rest

/-- `lengthOfLongestSubstringASCII`. -/
def lengthOfLongestSubstringASCII (s : List Char) : Option Int :=
  lengthOfLongestSubstringASCIILoop (List.replicate 128 (-1)) 0 0 (rangeString 0 s)

/-- The inner loop of `lengthOfLongestSubstringSet`,
`for charSet[runes[end]] { delete(charSet, runes[start]); start++ }`, with `c` for
`runes[end]`: the set and `start` after the loop; `none` is an index-out-of-range panic
at `runes[start]`.  `charSet` is the Go map (a missing key reads as `false`). -/
def shrinkWindow (runes : List Char) (c : Char) (charSet : Char → Bool) (start : Nat) :
    Option ((Char → Bool) × Nat) :=
  if charSet c then
    if h : start < runes.length then
      shrinkWindow runes c (fun k => if k = runes[start] then false else charSet k) (start + 1)
    else
      none
  else
    some (charSet, start)
termination_by runes.length - start

/-- The outer loop of `lengthOfLongestSubstringSet` over the values `ends` of `end` still
to come. -/
def lengthOfLongestSubstringSetLoop (runes : List Char) (charSet : Char → Bool)
    (maxLength : Int) (start : Nat) : List Nat → Option Int
  | [] => some maxLength
  | e :: ends => do
    let c ← sliceGet runes e
    let (charSet, start) ← shrinkWindow runes c charSet start
    let charSet := fun k => if k = c then true else charSet k
    let currentLength := (e : Int) - start + 1
    let maxLength := if currentLength > maxLength then currentLength else maxLength
    lengthOfLongestSubstringSetLoop runes charSet maxLength start ends

/-- `lengthOfLongestSubstringSet`. -/
def lengthOfLongestSubstringSet (s : List Char) : Option Int :=
  lengthOfLongestSubstringSetLoop s (fun _ => false) 0 0 (List.range s.length)

/-- What is left of a window once its front is dropped up to and including the first
`c`. -/
def dropThrough (c : Char) : List Char → List Char
  | [] => []
  | d :: w => if d = c then w else dropThrough c w

/-- The window without repeated characters after the character `c` has been read: the
old window, cut behind its occurrence of `c` if it has one, followed by `c`. -/
def slide (w : List Char) (c : Char) : List Char :=
  (if c ∈ w then dropThrough c w else w) ++ [c]

/-- The sliding-window computation on the window itself: the largest window length
seen, starting from window `w` and maximum `m`. -/
def longestFrom (w : List Char) (m : Nat) : List Char → Nat
  | [] => m
  | c :: rest => longestFrom (slide w c) (max m (slide w c).length) rest

/-- The map of `lengthOfLongestSubstring` after the text `p` has been read: a character
that has not occurred is missing, the others are mapped to their last index. -/
def mapHolds (p : List Char) (charIndex : Char → Option Int) : Prop :=
  ∀ c, (charIndex c = none → c ∉ p) ∧
    (∀ j, charIndex c = some j →
      ∃ i : Nat, j = (i : Int) ∧ p[i]? = some c ∧ ∀ k, i < k → p[k]? ≠ some c)

/-- The table of `lengthOfLongestSubstringASCII` against the map of
`lengthOfLongestSubstring`: entry `c` holds the index the map holds for `c`, or -1. -/
def tableHolds (charLastIndex : List Int) (charIndex : Char → Option Int) : Prop :=
  charLastIndex.length = 128 ∧
  (∀ c : Char, c.toNat < 128 → charLastIndex[c.toNat]? = some ((charIndex c).getD (-1))) ∧
  (∀ c j, charIndex c = some j → 0 ≤ j)

/-! ## `leetcode/longest-palindromic-substring`

A Go string is represented by the list of its characters; `[]rune(s)` is that list and
`string(runes[a:b])` is a sub-list. -/

/-- Slice read `xs[i]` with an `int` index: `none` is the index-out-of-range panic. -/
def sliceGetInt (xs : List T) (i : Int) : Option T :=
  if 0 ≤ i then xs[i.toNat]? else none

/-- Slice write `xs[i] = v` with an `int` index: `none` is the index-out-of-range panic. -/
def sliceSetInt (xs : List T) (i : Int) (v : T) : Option (List T) :=
  if 0 ≤ i ∧ i < xs.length then some (xs.set i.toNat v) else none

/-- Slice expression `xs[lo:hi]` on a slice of full capacity: `none` is the
slice-bounds-out-of-range panic. -/
def sliceRange (xs : List T) (lo hi : Int) : Option (List T) :=
  if 0 ≤ lo ∧ lo ≤ hi ∧ hi ≤ xs.length then some ((xs.drop lo.toNat).take (hi - lo).toNat)
  else none

/-- The helper `max` of the file. -/
def maxInt (a b : Int) : Int :=
  if a > b then a else b

/-- The helper `min` of the file. -/
def minInt (a b : Int) : Int :=
  if a < b then a else b

/-- The loop of `expandAroundCenter`.  `left` goes down by one per iteration and the loop
stops when it is negative, so `left + 1` iterations are all there can be: the first
argument counts them down, and when it is 0 `left` is negative and the loop is over.
`none` is an index-out-of-range panic. -/
def expandLoop (runes : List Char) : Nat → Int → Int → Option Int
  | 0, left, right => some (right - left - 1)
  | fuel + 1, left, right =>
    if 0 ≤ left ∧ right < runes.length then do
      let a ← sliceGetInt runes left
      let b ← sliceGetInt runes right
      if a = b then expandLoop runes fuel (left - 1) (right + 1)
      else some (right - left - 1)
    else
      some (right - left - 1)

/-- `expandAroundCenter`. -/
def expandAroundCenter (runes : List Char) (left right : Int) : Option Int :=
  expandLoop runes (left + 1).toNat left right

/-- The loop `for i := 0; i < n; i++` of `longestPalindrome` over the values of `i` still
to come: the final `(start, maxLen)`. -/
def longestPalindromeLoop (runes : List Char) (start maxLen : Int) :
    List Nat → Option (Int × Int)
  | [] => some (start, maxLen)
  | i :: is => do
    let len1 ← expandAroundCenter runes i i
    let len2 ← expandAroundCenter runes i (i + 1)
    let currentMax := maxInt len1 len2
    if currentMax > maxLen then
      longestPalindromeLoop runes (i - (currentMax - 1).tdiv 2) currentMax is
    else
      longestPalindromeLoop runes start maxLen is

/-- `longestPalindrome`. -/
def longestPalindrome (s : List Char) : Option (List Char) :=
  if s.length = 0 then
    some []
  else do
    let runes := s
    let n := runes.length
    let (start, maxLen) ← longestPalindromeLoop runes 0 1 (List.range n)
    sliceRange runes start (start + maxLen)

/-- The string `processed` of `longestPalindromeManacher`: `^#`, then each character
followed by `#`, then `$`. -/
def preprocess (s : List Char) : List Char :=
  ['^', '#'] ++ s.flatMap (fun c => [c, '#']) ++ ['$']

/-- The loop `for runes[i+p[i]+1] == runes[i-p[i]-1] { p[i]++ }`.  Each iteration adds one
to `p[i]` and reads `runes[i+p[i]+1]`, so after `len(runes)` iterations the next read is
out of range: the first argument counts the iterations down from `len(runes) + 1`.
`none` is an index-out-of-range panic. -/
def manacherExpand (runes : List Char) (i : Int) : Nat → List Int → Option (List Int)
  | 0, _ => none
  | fuel + 1, p => do
    let pi ← sliceGetInt p i
    let a ← sliceGetInt runes (i + pi + 1)
    let b ← sliceGetInt runes (i - pi - 1)
    if a = b then do
      let p ← sliceSetInt p i (pi + 1)
      manacherExpand runes i fuel p
    else
      some p

/-- The first loop `for i := 1; i < n-1; i++` of `longestPalindromeManacher` over the
values of `i` still to come: the final `p`. -/
def manacherLoop (runes : List Char) (p : List Int) (center right : Int) :
    List Nat → Option (List Int)
  | [] => some p
  | i :: is => do
    let mirror := 2 * center - (i : Int)
    let p ←
      if (i : Int) < right then do
        let pm ← sliceGetInt p mirror
        sliceSetInt p i (minInt (right - i) pm)
      else
        some p
    let p ← manacherExpand runes i (runes.length + 1) p
    let pi ← sliceGetInt p i
    if (i : Int) + pi > right then
      manacherLoop runes p i (i + pi) is
    else
      manacherLoop runes p center right is

/-- The second loop of `longestPalindromeManacher`: the final `(maxLen, centerIndex)`. -/
def manacherBest (p : List Int) (maxLen centerIndex : Int) : List Nat → Option (Int × Int)
  | [] => some (maxLen, centerIndex)
  | i :: is => do
    let pi ← sliceGetInt p i
    if pi > maxLen then manacherBest p pi i is
    else manacherBest p maxLen centerIndex is

/-- `longestPalindromeManacher`. -/
def longestPalindromeManacher (s : List Char) : Option (List Char) :=
  if s.length = 0 then
    some []
  else do
    let runes := preprocess s
    let n := runes.length
    let p ← manacherLoop runes (List.replicate n 0) 0 0 (List.range' 1 (n - 2))
    let (maxLen, centerIndex) ← manacherBest p 0 0 (List.range' 1 (n - 2))
    let start := (centerIndex - maxLen).tdiv 2
    sliceRange s start (start + maxLen)

/-- The part of `runes` that starts at index `a` and has length `L` reads the same in both
directions. -/
def palAt (runes : List Char) (a L : Nat) : Prop :=
  a + L ≤ runes.length ∧ ∀ t, t < L → runes[a + t]? = runes[a + (L - 1 - t)]?

/-! ## `leetcode/median-of-two-sorted-arrays`

The `float64` result is represented by the rational number it stands for:
`float64(x)` of an integer `x` with `|x| < 2^53` is exact, and so is its division by
`2.0`; the values converted here are elements of the arrays (or the 32-bit sentinels) and
sums of two of them.  The helpers `max` and `min` of this file are those of the
palindrome file, `maxInt` and `minInt`. -/

/-- `math.MinInt32`. -/
def MinInt32 : Int := -2147483648

/-- `math.MaxInt32`. -/
def MaxInt32 : Int := 2147483647

/-- The loop `for left <= right` of `findMedianSortedArrays`.  The interval
`[left, right]` loses at least one point per iteration, so `fuel` (initially `m + 1`, the
number of points of `[0, m]`) bounds the iterations.  `none` is an index-out-of-range
panic; `some 0` after the loop is the final `return 0.0`. -/
def findMedianLoop (nums1 nums2 : List Int) (m n total half : Int) (fuel : Nat)
    (left right : Int) : Option ℚ :=
  if left ≤ right then
    match fuel with
    | 0 => none
    | fuel + 1 => do
      let partition1 := (left + right).tdiv 2
      let partition2 := half - partition1
      let maxLeft1 ← (if partition1 > 0 then sliceGetInt nums1 (partition1 - 1) else some MinInt32)
      let minRight1 ← (if partition1 < m then sliceGetInt nums1 partition1 else some MaxInt32)
      let maxLeft2 ← (if partition2 > 0 then sliceGetInt nums2 (partition2 - 1) else some MinInt32)
      let minRight2 ← (if partition2 < n then sliceGetInt nums2 partition2 else some MaxInt32)
      if maxLeft1 ≤ minRight2 ∧ maxLeft2 ≤ minRight1 then
        if total.tmod 2 = 1 then
          some ((maxInt maxLeft1 maxLeft2 : Int) : ℚ)
        else
          some (((maxInt maxLeft1 maxLeft2 + minInt minRight1 minRight2 : Int) : ℚ) / 2)
      else if maxLeft1 > minRight2 then
        findMedianLoop nums1 nums2 m n total half fuel left (partition1 - 1)
      else
        findMedianLoop nums1 nums2 m n total half fuel (partition1 + 1) right
  else
    some 0

/-- The body of `findMedianSortedArrays` after the swap that makes `nums1` the shorter
array. -/
def findMedianOrdered (nums1 nums2 : List Int) : Option ℚ :=
  let m : Int := nums1.length
  let n : Int := nums2.length
  let total := m + n
  let half := (total + 1).tdiv 2
  findMedianLoop nums1 nums2 m n total half (nums1.length + 1) 0 m

/-- `findMedianSortedArrays`. -/
def findMedianSortedArrays (nums1 nums2 : List Int) : Option ℚ :=
  if nums1.length > nums2.length then findMedianOrdered nums2 nums1
  else findMedianOrdered nums1 nums2

/-- The two arrays merged into one non-decreasing list. -/
def sortedMerge (nums1 nums2 : List Int) : List Int :=
  (nums1 ++ nums2).insertionSort (· ≤ ·)

/-- The median of a non-decreasing list, as a rational number: the middle element when
the length is odd, half the sum of the two middle elements when it is even. -/
def medianOfSorted (l : List Int) : ℚ :=
  if l.length % 2 = 1 then ((l.getD (l.length / 2) 0 : Int) : ℚ)
  else ((l.getD (l.length / 2 - 1) 0 + l.getD (l.length / 2) 0 : Int) : ℚ) / 2

/-- Every element lies in the signed 32-bit range. -/
def inInt32 (l : List Int) : Prop := ∀ x ∈ l, MinInt32 ≤ x ∧ x ≤ MaxInt32

instance (l : List Int) : Decidable (inInt32 l) := by unfold inInt32; infer_instance

/-- The value `maxLeft` the loop reads for a partition at `p`: the element before the
cut, or the sentinel `math.MinInt32` when the left part is empty. -/
def leftMax (xs : List Int) (p : Nat) : Int :=
  if 0 < p then xs.getD (p - 1) 0 else MinInt32

/-- The value `minRight` the loop reads for a partition at `p`: the element after the
cut, or the sentinel `math.MaxInt32` when the right part is empty. -/
def rightMin (xs : List Int) (p : Nat) : Int :=
  if p < xs.length then xs.getD p 0 else MaxInt32

/-- Whether `Enqueue` on `q` takes the branch `if q.size == len(q.data) { q.resize() }`. -/
def enqueueResizes (q : OptimalQueue T) : Bool :=
  decide (q.size = q.data.length)

/-- A state that the public methods cannot produce: a full buffer of one slot. -/
def oneSlot : OptimalQueue Nat :=
  { data := [7], head := 0, tail := 0, size := 1 }

/-! ## `leetcode/reverse-integer` -/

/-- The loop `for x != 0` of `reverse`.  Every iteration divides `x` by 10, so `fuel`
(initially `|x|`) bounds the iterations; `none` is a loop that has not ended when the fuel
is used up. -/
def reverseLoop : Nat → Int → Int → Option Int
  | 0, x, result => if x ≠ 0 then none else some result
  | fuel + 1, x, result =>
    if x ≠ 0 then
      let digit := Int.tmod x 10
      let x1 := Int.tdiv x 10
      if result > Int.tdiv MaxInt32 10 ∨ (result = Int.tdiv MaxInt32 10 ∧ digit > 7) then
        some 0
      else if result < Int.tdiv MinInt32 10 ∨ (result = Int.tdiv MinInt32 10 ∧ digit < -8) then
        some 0
      else
        reverseLoop fuel x1 (wrapInt (result * 10 + digit))
    else some result

/-- `reverse(x int) int`. -/
def reverse (x : Int) : Option Int := reverseLoop x.natAbs x 0

/-- A value of the signed 32-bit range. -/
def isInt32 (x : Int) : Prop := MinInt32 ≤ x ∧ x ≤ MaxInt32

instance (x : Int) : Decidable (isInt32 x) := by unfold isInt32; infer_instance

/-- Modelled from the spec: the number obtained by reversing the decimal digits of `n`. -/
def reversedDigits (n : Nat) : Nat := Nat.ofDigits 10 (Nat.digits 10 n).reverse

/-- Modelled from the spec: `sign(x)` times the reversal of the decimal digits of `|x|`
when that value lies in `[-2^31, 2^31 - 1]`, and 0 otherwise. -/
def reverseSpec (x : Int) : Int :=
  if -2 ^ 31 ≤ Int.sign x * (reversedDigits x.natAbs : Int) ∧
      Int.sign x * (reversedDigits x.natAbs : Int) ≤ 2 ^ 31 - 1 then
    Int.sign x * (reversedDigits x.natAbs : Int)
  else 0

/-! ## `leetcode/palindrome-number`

`x int64` is an `Int` in the range `isInt`.  An arithmetic result of type `int64` goes
through `int64Op`: wrapped to 64 bits as Go computes it, or, in checked mode, `none` when the
mathematical value leaves the range, so that a checked run that returns has had no overflow.
The string of `fmt.Sprintf("%d", x)` consists of ASCII bytes only, so its bytes `s[i]` are
the elements of a `List Char`. -/

/-- An arithmetic result `v` of type `int64`: wrapped to 64 bits, or with `checked` the
value itself and `none` when it is outside the range of `int64`. -/
def int64Op (checked : Bool) (v : Int) : Option Int :=
  if checked then (if isInt v then some v else none) else some (wrapInt v)

/-- Go `a / b` on `int64`: `none` is the division-by-zero panic. -/
def int64Div (checked : Bool) (a b : Int) : Option Int :=
  if b = 0 then none else int64Op checked (Int.tdiv a b)

/-- Go `a % b` on `int64`: `none` is the division-by-zero panic. -/
def int64Rem (a b : Int) : Option Int :=
  if b = 0 then none else some (Int.tmod a b)

/-- The loop `for original > reversed` of `isPalindromeHalfReverse`, followed by its
`return original == reversed || original == reversed/10`.  `original` loses a digit per
iteration, so `fuel` (initially `|x|`) bounds the iterations; `none` is a loop that has not
ended when the fuel is used up, or an overflow in checked mode. -/
def halfReverseLoop (checked : Bool) : Nat → Int → Int → Option Bool
  | 0, original, reversed =>
    if original > reversed then none
    else some (decide (original = reversed ∨ original = Int.tdiv reversed 10))
  | fuel + 1, original, reversed =>
    if original > reversed then do
      let m ← int64Op checked (reversed * 10)
      let reversed1 ← int64Op checked (m + Int.tmod original 10)
      halfReverseLoop checked fuel (Int.tdiv original 10) reversed1
    else some (decide (original = reversed ∨ original = Int.tdiv reversed 10))

/-- `isPalindromeHalfReverse(x int64) bool`. -/
def isPalindromeHalfReverse (checked : Bool) (x : Int) : Option Bool :=
  if x < 0 ∨ (x > 0 ∧ Int.tmod x 10 = 0) then some false
  else if x < 10 then some true
  else halfReverseLoop checked x.natAbs x 0

/-- `fmt.Sprintf("%d", x)`: the decimal digits of `x`, most significant first, after a
minus sign when `x` is negative. -/
def formatInt (x : Int) : List Char :=
  if x < 0 then '-' :: Nat.toDigits 10 x.natAbs else Nat.toDigits 10 x.natAbs

/-- The loop `for i := 0; i < n/2; i++` of `isPalindromeString` and of
`isPalindromeNaive`, followed by `return true`; `fuel` (initially `n`) bounds the
iterations, `none` is an index-out-of-range panic or a loop that has not ended when the
fuel is used up. -/
def stringLoop (s : List Char) (n : Int) : Nat → Int → Option Bool
  | 0, i => if i < Int.tdiv n 2 then none else some true
  | fuel + 1, i =>
    if i < Int.tdiv n 2 then do
      let a ← sliceGetInt s i
      let b ← sliceGetInt s (n - 1 - i)
      if a ≠ b then some false else stringLoop s n fuel (i + 1)
    else some true

/-- `isPalindromeString(x int64) bool`. -/
def isPalindromeString (x : Int) : Option Bool :=
  if x < 0 then some false
  else stringLoop (formatInt x) (formatInt x).length (formatInt x).length 0

/-- `isPalindromeNaive(x int64) bool`. -/
def isPalindromeNaive (x : Int) : Option Bool :=
  if x < 0 then some false
  else stringLoop (formatInt x) (formatInt x).length (formatInt x).length 0

/-- The loop `for left < right` of `isPalindromeBits`, followed by `return true`; `fuel`
(initially `len(str)`) bounds the iterations. -/
def bitsLoop (str : List Char) : Nat → Int → Int → Option Bool
  | 0, left, right => if left < right then none else some true
  | fuel + 1, left, right =>
    if left < right then do
      let a ← sliceGetInt str left
      let b ← sliceGetInt str right
      if a ≠ b then some false else bitsLoop str fuel (left + 1) (right - 1)
    else some true

/-- `isPalindromeBits(x int64) bool`. -/
def isPalindromeBits (x : Int) : Option Bool :=
  if x < 0 then some false
  else if x < 10 then some true
  else bitsLoop (formatInt x) (formatInt x).length 0 ((formatInt x).length - 1)

/-- The map `palindromeCache` after `init`, which stores `isPalindromeNaive(i)` under
every key `i` from 0 to 99999 in turn; a key that is not in the map is `none`. -/
def initCache : Option (Int → Option Bool) :=
  (List.range 100000).foldlM
    (fun cache (i : Nat) => (isPalindromeNaive (i : Int)).map
      (fun b => Function.update cache (i : Int) (some b)))
    (fun _ => none)

/-- `isPalindromeLookup(x int64) bool`; reading a key that is not in the map gives
`false`. -/
def isPalindromeLookup (checked : Bool) (x : Int) : Option Bool :=
  if x < 0 then some false
  else if x < 100000 then initCache.map (fun cache => (cache x).getD false)
  else isPalindromeHalfReverse checked x

/-- The loop `for temp >= 10` of `isPalindromeMath`: the final value of `digits`. -/
def countDigitsLoop (checked : Bool) : Nat → Int → Int → Option Int
  | 0, digits, temp => if temp ≥ 10 then none else some digits
  | fuel + 1, digits, temp =>
    if temp ≥ 10 then do
      let digits1 ← int64Op checked (digits * 10)
      countDigitsLoop checked fuel digits1 (Int.tdiv temp 10)
    else some digits

/-- The loop `for x > 0` of `isPalindromeMath`, followed by `return true`; `none` is a
division by zero, a loop that has not ended when the fuel is used up, or an overflow in
checked mode. -/
def compareDigitsLoop (checked : Bool) : Nat → Int → Int → Option Bool
  | 0, x, _ => if x > 0 then none else some true
  | fuel + 1, x, digits =>
    if x > 0 then do
      let leftDigit ← int64Div checked x digits
      let rightDigit := Int.tmod x 10
      if leftDigit ≠ rightDigit then some false
      else do
        let r ← int64Rem x digits
        compareDigitsLoop checked fuel (Int.tdiv r 10) (Int.tdiv digits 100)
    else some true

/-- `isPalindromeMath(x int64) bool`. -/
def isPalindromeMath (checked : Bool) (x : Int) : Option Bool :=
  if x < 0 then some false
  else if x < 10 then some true
  else if Int.tmod x 10 = 0 then some false
  else do
    let digits ← countDigitsLoop checked x.natAbs 1 x
    compareDigitsLoop checked x.natAbs x digits

/-- The `w` lowest decimal digits of `x`, least significant first: the digits that the
second loop of `isPalindromeMath` has still to compare when `x` is below `10^w`. -/
def padDigits : Nat → Nat → List Nat
  | 0, _ => []
  | w + 1, x => (x % 10) :: padDigits w (x / 10)

/-- Modelled from the spec: the decimal digit string of `n ≥ 0`. -/
def decimalString (n : Nat) : List Char :=
  if n = 0 then ['0'] else (Nat.digits 10 n).reverse.map Nat.digitChar

/-- Modelled from the spec: `x ≥ 0` and the decimal digit string of `x` equals its own
reversal. -/
def isPalindromeSpec (x : Int) : Prop :=
  0 ≤ x ∧ decimalString x.toNat = (decimalString x.toNat).reverse

instance (x : Int) : Decidable (isPalindromeSpec x) := by
  unfold isPalindromeSpec; infer_instance

end Dsa

namespace Dsa

variable {T : Type}

/-! ## The copy loop -/

theorem goMod_pos (a : Nat) {n : Nat} (h : 0 < n) : goMod a n = some (a % n) := by
  simp [goMod, Nat.pos_iff_ne_zero.mp h]

theorem sliceGet_lt [Inhabited T] {xs : List T} {i : Nat} (h : i < xs.length) :
    sliceGet xs i = some (xs.getD i default) := by
  simp [sliceGet, List.getD_eq_getElem?_getD, List.getElem?_eq_getElem h]

theorem sliceSet_lt {xs : List T} {i : Nat} (v : T) (h : i < xs.length) :
    sliceSet xs i v = some (xs.set i v) := by
  simp [sliceSet, h]

/-- The loop body run for `i = 0 .. n-1` fills the first `n` slots of `dst` with the
first `n` logical elements and leaves the rest of `dst` alone. -/
theorem copy_prefix [Inhabited T] (q : OptimalQueue T) (dst : List T) (n : Nat)
    (hlen : n = 0 ∨ 0 < q.data.length) (hn : n ≤ dst.length) :
    (List.range n).foldlM
      (fun dst i => do
        let index ← goMod (q.head + i) q.data.length
        let v ← sliceGet q.data index
        sliceSet dst i v)
      dst
    = some ((List.range n).map (slot q) ++ dst.drop n) := by
  induction n with
  | zero => simp
  | succ n ih =>
    have hpos : 0 < q.data.length := by omega
    have hidx : (q.head + n) % q.data.length < q.data.length := Nat.mod_lt _ hpos
    rw [List.range_succ, List.foldlM_append, ih (Or.inr hpos) (by omega)]
    have hlt : n < ((List.range n).map (slot q) ++ dst.drop n).length := by
      simp; omega
    simp only [Option.bind_eq_bind, Option.some_bind, List.foldlM_cons, List.foldlM_nil,
      goMod_pos _ hpos, sliceGet_lt hidx, sliceSet_lt _ hlt]
    rw [List.set_append_right _ _ (by simp), List.length_map, List.length_range]
    have hd : dst.drop n = dst[n] :: dst.drop (n + 1) := List.drop_eq_getElem_cons (by omega)
    rw [hd, Nat.sub_self, List.set_cons_zero]
    simp [slot]

theorem copyLoop_eq [Inhabited T] (q : OptimalQueue T) (dst : List T)
    (hlen : q.size = 0 ∨ 0 < q.data.length) (hn : q.size ≤ dst.length) :
    copyLoop q dst = some (contents q ++ dst.drop q.size) :=
  copy_prefix q dst q.size hlen hn

/-! ## Each operation against the abstraction -/

theorem mod_add_ne {h i s n : Nat} (hi : i < s) (hs : s < n) :
    (h + i) % n ≠ (h + s) % n := by
  intro heq
  have h0 : (h + s - (h + i)) % n = 0 := Nat.sub_mod_eq_zero_of_mod_eq heq.symm
  have h1 : h + s - (h + i) = s - i := by omega
  rw [h1, Nat.mod_eq_of_lt (by omega)] at h0
  omega

theorem contents_length [Inhabited T] (q : OptimalQueue T) :
    (contents q).length = q.size := by
  simp [contents]

theorem inv_new : Inv (NewOptimalQueue : OptimalQueue T) := by
  constructor <;> simp [NewOptimalQueue]

theorem contents_new [Inhabited T] : contents (NewOptimalQueue : OptimalQueue T) = [] := by
  simp [contents, NewOptimalQueue]

theorem inv_clear {q : OptimalQueue T} (_h : Inv q) : Inv (Clear q) := by
  constructor <;> simp [Clear]

theorem contents_clear [Inhabited T] (q : OptimalQueue T) : contents (Clear q) = [] := by
  simp [contents, Clear]

theorem toSlice_eq [Inhabited T] {q : OptimalQueue T} (h : Inv q) :
    ToSlice q = some (contents q, q) := by
  unfold ToSlice
  by_cases h0 : q.size = 0
  · simp [h0, contents]
  · have hpos : 0 < q.data.length := by have := h.size_le; omega
    simp only [if_neg h0]
    rw [copyLoop_eq q _ (Or.inr hpos) (by simp)]
    simp

theorem newLen_gt (q : OptimalQueue T) : q.data.length < newLen q := by
  unfold newLen; split <;> omega

/-- A full buffer (also the buffer of length 0) is replaced by a longer one that holds
the same elements from index 0. -/
theorem resize_eq [Inhabited T] {q : OptimalQueue T} (h : Inv q) :
    resize q = some (grown q) := by
  have hlen : q.size = 0 ∨ 0 < q.data.length := by have := h.size_le; omega
  have hle : q.size ≤ (List.replicate (newLen q) (default : T)).length := by
    have := newLen_gt q; have := h.size_le; simp only [List.length_replicate]; omega
  have := copyLoop_eq q _ hlen hle
  simp only [resize, grown]
  unfold newLen at this
  rw [this]
  simp [newLen]

theorem grown_length [Inhabited T] {q : OptimalQueue T} (h : Inv q) :
    (grown q).data.length = newLen q := by
  have := newLen_gt q; have := h.size_le
  simp only [grown, List.length_append, contents_length, List.length_replicate]; omega

theorem inv_grown [Inhabited T] {q : OptimalQueue T} (h : Inv q) : Inv (grown q) := by
  have hl := grown_length h
  have := newLen_gt q; have := h.size_le
  constructor
  · rw [hl]; simp only [grown]; omega
  · intro _; rw [hl]; simp only [grown]; omega
  · intro _; rw [hl]; simp only [grown, Nat.zero_add]; rw [Nat.mod_eq_of_lt (by omega)]
  · intro h0; omega

theorem contents_grown [Inhabited T] {q : OptimalQueue T} (h : Inv q) :
    contents (grown q) = contents q := by
  have hl := grown_length h
  have := newLen_gt q; have := h.size_le
  unfold contents
  apply List.map_congr_left
  intro i hi
  have hi1 : i < q.size := List.mem_range.mp hi
  have hi2 : i < (contents q).length := by rw [contents_length]; exact hi1
  unfold slot
  rw [hl]
  simp only [grown, Nat.zero_add]
  rw [Nat.mod_eq_of_lt (by omega), List.getD_append _ _ _ _ hi2]
  simp [contents, List.getD_eq_getElem?_getD, List.getElem?_range hi1, slot]

theorem tail_lt {q : OptimalQueue T} (h : Inv q) (hpos : 0 < q.data.length) :
    q.tail < q.data.length := by
  rw [h.tail_eq hpos]; exact Nat.mod_lt _ hpos

theorem enqueue_eq [Inhabited T] {q : OptimalQueue T} (h : Inv q) (e : T) :
    Enqueue q e = some (pushed (if q.size = q.data.length then grown q else q) e) := by
  unfold Enqueue
  by_cases hfull : q.size = q.data.length
  · have hi := inv_grown h
    have hpos : 0 < (grown q).data.length := by
      rw [grown_length h]; have := newLen_gt q; omega
    simp only [if_pos hfull, resize_eq h, Option.bind_eq_bind, Option.some_bind,
      sliceSet_lt e (tail_lt hi hpos)]
    rw [goMod_pos _ (by simpa using hpos)]
    simp [pushed]
  · have hpos : 0 < q.data.length := by have := h.size_le; omega
    simp only [if_neg hfull, Option.bind_eq_bind, Option.some_bind, Option.pure_def,
      sliceSet_lt e (tail_lt h hpos)]
    rw [goMod_pos _ (by simpa using hpos)]
    simp [pushed]

theorem inv_pushed {q : OptimalQueue T} (h : Inv q) (hlt : q.size < q.data.length) (e : T) :
    Inv (pushed q e) := by
  have hpos : 0 < q.data.length := by omega
  constructor
  · simp only [pushed, List.length_set]; omega
  · intro _; simp only [pushed, List.length_set]; exact h.head_lt hpos
  · intro _
    simp only [pushed, List.length_set]
    rw [h.tail_eq hpos, Nat.mod_add_mod, Nat.add_assoc]
  · intro h0; simp only [pushed, List.length_set] at h0; omega

theorem contents_pushed [Inhabited T] {q : OptimalQueue T} (h : Inv q)
    (hlt : q.size < q.data.length) (e : T) :
    contents (pushed q e) = contents q ++ [e] := by
  have hpos : 0 < q.data.length := by omega
  have ht := tail_lt h hpos
  unfold contents
  have hs : (pushed q e).size = q.size + 1 := rfl
  rw [hs, List.range_succ, List.map_append]
  congr 1
  · apply List.map_congr_left
    intro i hi
    have hi1 : i < q.size := List.mem_range.mp hi
    have hne : q.tail ≠ (q.head + i) % q.data.length := by
      rw [h.tail_eq hpos]; exact (mod_add_ne hi1 hlt).symm
    simp [slot, pushed, List.getD_eq_getElem?_getD, List.getElem?_set, hne]
  · simp [slot, pushed, List.getD_eq_getElem?_getD, List.getElem?_set, ← h.tail_eq hpos, ht]

theorem enqueue_spec [Inhabited T] {q : OptimalQueue T} (h : Inv q) (e : T) :
    ∃ q1, Enqueue q e = some q1 ∧ Inv q1 ∧ contents q1 = contents q ++ [e] ∧
      q1.size = q.size + 1 := by
  refine ⟨_, enqueue_eq h e, ?_⟩
  by_cases hfull : q.size = q.data.length
  · have hlt : (grown q).size < (grown q).data.length := by
      rw [grown_length h]; have := newLen_gt q; simp only [grown]; omega
    simp only [if_pos hfull]
    exact ⟨inv_pushed (inv_grown h) hlt e,
      by rw [contents_pushed (inv_grown h) hlt, contents_grown h], rfl⟩
  · have hlt : q.size < q.data.length := by have := h.size_le; omega
    simp only [if_neg hfull]
    exact ⟨inv_pushed h hlt e, contents_pushed h hlt e, rfl⟩

theorem dequeue_empty [Inhabited T] {q : OptimalQueue T} (h0 : q.size = 0) :
    Dequeue q = some ((default, false), q) := by
  simp [Dequeue, h0]

theorem peek_empty [Inhabited T] {q : OptimalQueue T} (h0 : q.size = 0) :
    Peek q = some ((default, false), q) := by
  simp [Peek, h0]

theorem dequeue_eq [Inhabited T] {q : OptimalQueue T} (h : Inv q) (h0 : q.size ≠ 0) :
    Dequeue q = some ((slot q 0, true), popped q) := by
  have hpos : 0 < q.data.length := by have := h.size_le; omega
  have hh := h.head_lt hpos
  simp only [Dequeue, if_neg h0, sliceGet_lt hh, goMod_pos _ hpos, Option.bind_eq_bind,
    Option.some_bind]
  simp [slot, popped, Nat.mod_eq_of_lt hh]

theorem peek_eq [Inhabited T] {q : OptimalQueue T} (h : Inv q) (h0 : q.size ≠ 0) :
    Peek q = some ((slot q 0, true), q) := by
  have hpos : 0 < q.data.length := by have := h.size_le; omega
  have hh := h.head_lt hpos
  simp only [Peek, if_neg h0, sliceGet_lt hh, Option.bind_eq_bind, Option.some_bind]
  simp [slot, Nat.mod_eq_of_lt hh]

theorem inv_popped {q : OptimalQueue T} (h : Inv q) (h0 : q.size ≠ 0) : Inv (popped q) := by
  have hpos : 0 < q.data.length := by have := h.size_le; omega
  have := h.size_le
  constructor
  · simp only [popped]; omega
  · intro _; simp only [popped]; exact Nat.mod_lt _ hpos
  · intro _
    simp only [popped]
    rw [h.tail_eq hpos, Nat.mod_add_mod]
    congr 1; omega
  · intro h1; simp only [popped] at h1; omega

theorem contents_popped [Inhabited T] {q : OptimalQueue T} (h0 : q.size ≠ 0) :
    contents q = slot q 0 :: contents (popped q) := by
  unfold contents
  obtain ⟨n, hn⟩ : ∃ n, q.size = n + 1 := ⟨q.size - 1, by omega⟩
  have hs : (popped q).size = n := by simp [popped, hn]
  rw [hs, hn, List.range_succ_eq_map, List.map_cons, List.map_map]
  congr 1
  apply List.map_congr_left
  intro i _
  simp only [Function.comp, slot, popped, Nat.mod_add_mod]
  congr 2; omega

/-! ## Reachable states satisfy the invariant -/

theorem step_toSlice [Inhabited T] {q : OptimalQueue T} (h : Inv q) :
    q.step .toSlice = some (Obs.slice (contents q), q) := by
  simp [OptimalQueue.step, toSlice_eq h]

theorem step_enqueue [Inhabited T] {q : OptimalQueue T} (h : Inv q) (e : T) :
    q.step (.method (.enqueue e)) =
      some (Obs.unit, pushed (if q.size = q.data.length then grown q else q) e) := by
  simp [OptimalQueue.step, OptimalQueue.call, enqueue_eq h]

theorem step_dequeue_empty [Inhabited T] {q : OptimalQueue T} (h0 : q.size = 0) :
    q.step (.method .dequeue) = some (Obs.pair default false, q) := by
  simp [OptimalQueue.step, OptimalQueue.call, dequeue_empty h0]

theorem step_dequeue [Inhabited T] {q : OptimalQueue T} (h : Inv q) (h0 : q.size ≠ 0) :
    q.step (.method .dequeue) = some (Obs.pair (slot q 0) true, popped q) := by
  simp [OptimalQueue.step, OptimalQueue.call, dequeue_eq h h0]

theorem step_peek_empty [Inhabited T] {q : OptimalQueue T} (h0 : q.size = 0) :
    q.step (.method .peek) = some (Obs.pair default false, q) := by
  simp [OptimalQueue.step, OptimalQueue.call, peek_empty h0]

theorem step_peek [Inhabited T] {q : OptimalQueue T} (h : Inv q) (h0 : q.size ≠ 0) :
    q.step (.method .peek) = some (Obs.pair (slot q 0) true, q) := by
  simp [OptimalQueue.step, OptimalQueue.call, peek_eq h h0]

/-- Every public call on a state that satisfies the invariant returns (does not panic)
and yields a state that satisfies the invariant. -/
theorem step_inv [Inhabited T] {q : OptimalQueue T} (h : Inv q) (op : Op T) :
    ∃ o q1, q.step op = some (o, q1) ∧ Inv q1 := by
  cases op with
  | toSlice => exact ⟨_, _, step_toSlice h, h⟩
  | method m =>
    cases m with
    | enqueue e =>
      obtain ⟨q1, h1, hi, _, _⟩ := enqueue_spec h e
      rw [enqueue_eq h] at h1
      cases h1
      exact ⟨_, _, step_enqueue h e, hi⟩
    | dequeue =>
      by_cases h0 : q.size = 0
      · exact ⟨_, _, step_dequeue_empty h0, h⟩
      · exact ⟨_, _, step_dequeue h h0, inv_popped h h0⟩
    | peek =>
      by_cases h0 : q.size = 0
      · exact ⟨_, _, step_peek_empty h0, h⟩
      · exact ⟨_, _, step_peek h h0, h⟩
    | size => exact ⟨_, _, rfl, h⟩
    | isEmpty => exact ⟨_, _, rfl, h⟩
    | clear => exact ⟨_, _, rfl, inv_clear h⟩

theorem inv_of_step [Inhabited T] {q q1 : OptimalQueue T} {op : Op T} {o : Obs T}
    (h : Inv q) (hs : q.step op = some (o, q1)) : Inv q1 := by
  obtain ⟨o2, q2, h2, hi⟩ := step_inv h op
  rw [hs] at h2
  cases h2
  exact hi

theorem inv_of_reachable [Inhabited T] {q : OptimalQueue T} (h : Reachable q) : Inv q := by
  induction h with
  | init => exact inv_new
  | step op o _ hs ih => exact inv_of_step ih hs

theorem run_cons [Inhabited T] (q : OptimalQueue T) (op : Op T) (ops : List (Op T))
    {o : Obs T} {q1 : OptimalQueue T} (hs : q.step op = some (o, q1)) :
    q.run (op :: ops) = (q1.run ops).map (fun r => (o :: r.1, r.2)) := by
  simp only [OptimalQueue.run, hs, Option.bind_eq_bind, Option.some_bind]
  cases q1.run ops <;> rfl

/-- A sequence of public calls from a reachable state ends in a reachable state. -/
theorem reachable_run [Inhabited T] {q : OptimalQueue T} (h : Reachable q) (ops : List (Op T))
    (obs : List (Obs T)) {q1 : OptimalQueue T} (hr : q.run ops = some (obs, q1)) :
    Reachable q1 := by
  induction ops generalizing q obs with
  | nil => simp only [OptimalQueue.run, Option.some.injEq, Prod.mk.injEq] at hr; rw [← hr.2]; exact h
  | cons op ops ih =>
    obtain ⟨o, q2, hs, _⟩ := step_inv (inv_of_reachable h) op
    rw [run_cons q op ops hs] at hr
    cases hq : q2.run ops with
    | none => simp [hq] at hr
    | some r =>
      rw [hq] at hr
      simp only [Option.map_some', Option.some.injEq, Prod.mk.injEq] at hr
      exact ih (Reachable.step op o h hs) r.1 (by rw [hq, ← hr.2])

/-- A sequence of public calls on a state that satisfies the invariant returns. -/
theorem run_inv [Inhabited T] {q : OptimalQueue T} (h : Inv q) (ops : List (Op T)) :
    ∃ obs q1, q.run ops = some (obs, q1) ∧ Inv q1 ∧ obs.length = ops.length := by
  induction ops generalizing q with
  | nil => exact ⟨[], q, rfl, h, rfl⟩
  | cons op ops ih =>
    obtain ⟨o, q2, hs, hi⟩ := step_inv h op
    obtain ⟨obs, q1, hr, hi1, hl⟩ := ih hi
    exact ⟨o :: obs, q1, by rw [run_cons q op ops hs, hr]; rfl, hi1, by simp [hl]⟩

/-! ## FIFO order -/

theorem enqueueAll_spec [Inhabited T] {q : OptimalQueue T} (h : Inv q) (vs : List T) :
    ∃ q1, enqueueAll q vs = some q1 ∧ Inv q1 ∧ contents q1 = contents q ++ vs := by
  induction vs generalizing q with
  | nil => exact ⟨q, rfl, h, by simp⟩
  | cons v vs ih =>
    obtain ⟨q1, h1, hi, hc, _⟩ := enqueue_spec h v
    obtain ⟨q2, h2, hi2, hc2⟩ := ih hi
    exact ⟨q2, by simp [enqueueAll, h1, h2], hi2, by simp [hc2, hc]⟩

theorem dequeueN_spec [Inhabited T] {q : OptimalQueue T} (h : Inv q) (xs ys : List T)
    (hc : contents q = xs ++ ys) :
    ∃ q1, dequeueN q xs.length = some (xs.map (fun v => (v, true)), q1) ∧ Inv q1 ∧
      contents q1 = ys := by
  induction xs generalizing q with
  | nil => exact ⟨q, rfl, h, by simpa using hc⟩
  | cons x xs ih =>
    have h0 : q.size ≠ 0 := by
      have := contents_length q; rw [hc] at this; simp at this; omega
    have hp := contents_popped h0
    rw [hc, List.cons_append, List.cons.injEq] at hp
    obtain ⟨q1, h1, hi, hc1⟩ := ih (inv_popped h h0) hp.2.symm
    exact ⟨q1, by simp [dequeueN, dequeue_eq h h0, h1, ← hp.1], hi, hc1⟩

/-- C1: for every list of values `vs`, enqueueing the values of `vs` one by one on a fresh
`OptimalQueue` and then calling `Dequeue` `vs.length` times does not panic, the dequeues
return `(v, true)` for the values of `vs` in their order, and the queue is empty
afterwards (`Size` 0, `IsEmpty` true, `ToSlice` empty). -/
theorem fifo_order [Inhabited T] (vs : List T) :
    ∃ q1 q2, enqueueAll NewOptimalQueue vs = some q1 ∧
      dequeueN q1 vs.length = some (vs.map (fun v => (v, true)), q2) ∧
      (Size q2).1 = 0 ∧ (IsEmpty q2).1 = true ∧ ToSlice q2 = some ([], q2) := by
  obtain ⟨q1, h1, hi1, hc1⟩ := enqueueAll_spec (inv_new (T := T)) vs
  rw [contents_new, List.nil_append] at hc1
  obtain ⟨q2, h2, hi2, hc2⟩ := dequeueN_spec hi1 vs [] (by simpa using hc1)
  have hs : q2.size = 0 := by rw [← contents_length q2, hc2]; rfl
  refine ⟨q1, q2, h1, h2, hs, by simp [IsEmpty, hs], ?_⟩
  rw [toSlice_eq hi2, hc2]

/-! ## The ring buffer against the simple queue -/

/-- One interface call keeps the two queues in step: same returned value, and the simple
queue's slice is again the ring buffer's live elements. -/
theorem call_sim [Inhabited T] {q : OptimalQueue T} {s : queue T} (h : Inv q)
    (hc : contents q = s.data) (m : QueueOp T) :
    ∃ o q1 s1, q.step (.method m) = some (o, q1) ∧ s.call m = some (o, s1) ∧ Inv q1 ∧
      contents q1 = s1.data := by
  have hlen : s.data.length = q.size := by rw [← hc, contents_length]
  cases m with
  | enqueue e =>
    obtain ⟨q1, h1, hi, hc1, _⟩ := enqueue_spec h e
    rw [enqueue_eq h] at h1
    cases h1
    exact ⟨_, _, _, step_enqueue h e, rfl, hi, by rw [hc1, hc]; rfl⟩
  | dequeue =>
    by_cases h0 : q.size = 0
    · exact ⟨_, _, _, step_dequeue_empty h0, by simp [queue.call, queue.Dequeue, hlen, h0], h,
        hc⟩
    · have hp := contents_popped (q := q) h0
      rw [hc] at hp
      refine ⟨_, _, { data := s.data.drop 1 }, step_dequeue h h0, ?_, inv_popped h h0, ?_⟩
      · simp [queue.call, queue.Dequeue, hlen, h0, sliceGet, hp]
      · simp [hp]
  | peek =>
    by_cases h0 : q.size = 0
    · exact ⟨_, _, _, step_peek_empty h0, by simp [queue.call, queue.Peek, hlen, h0], h, hc⟩
    · have hp := contents_popped (q := q) h0
      rw [hc] at hp
      exact ⟨_, _, _, step_peek h h0, by simp [queue.call, queue.Peek, hlen, h0, sliceGet, hp],
        h, hc⟩
  | size => exact ⟨_, _, _, rfl, by simp [queue.call, queue.Size, Size, hlen], h, hc⟩
  | isEmpty => exact ⟨_, _, _, rfl, by simp [queue.call, queue.IsEmpty, IsEmpty, hlen], h, hc⟩
  | clear =>
    exact ⟨_, _, _, rfl, rfl, inv_clear h, by simp [contents_clear, queue.Clear]⟩

theorem runCalls_sim [Inhabited T] {q : OptimalQueue T} {s : queue T} (h : Inv q)
    (hc : contents q = s.data) (ms : List (QueueOp T)) :
    ∃ obs q1 s1, q.runCalls ms = some (obs, q1) ∧ s.runCalls ms = some (obs, s1) ∧ Inv q1 ∧
      contents q1 = s1.data := by
  induction ms generalizing q s with
  | nil => exact ⟨[], q, s, rfl, rfl, h, hc⟩
  | cons m ms ih =>
    obtain ⟨o, q1, s1, hq, hs, hi, hc1⟩ := call_sim h hc m
    obtain ⟨obs, q2, s2, hq2, hs2, hi2, hc2⟩ := ih hi hc1
    refine ⟨o :: obs, q2, s2, ?_, ?_, hi2, hc2⟩
    · unfold OptimalQueue.runCalls at hq2 ⊢
      rw [List.map_cons, run_cons q _ _ hq, hq2]; rfl
    · simp [queue.runCalls, hs, hs2]

/-- C2: for every finite sequence of calls of `Enqueue(x)`, `Dequeue`, `Peek`, `Size`,
`IsEmpty` and `Clear`, the sequence applied to a fresh `OptimalQueue` and to a fresh simple
queue runs to its end on both without a panic and both return the same list of results, call
by call; at the end the two agree on `Size()` and `IsEmpty()`, and `ToSlice()` of the ring
buffer is the slice of the simple queue. -/
theorem differential_equivalence [Inhabited T] (ms : List (QueueOp T)) :
    ∃ obs q s, (NewOptimalQueue : OptimalQueue T).runCalls ms = some (obs, q) ∧
      (newQueue : queue T).runCalls ms = some (obs, s) ∧
      obs.length = ms.length ∧
      (Size q).1 = s.Size.1 ∧ (IsEmpty q).1 = s.IsEmpty.1 ∧
      ToSlice q = some (s.data, q) := by
  obtain ⟨obs, q, s, hq, hs, hi, hc⟩ :=
    runCalls_sim (inv_new (T := T)) (s := newQueue) (by simp [contents_new, newQueue]) ms
  have hlen : s.data.length = q.size := by rw [← hc, contents_length]
  obtain ⟨obs2, q2, h2, _, hl⟩ := run_inv (inv_new (T := T)) (ms.map Op.method)
  have hobs : obs.length = ms.length := by
    unfold OptimalQueue.runCalls at hq
    rw [hq] at h2
    simp only [Option.some.injEq, Prod.mk.injEq] at h2
    rw [h2.1, hl, List.length_map]
  exact ⟨obs, q, s, hq, hs, hobs, by simp [Size, queue.Size, hlen],
    by simp [IsEmpty, queue.IsEmpty, hlen], by rw [toSlice_eq hi, hc]⟩

/-! ## Concrete runs -/

theorem run_wrapCalls :
    (NewOptimalQueue : OptimalQueue Nat).run wrapCalls =
      some ([.unit, .unit, .unit, .unit, .pair 1 true, .pair 2 true, .unit, .unit],
        wrappedFull) := by
  decide

theorem reachable_wrappedFull : Reachable wrappedFull :=
  reachable_run Reachable.init wrapCalls _ run_wrapCalls

theorem run_scenarioCalls :
    (NewOptimalQueue : OptimalQueue Nat).run scenarioCalls =
      some (scenarioResults, afterScenario) := by
  decide

theorem reachable_drained : Reachable drained :=
  reachable_run Reachable.init [.method (.enqueue 7), .method .dequeue]
    [.unit, .pair 7 true] (by decide)

/-! ## Enqueue, Dequeue and the empty queue -/

/-- C3: in every state reachable from `NewOptimalQueue` through the public methods,
`ToSlice` returns some `L` and `Enqueue(e)` returns (no panic) with a state whose `ToSlice`
is `L ++ [e]` and whose `Size` is `len(L) + 1`, with or without a resize and with or
without wrap-around. -/
theorem enqueue_appends [Inhabited T] (q : OptimalQueue T) (h : Reachable q) (e : T) :
    ∃ L q1, ToSlice q = some (L, q) ∧ Enqueue q e = some q1 ∧
      ToSlice q1 = some (L ++ [e], q1) ∧ (Size q1).1 = L.length + 1 := by
  have hi := inv_of_reachable h
  obtain ⟨q1, h1, hi1, hc1, hs1⟩ := enqueue_spec hi e
  exact ⟨contents q, q1, toSlice_eq hi, h1, by rw [toSlice_eq hi1, hc1],
    by simp [Size, hs1, contents_length]⟩

/-- Witness of C3 on a full buffer whose live elements wrap around: `Enqueue(9)` resizes
and `ToSlice` goes from `[3, 4, 5, 6]` to `[3, 4, 5, 6, 9]`. -/
theorem enqueue_appends_witness :
    Reachable wrappedFull ∧
    ∃ L q1, ToSlice wrappedFull = some (L, wrappedFull) ∧ Enqueue wrappedFull 9 = some q1 ∧
      ToSlice q1 = some (L ++ [9], q1) ∧ (Size q1).1 = L.length + 1 :=
  ⟨reachable_wrappedFull, enqueue_appends wrappedFull reachable_wrappedFull 9⟩

/-- C4: in every reachable state whose `ToSlice` is `x :: L`, `Dequeue` returns `(x, true)`
and leaves a state whose `ToSlice` is `L` and whose `Size` is `len(L)`; and on a fresh
queue, `Enqueue` of 1, 2, 3, 4, 5, then `ToSlice`, `Peek`, three `Dequeue`, `ToSlice`,
`Size` return `[1,2,3,4,5]`, `(1,true)`, `(1,true)`, `(2,true)`, `(3,true)`, `[4,5]`, `2`. -/
theorem dequeue_head [Inhabited T] (q : OptimalQueue T) (h : Reachable q) (x : T)
    (L : List T) (hL : ToSlice q = some (x :: L, q)) :
    (∃ q1, Dequeue q = some ((x, true), q1) ∧ ToSlice q1 = some (L, q1) ∧
      (Size q1).1 = L.length) ∧
    (NewOptimalQueue : OptimalQueue Nat).run scenarioCalls =
      some (scenarioResults, afterScenario) := by
  refine ⟨?_, run_scenarioCalls⟩
  have hi := inv_of_reachable h
  rw [toSlice_eq hi] at hL
  simp only [Option.some.injEq, Prod.mk.injEq, and_true] at hL
  have h0 : q.size ≠ 0 := by
    have := contents_length q; rw [hL] at this; simp at this; omega
  have hp := contents_popped h0
  rw [hL, List.cons.injEq] at hp
  have hi1 := inv_popped hi h0
  refine ⟨popped q, by rw [dequeue_eq hi h0, ← hp.1], by rw [toSlice_eq hi1, ← hp.2], ?_⟩
  rw [hp.2, contents_length]; rfl

/-- Witness of C4 on the wrapped full buffer, whose `ToSlice` is `3 :: [4, 5, 6]`. -/
theorem dequeue_head_witness :
    Reachable wrappedFull ∧ ToSlice wrappedFull = some (3 :: [4, 5, 6], wrappedFull) ∧
    ((∃ q1, Dequeue wrappedFull = some ((3, true), q1) ∧ ToSlice q1 = some ([4, 5, 6], q1) ∧
      (Size q1).1 = [4, 5, 6].length) ∧
    (NewOptimalQueue : OptimalQueue Nat).run scenarioCalls =
      some (scenarioResults, afterScenario)) :=
  ⟨reachable_wrappedFull, by decide,
    dequeue_head wrappedFull reachable_wrappedFull 3 [4, 5, 6] (by decide)⟩

/-- C5: on every `OptimalQueue` whose `Size()` is 0, `Dequeue` and `Peek` both return
`(zero value, false)`, `IsEmpty()` is true, and each of the three calls leaves the state
(head, tail, size, buffer) as it was. -/
theorem empty_signal [Inhabited T] (q : OptimalQueue T) (h0 : (Size q).1 = 0) :
    Dequeue q = some ((default, false), q) ∧ Peek q = some ((default, false), q) ∧
      IsEmpty q = (true, q) := by
  have h1 : q.size = 0 := h0
  exact ⟨dequeue_empty h1, peek_empty h1, by simp [IsEmpty, h1]⟩

/-- Witness of C5 on a fresh queue, on a drained queue and on a cleared queue. -/
theorem empty_signal_witness :
    ((Size (NewOptimalQueue : OptimalQueue Nat)).1 = 0 ∧
      Dequeue (NewOptimalQueue : OptimalQueue Nat) = some ((0, false), NewOptimalQueue) ∧
      Peek (NewOptimalQueue : OptimalQueue Nat) = some ((0, false), NewOptimalQueue) ∧
      IsEmpty (NewOptimalQueue : OptimalQueue Nat) = (true, NewOptimalQueue)) ∧
    (Reachable drained ∧ (Size drained).1 = 0 ∧
      Dequeue drained = some ((0, false), drained) ∧
      Peek drained = some ((0, false), drained) ∧ IsEmpty drained = (true, drained)) ∧
    ((Size (Clear wrappedFull)).1 = 0 ∧
      Dequeue (Clear wrappedFull) = some ((0, false), Clear wrappedFull) ∧
      Peek (Clear wrappedFull) = some ((0, false), Clear wrappedFull) ∧
      IsEmpty (Clear wrappedFull) = (true, Clear wrappedFull)) :=
  ⟨⟨rfl, empty_signal NewOptimalQueue rfl⟩,
    ⟨reachable_drained, rfl, empty_signal drained rfl⟩,
    ⟨rfl, empty_signal (Clear wrappedFull) rfl⟩⟩

/-! ## Size against the number of calls -/

theorem countEnqueue_cons (op : Op T) (ops : List (Op T)) :
    countEnqueue (op :: ops) = countEnqueue [op] + countEnqueue ops := by
  cases op with
  | toSlice => simp [countEnqueue]
  | method m => cases m <;> simp [countEnqueue, Nat.add_comm]

theorem countEnqueue_append (xs ys : List (Op T)) :
    countEnqueue (xs ++ ys) = countEnqueue xs + countEnqueue ys := by
  induction xs with
  | nil => simp [countEnqueue]
  | cons x xs ih =>
    rw [List.cons_append, countEnqueue_cons, ih, countEnqueue_cons x xs, Nat.add_assoc]

theorem countDequeued_cons (op : Op T) (o : Obs T) (ops : List (Op T)) (os : List (Obs T)) :
    countDequeued (op :: ops) (o :: os) = countDequeued [op] [o] + countDequeued ops os := by
  cases op with
  | toSlice => simp [countDequeued]
  | method m =>
    cases m <;> try simp [countDequeued]
    cases o <;> try simp [countDequeued]
    rename_i v found
    cases found <;> simp [countDequeued, Nat.add_comm]

/-- One call changes `size` by what the counters count: never by more than the `Enqueue`
it is, and exactly by `Enqueue` minus successful `Dequeue` unless it is a `Clear`. -/
theorem step_count [Inhabited T] {q q1 : OptimalQueue T} (h : Inv q) {op : Op T} {o : Obs T}
    (hs : q.step op = some (o, q1)) :
    q1.size ≤ q.size + countEnqueue [op] ∧
    (op ≠ .method .clear → q1.size + countDequeued [op] [o] = q.size + countEnqueue [op]) := by
  cases op with
  | toSlice =>
    rw [step_toSlice h] at hs; cases hs
    simp [countEnqueue, countDequeued]
  | method m =>
    cases m with
    | enqueue e =>
      rw [step_enqueue h] at hs; cases hs
      obtain ⟨q1, h1, _, _, hs1⟩ := enqueue_spec h e
      rw [enqueue_eq h] at h1; cases h1
      simp [countEnqueue, countDequeued, hs1]
    | dequeue =>
      by_cases h0 : q.size = 0
      · rw [step_dequeue_empty h0] at hs; cases hs
        simp [countEnqueue, countDequeued]
      · rw [step_dequeue h h0] at hs; cases hs
        simp only [countEnqueue, countDequeued, popped]
        omega
    | peek =>
      by_cases h0 : q.size = 0
      · rw [step_peek_empty h0] at hs; cases hs
        simp [countEnqueue, countDequeued]
      · rw [step_peek h h0] at hs; cases hs
        simp [countEnqueue, countDequeued]
    | size => cases hs; simp [countEnqueue, countDequeued, Size]
    | isEmpty => cases hs; simp [countEnqueue, countDequeued, IsEmpty]
    | clear => cases hs; simp [countEnqueue, Clear]

theorem run_count [Inhabited T] {q : OptimalQueue T} (h : Inv q) (ops : List (Op T)) :
    ∃ obs q1, q.run ops = some (obs, q1) ∧ Inv q1 ∧ obs.length = ops.length ∧
      q1.size ≤ q.size + countEnqueue ops ∧
      ((∀ op ∈ ops, op ≠ .method .clear) →
        q1.size + countDequeued ops obs = q.size + countEnqueue ops) := by
  induction ops generalizing q with
  | nil => exact ⟨[], q, rfl, h, rfl, by simp [countEnqueue], by simp [countEnqueue, countDequeued]⟩
  | cons op ops ih =>
    obtain ⟨o, q2, hs, hi⟩ := step_inv h op
    obtain ⟨obs, q1, hr, hi1, hl, hle, heq⟩ := ih hi
    obtain ⟨hle1, heq1⟩ := step_count h hs
    refine ⟨o :: obs, q1, by rw [run_cons q op ops hs, hr]; rfl, hi1, by simp [hl], ?_, ?_⟩
    · rw [countEnqueue_cons]; omega
    · intro hno
      have h1 := heq1 (hno op (List.mem_cons_self _ _))
      have h2 := heq (fun x hx => hno x (List.mem_cons_of_mem _ hx))
      rw [countEnqueue_cons, countDequeued_cons]; omega

theorem run_append [Inhabited T] {q q1 q2 : OptimalQueue T} (xs ys : List (Op T))
    (os1 : List (Obs T)) {os2 : List (Obs T)} (h1 : q.run xs = some (os1, q1))
    (h2 : q1.run ys = some (os2, q2)) :
    q.run (xs ++ ys) = some (os1 ++ os2, q2) := by
  induction xs generalizing q os1 with
  | nil =>
    simp only [OptimalQueue.run, Option.some.injEq, Prod.mk.injEq] at h1
    rw [List.nil_append, ← h1.1, h1.2, h2]; rfl
  | cons x xs ih =>
    cases hx : q.step x with
    | none => simp [OptimalQueue.run, hx] at h1
    | some r =>
      obtain ⟨o, q3⟩ := r
      rw [run_cons q x xs hx] at h1
      cases hr : q3.run xs with
      | none => simp [hr] at h1
      | some r2 =>
        obtain ⟨os3, q4⟩ := r2
        rw [hr] at h1
        simp only [Option.map_some', Option.some.injEq, Prod.mk.injEq] at h1
        rw [List.cons_append, run_cons q x _ hx, ih (q := q3) os3 (by rw [hr, h1.2]),
          ← h1.1]
        rfl

/-- C6, as stated, fails: after `Enqueue(7)` and `Clear` on a fresh queue `Size()` is 0,
while one `Enqueue` was called and no `Dequeue` returned `found = true`. -/
theorem size_counts_counterexample :
    ∃ obs q,
      (NewOptimalQueue : OptimalQueue Nat).run [.method (.enqueue 7), .method .clear] =
        some (obs, q) ∧
      (Size q).1 = 0 ∧
      countEnqueue [Op.method (.enqueue 7), Op.method .clear] = 1 ∧
      countDequeued [Op.method (.enqueue 7), Op.method .clear] obs = 0 ∧
      (Size q).1 ≠
        countEnqueue [Op.method (.enqueue 7), Op.method .clear] -
          countDequeued [Op.method (.enqueue 7), Op.method .clear] obs :=
  ⟨[.unit, .unit], { data := [7, 0, 0, 0], head := 0, tail := 0, size := 0 },
    by decide, by decide, by decide, by decide, by decide⟩

/-- C6, amended: let a finite sequence of public calls on a fresh `OptimalQueue` be split
as `pre ++ post`, where `post` holds the calls after the last `Clear` (`pre` is empty or
ends with a `Clear`, `post` contains no `Clear`).  The sequence runs to its end without a
panic, `Size()` equals the number of `Enqueue` calls in `post` minus the number of `Dequeue`
calls in `post` that returned `found = true`, and `Size()` is at most the number of
`Enqueue` calls of the whole sequence. -/
theorem size_counts_since_clear [Inhabited T] (pre post : List (Op T))
    (hpre : pre = [] ∨ ∃ pre0, pre = pre0 ++ [.method .clear])
    (hpost : ∀ op ∈ post, op ≠ .method .clear) :
    ∃ obs q, (NewOptimalQueue : OptimalQueue T).run (pre ++ post) = some (obs, q) ∧
      obs.length = pre.length + post.length ∧
      (Size q).1 + countDequeued post (obs.drop pre.length) = countEnqueue post ∧
      (Size q).1 ≤ countEnqueue (pre ++ post) := by
  obtain ⟨obs1, q1, hr1, hi1, hl1, _, _⟩ := run_count (inv_new (T := T)) pre
  have hz : q1.size = 0 := by
    rcases hpre with hnil | ⟨pre0, hp⟩
    · subst hnil
      simp only [OptimalQueue.run, Option.some.injEq, Prod.mk.injEq] at hr1
      rw [← hr1.2]; rfl
    · subst hp
      obtain ⟨obs0, q0, hr0, _, _, _, _⟩ := run_count (inv_new (T := T)) pre0
      have := run_append pre0 [.method .clear] obs0 hr0
        (show q0.run [.method .clear] = some ([.unit], Clear q0) from rfl)
      rw [this] at hr1
      simp only [Option.some.injEq, Prod.mk.injEq] at hr1
      rw [← hr1.2]; rfl
  obtain ⟨obs2, q2, hr2, _, hl2, hle2, heq2⟩ := run_count hi1 post
  refine ⟨obs1 ++ obs2, q2, run_append pre post obs1 hr1 hr2, by simp [hl1, hl2], ?_, ?_⟩
  · have hd : (obs1 ++ obs2).drop pre.length = obs2 := by
      rw [← hl1]; exact List.drop_left' rfl
    have := heq2 hpost
    rw [hd]; simp only [Size]; omega
  · rw [countEnqueue_append]; simp only [Size]; omega

/-- Witness of the amended C6: `Enqueue(7)`, `Clear`, then `Enqueue(1)`, `Enqueue(2)`,
`Dequeue`, `Peek`, `ToSlice`. -/
theorem size_counts_since_clear_witness :
    (([.method (.enqueue 7), .method .clear] : List (Op Nat)) = [] ∨
      ∃ pre0, ([.method (.enqueue 7), .method .clear] : List (Op Nat)) =
        pre0 ++ [.method .clear]) ∧
    (∀ op ∈ ([.method (.enqueue 1), .method (.enqueue 2), .method .dequeue, .method .peek,
        .toSlice] : List (Op Nat)), op ≠ .method .clear) ∧
    ∃ obs q, (NewOptimalQueue : OptimalQueue Nat).run
        ([.method (.enqueue 7), .method .clear] ++
          [.method (.enqueue 1), .method (.enqueue 2), .method .dequeue, .method .peek,
            .toSlice]) = some (obs, q) ∧
      obs.length = ([.method (.enqueue 7), .method .clear] : List (Op Nat)).length +
        ([.method (.enqueue 1), .method (.enqueue 2), .method .dequeue, .method .peek,
            .toSlice] : List (Op Nat)).length ∧
      (Size q).1 + countDequeued
          [.method (.enqueue 1), .method (.enqueue 2), .method .dequeue, .method .peek,
            .toSlice]
          (obs.drop ([.method (.enqueue 7), .method .clear] : List (Op Nat)).length) =
        countEnqueue ([.method (.enqueue 1), .method (.enqueue 2), .method .dequeue,
          .method .peek, .toSlice] : List (Op Nat)) ∧
      (Size q).1 ≤ countEnqueue
        (([.method (.enqueue 7), .method .clear] : List (Op Nat)) ++
          [.method (.enqueue 1), .method (.enqueue 2), .method .dequeue, .method .peek,
            .toSlice]) :=
  ⟨Or.inr ⟨[.method (.enqueue 7)], rfl⟩, by decide,
    size_counts_since_clear [.method (.enqueue 7), .method .clear]
      [.method (.enqueue 1), .method (.enqueue 2), .method .dequeue, .method .peek, .toSlice]
      (Or.inr ⟨[.method (.enqueue 7)], rfl⟩) (by decide)⟩

/-! ## Peek, Clear, ToSlice and the absence of panics -/

/-- C7: in every reachable state `Peek` returns (no panic), leaves head, tail, size and
the buffer as they were, and returns the pair that a `Dequeue` called right after it
returns. -/
theorem peek_frame [Inhabited T] (q : OptimalQueue T) (h : Reachable q) :
    ∃ r q1, Peek q = some (r, q) ∧ Dequeue q = some (r, q1) := by
  have hi := inv_of_reachable h
  by_cases h0 : q.size = 0
  · exact ⟨_, _, peek_empty h0, dequeue_empty h0⟩
  · exact ⟨_, _, peek_eq hi h0, dequeue_eq hi h0⟩

/-- Witness of C7 on the wrapped full buffer. -/
theorem peek_frame_witness :
    Reachable wrappedFull ∧
    ∃ r q1, Peek wrappedFull = some (r, wrappedFull) ∧ Dequeue wrappedFull = some (r, q1) :=
  ⟨reachable_wrappedFull, peek_frame wrappedFull reachable_wrappedFull⟩

/-- C8: for every state, `Clear` after `Clear` gives the state of one `Clear`, and after
`Clear` `Size()` is 0, `IsEmpty()` is true, `ToSlice()` is empty and `Dequeue` returns
`found = false`, whatever the buffer holds. -/
theorem clear_idempotent [Inhabited T] (q : OptimalQueue T) :
    Clear (Clear q) = Clear q ∧ (Size (Clear q)).1 = 0 ∧ (IsEmpty (Clear q)).1 = true ∧
      ToSlice (Clear q) = some ([], Clear q) ∧
      Dequeue (Clear q) = some ((default, false), Clear q) := by
  refine ⟨rfl, rfl, rfl, ?_, ?_⟩
  · simp [ToSlice, Clear]
  · simp [Dequeue, Clear]

/-- C9: in every reachable state `ToSlice` returns (no panic) a slice `L` of length
`Size()` whose element `i`, for `i < Size()`, is `q.data[(q.head + i) % len(q.data)]`
(the modulus is not 0 and the index is in range); `L` is empty when `Size()` is 0; and the
state after the call is the state before it. -/
theorem toSlice_spec [Inhabited T] (q : OptimalQueue T) (h : Reachable q) :
    ∃ L, ToSlice q = some (L, q) ∧ L.length = (Size q).1 ∧
      (∀ i, i < (Size q).1 → ∃ index v, goMod (q.head + i) q.data.length = some index ∧
        sliceGet q.data index = some v ∧ L[i]? = some v) ∧
      ((Size q).1 = 0 → L = []) := by
  have hi := inv_of_reachable h
  refine ⟨contents q, toSlice_eq hi, contents_length q, ?_, ?_⟩
  · intro i hlt
    have hlt1 : i < q.size := hlt
    have hpos : 0 < q.data.length := by have := hi.size_le; omega
    refine ⟨_, _, goMod_pos _ hpos, sliceGet_lt (Nat.mod_lt _ hpos), ?_⟩
    simp [contents, List.getElem?_range hlt1, slot]
  · intro h0
    have h1 : q.size = 0 := h0
    simp [contents, h1]

/-- Witness of C9 on the wrapped full buffer. -/
theorem toSlice_spec_witness :
    Reachable wrappedFull ∧
    ∃ L, ToSlice wrappedFull = some (L, wrappedFull) ∧ L.length = (Size wrappedFull).1 ∧
      (∀ i, i < (Size wrappedFull).1 → ∃ index v,
        goMod (wrappedFull.head + i) wrappedFull.data.length = some index ∧
        sliceGet wrappedFull.data index = some v ∧ L[i]? = some v) ∧
      ((Size wrappedFull).1 = 0 → L = []) :=
  ⟨reachable_wrappedFull, toSlice_spec wrappedFull reachable_wrappedFull⟩

/-- C10: in every state reachable from `NewOptimalQueue` through the public methods, each
of `Enqueue`, `Dequeue`, `Peek`, `Size`, `IsEmpty`, `Clear`, `ToSlice` returns, and so does
`resize`: no slice index is out of range and no remainder is taken by 0 (either would make
the embedded call `none`). -/
theorem no_panic [Inhabited T] (q : OptimalQueue T) (h : Reachable q) (op : Op T) :
    (∃ o q1, q.step op = some (o, q1)) ∧ ∃ q2, resize q = some q2 := by
  have hi := inv_of_reachable h
  obtain ⟨o, q1, hs, _⟩ := step_inv hi op
  exact ⟨⟨o, q1, hs⟩, grown q, resize_eq hi⟩

/-- Witness of C10 on the fresh queue, whose buffer has length 0, and on the wrapped full
buffer. -/
theorem no_panic_witness :
    ((NewOptimalQueue : OptimalQueue Nat).data.length = 0 ∧
      Reachable (NewOptimalQueue : OptimalQueue Nat) ∧
      (∃ o q1, (NewOptimalQueue : OptimalQueue Nat).step (.method (.enqueue 1)) =
        some (o, q1)) ∧
      ∃ q2, resize (NewOptimalQueue : OptimalQueue Nat) = some q2) ∧
    (Reachable wrappedFull ∧
      (∃ o q1, wrappedFull.step (.method (.enqueue 9)) = some (o, q1)) ∧
      ∃ q2, resize wrappedFull = some q2) :=
  ⟨⟨rfl, Reachable.init, no_panic NewOptimalQueue Reachable.init (.method (.enqueue 1))⟩,
    ⟨reachable_wrappedFull, no_panic wrappedFull reachable_wrappedFull (.method (.enqueue 9))⟩⟩

/-! ## Cursor bounds -/

theorem step_length_le [Inhabited T] {q q1 : OptimalQueue T} (h : Inv q) {op : Op T}
    {o : Obs T} (hs : q.step op = some (o, q1)) : q.data.length ≤ q1.data.length := by
  cases op with
  | toSlice => rw [step_toSlice h] at hs; cases hs; exact Nat.le_refl _
  | method m =>
    cases m with
    | enqueue e =>
      rw [step_enqueue h] at hs; cases hs
      by_cases hfull : q.size = q.data.length
      · have := newLen_gt q
        simp only [if_pos hfull, pushed, List.length_set, grown_length h]; omega
      · simp [if_neg hfull, pushed]
    | dequeue =>
      by_cases h0 : q.size = 0
      · rw [step_dequeue_empty h0] at hs; cases hs; exact Nat.le_refl _
      · rw [step_dequeue h h0] at hs; cases hs; exact Nat.le_refl _
    | peek =>
      by_cases h0 : q.size = 0
      · rw [step_peek_empty h0] at hs; cases hs; exact Nat.le_refl _
      · rw [step_peek h h0] at hs; cases hs; exact Nat.le_refl _
    | size => cases hs; exact Nat.le_refl _
    | isEmpty => cases hs; exact Nat.le_refl _
    | clear => cases hs; exact Nat.le_refl _

/-- C11, as stated, fails in the initial state: the buffer of `NewOptimalQueue` has
length 0 (`make([]T, 0, 4)`), so `head < len(data)` and `tail < len(data)` are false. -/
theorem cursor_bounds_counterexample :
    Reachable (NewOptimalQueue : OptimalQueue Nat) ∧
      (NewOptimalQueue : OptimalQueue Nat).data.length = 0 ∧
      ¬ ((NewOptimalQueue : OptimalQueue Nat).head <
          (NewOptimalQueue : OptimalQueue Nat).data.length) ∧
      ¬ ((NewOptimalQueue : OptimalQueue Nat).tail <
          (NewOptimalQueue : OptimalQueue Nat).data.length) :=
  ⟨Reachable.init, rfl, by decide, by decide⟩

/-- C11, amended: in every reachable state `size <= len(data)`; when the buffer is not
empty, `head < len(data)` and `tail < len(data)`; when the buffer has length 0, `head`,
`tail` and `size` are 0.  The buffer is not empty after an `Enqueue` and no public call
makes it shorter, so the cursor bounds hold in every state after the first `Enqueue`. -/
theorem cursor_bounds [Inhabited T] (q : OptimalQueue T) (h : Reachable q) :
    q.size ≤ q.data.length ∧
    (0 < q.data.length → q.head < q.data.length ∧ q.tail < q.data.length) ∧
    (q.data.length = 0 → q.head = 0 ∧ q.tail = 0 ∧ q.size = 0) ∧
    (∀ e, ∃ q1, Enqueue q e = some q1 ∧ 0 < q1.data.length) ∧
    (∀ op o q1, q.step op = some (o, q1) → q.data.length ≤ q1.data.length) := by
  have hi := inv_of_reachable h
  refine ⟨hi.size_le, fun hpos => ⟨hi.head_lt hpos, tail_lt hi hpos⟩, ?_, ?_, ?_⟩
  · intro h0
    have := hi.size_le
    exact ⟨(hi.fresh h0).1, (hi.fresh h0).2, by omega⟩
  · intro e
    obtain ⟨q1, h1, hi1, _, hs1⟩ := enqueue_spec hi e
    exact ⟨q1, h1, by have := hi1.size_le; omega⟩
  · intro op o q1 hs
    exact step_length_le hi hs

/-- Witness of the amended C11 on the wrapped full buffer. -/
theorem cursor_bounds_witness :
    Reachable wrappedFull ∧
    (wrappedFull.size ≤ wrappedFull.data.length ∧
    (0 < wrappedFull.data.length →
      wrappedFull.head < wrappedFull.data.length ∧
      wrappedFull.tail < wrappedFull.data.length) ∧
    (wrappedFull.data.length = 0 →
      wrappedFull.head = 0 ∧ wrappedFull.tail = 0 ∧ wrappedFull.size = 0) ∧
    (∀ e, ∃ q1, Enqueue wrappedFull e = some q1 ∧ 0 < q1.data.length) ∧
    (∀ op o q1, wrappedFull.step op = some (o, q1) →
      wrappedFull.data.length ≤ q1.data.length)) :=
  ⟨reachable_wrappedFull, cursor_bounds wrappedFull reachable_wrappedFull⟩

/-! ## The simple queue alone -/

theorem queue_enqueueAll_data (q : queue T) (vs : List T) :
    (q.enqueueAll vs).data = q.data ++ vs := by
  induction vs generalizing q with
  | nil => simp [queue.enqueueAll]
  | cons v vs ih => simp [queue.enqueueAll, ih, queue.Enqueue]

theorem queue_dequeueN_data [Inhabited T] (xs ys : List T) :
    (queue.mk (xs ++ ys)).dequeueN xs.length =
      some (xs.map (fun v => (v, true)), queue.mk ys) := by
  induction xs with
  | nil => rfl
  | cons x xs ih =>
    simp [queue.dequeueN, queue.Dequeue, sliceGet, ih]

theorem queue_dequeueN_empty [Inhabited T] (k : Nat) :
    (queue.mk ([] : List T)).dequeueN k =
      some (List.replicate k (default, false), queue.mk []) := by
  induction k with
  | zero => rfl
  | succ k ih => simp [queue.dequeueN, queue.Dequeue, ih, List.replicate_succ]

/-- C13: for every list `L` enqueued in order on a fresh simple queue, `Peek` returns
`(head of L, true)` when `L` is not empty (and `(zero value, false)` when it is), the next
`len(L)` calls of `Dequeue` return the elements of `L` in order with `found = true`, any
number of further `Dequeue` calls return `(zero value, false)`, and `Size()` is then 0;
with 1, 2, 3 enqueued, four `Dequeue` calls return 1, 2, 3 and not-found. -/
theorem simple_queue_fifo [Inhabited T] (L : List T) :
    (newQueue.enqueueAll L).Peek =
      some ((L.headD default, !L.isEmpty), newQueue.enqueueAll L) ∧
    (∃ s1, (newQueue.enqueueAll L).dequeueN L.length =
        some (L.map (fun v => (v, true)), s1) ∧
      (∀ k, s1.dequeueN k = some (List.replicate k (default, false), s1)) ∧
      s1.Size.1 = 0) ∧
    ((newQueue : queue Nat).enqueueAll [1, 2, 3]).dequeueN 4 =
      some ([(1, true), (2, true), (3, true), (0, false)], queue.mk []) := by
  have hd : newQueue.enqueueAll L = queue.mk L := by
    have := queue_enqueueAll_data newQueue L
    cases hq : newQueue.enqueueAll L with
    | mk d => rw [hq] at this; simpa [newQueue] using this
  refine ⟨?_, ?_, by decide⟩
  · rw [hd]
    cases L with
    | nil => simp [queue.Peek]
    | cons x xs => simp [queue.Peek, sliceGet]
  · refine ⟨queue.mk [], ?_, queue_dequeueN_empty, rfl⟩
    rw [hd]
    simpa using queue_dequeueN_data L []

theorem wrapInt_of_isInt {x : Int} (h : isInt x) : wrapInt x = x := by
  unfold isInt at h
  unfold wrapInt Int.bmod
  norm_num at h ⊢
  split <;> omega

theorem goSub_eq_iff {t a b : Int} (ht : isInt t) (hb : isInt b) :
    goSub t a = b ↔ goAdd b a = t := by
  unfold isInt at ht hb
  unfold goSub goAdd wrapInt Int.bmod
  norm_num at ht hb ⊢
  split <;> split <;> omega

theorem goAdd_comm (a b : Int) : goAdd a b = goAdd b a := by
  unfold goAdd; rw [Int.add_comm]

theorem isInt_wrapInt (x : Int) : isInt (wrapInt x) := by
  unfold isInt wrapInt Int.bmod
  norm_num
  split <;> omega

theorem twoSumLoop_spec (target : Int) (ht : isInt target) (rest : List Int) :
    ∀ (pre : List Int) (numMap : Int → Option Nat),
      (∀ x ∈ pre ++ rest, isInt x) →
      (∀ k j, numMap k = some j → pre[j]? = some k) →
      (∀ k ∈ pre, ∃ j, numMap k = some j) →
      (∀ (a b : Nat) x y, a < b → pre[a]? = some x → pre[b]? = some y →
        goAdd x y ≠ target) →
      (∀ r, twoSumLoop target numMap pre.length rest = some r →
        ∃ (a b : Nat) (x y : Int), r = [a, b] ∧ a < b ∧ (pre ++ rest)[a]? = some x ∧
          (pre ++ rest)[b]? = some y ∧ goAdd x y = target) ∧
      (twoSumLoop target numMap pre.length rest = none →
        ∀ (a b : Nat) x y, a < b → (pre ++ rest)[a]? = some x →
          (pre ++ rest)[b]? = some y → goAdd x y ≠ target) := by
  induction rest with
  | nil =>
    intro pre numMap _ _ _ h3
    refine ⟨fun r hr => by simp [twoSumLoop] at hr, fun _ => ?_⟩
    simpa using h3
  | cons num rest ih =>
    intro pre numMap hin h1 h2 h3
    cases hc : numMap (goSub target num) with
    | some index =>
      have hidx := h1 _ _ hc
      have hlt : index < pre.length := by
        by_contra hge
        rw [List.getElem?_eq_none (by omega)] at hidx
        cases hidx
      have hsum : goAdd (goSub target num) num = target :=
        (goSub_eq_iff ht (isInt_wrapInt _)).mp rfl
      refine ⟨fun r hr => ?_, fun hr => by simp [twoSumLoop, hc] at hr⟩
      simp only [twoSumLoop, hc, Option.some.injEq] at hr
      exact ⟨index, pre.length, goSub target num, num, hr.symm, hlt,
        by rw [List.getElem?_append_left hlt]; exact hidx,
        by rw [List.getElem?_append_right (Nat.le_refl _)]; simp, hsum⟩
    | none =>
      have key := ih (pre ++ [num]) (fun k => if k = num then some pre.length else numMap k)
      have hnew : twoSumLoop target numMap pre.length (num :: rest) =
          twoSumLoop target (fun k => if k = num then some pre.length else numMap k)
            (pre ++ [num]).length rest := by
        simp [twoSumLoop, hc]
      rw [hnew]
      have happ : pre ++ num :: rest = (pre ++ [num]) ++ rest := by simp
      rw [happ]
      have hpre : ∀ x ∈ pre, isInt x := fun x hx => hin x (List.mem_append_left _ hx)
      · apply key
        · rw [← happ]; exact hin
        · intro k j hkj
          by_cases hk : k = num
          · simp only [hk, if_true, Option.some.injEq] at hkj
            rw [← hkj, hk]; simp
          · simp only [hk, if_false] at hkj
            have := h1 k j hkj
            have hlt : j < pre.length := by
              by_contra hge
              rw [List.getElem?_eq_none (by omega)] at this
              cases this
            rw [List.getElem?_append_left hlt]; exact this
        · intro k hk
          by_cases hkn : k = num
          · exact ⟨pre.length, by simp [hkn]⟩
          · rcases List.mem_append.mp hk with hk | hk
            · obtain ⟨j, hj⟩ := h2 k hk
              exact ⟨j, by simp [hkn, hj]⟩
            · exact absurd (List.mem_singleton.mp hk) hkn
        · intro a b x y hab hx hy
          have hb : b < pre.length + 1 := by
            by_contra hge
            rw [List.getElem?_eq_none (by simp; omega)] at hy
            cases hy
          by_cases hbl : b < pre.length
          · rw [List.getElem?_append_left hbl] at hy
            rw [List.getElem?_append_left (by omega)] at hx
            exact h3 a b x y hab hx hy
          · have hbe : b = pre.length := by omega
            subst hbe
            rw [List.getElem?_append_left hab] at hx
            simp only [List.getElem?_concat_length, Option.some.injEq] at hy
            subst hy
            intro hsum
            have hxin : x ∈ pre := List.getElem?_mem hx
            obtain ⟨j, hj⟩ := h2 x hxin
            have := (goSub_eq_iff (a := num) ht (hpre x hxin)).mpr hsum
            rw [this, hj] at hc
            cases hc

/-- The result of `twoSum` against Go's `+` on `int` (which wraps around): a non-nil
result is `[i, j]` with `i < j < len(nums)` and `nums[i] + nums[j] == target`, a result is
returned whenever two distinct indices sum to `target`, and `nil` is returned exactly when
no such pair exists. -/
theorem twoSum_wrapping (nums : List Int) (target : Int) (hn : ∀ x ∈ nums, isInt x)
    (ht : isInt target) :
    (∀ r, twoSum nums target = some r →
      ∃ (i j : Nat) (x y : Int), r = [i, j] ∧ i < j ∧ j < nums.length ∧
        nums[i]? = some x ∧ nums[j]? = some y ∧ goAdd x y = target) ∧
    ((∃ (i j : Nat) (x y : Int), i ≠ j ∧ nums[i]? = some x ∧ nums[j]? = some y ∧
        goAdd x y = target) →
      ∃ r, twoSum nums target = some r) ∧
    (twoSum nums target = none ↔
      ¬ ∃ (i j : Nat) (x y : Int), i ≠ j ∧ nums[i]? = some x ∧ nums[j]? = some y ∧
        goAdd x y = target) := by
  have key := twoSumLoop_spec target ht nums [] (fun _ => none) (by simpa using hn)
    (by simp) (by simp) (by simp)
  simp only [List.length_nil, List.nil_append] at key
  have hnone : twoSum nums target = none ↔
      ¬ ∃ (i j : Nat) (x y : Int), i ≠ j ∧ nums[i]? = some x ∧ nums[j]? = some y ∧
        goAdd x y = target := by
    constructor
    · rintro hnil ⟨i, j, x, y, hij, hx, hy, hsum⟩
      rcases Nat.lt_or_gt_of_ne hij with hlt | hgt
      · exact key.2 hnil i j x y hlt hx hy hsum
      · exact key.2 hnil j i y x hgt hy hx (by rw [goAdd_comm]; exact hsum)
    · intro hno
      cases hr : twoSum nums target with
      | none => rfl
      | some r =>
        obtain ⟨a, b, x, y, _, hab, hx, hy, hsum⟩ := key.1 r hr
        exact absurd ⟨a, b, x, y, by omega, hx, hy, hsum⟩ hno
  refine ⟨?_, ?_, hnone⟩
  · intro r hr
    obtain ⟨a, b, x, y, hab, hlt, hx, hy, hsum⟩ := key.1 r hr
    have hb : b < nums.length := by
      by_contra hge
      rw [List.getElem?_eq_none (by omega)] at hy
      cases hy
    exact ⟨a, b, x, y, hab, hlt, hb, hx, hy, hsum⟩
  · intro hex
    cases hr : twoSum nums target with
    | none => exact absurd hex (hnone.mp hr)
    | some r => exact ⟨r, rfl⟩

theorem goAdd_exact {x y : Int} (h : isInt (x + y)) : goAdd x y = x + y := by
  unfold goAdd; exact wrapInt_of_isInt h

/-- When no sum of two elements leaves the range of `int`, the result of `twoSum` is
described by the mathematical sum. -/
theorem twoSum_exact (nums : List Int) (target : Int) (hn : ∀ x ∈ nums, isInt x)
    (ht : isInt target) (hno : ∀ x ∈ nums, ∀ y ∈ nums, isInt (x + y)) :
    (∀ r, twoSum nums target = some r →
      ∃ (i j : Nat) (x y : Int), r = [i, j] ∧ i < j ∧ j < nums.length ∧
        nums[i]? = some x ∧ nums[j]? = some y ∧ x + y = target) ∧
    (twoSum nums target = none ↔
      ¬ ∃ (i j : Nat) (x y : Int), i ≠ j ∧ nums[i]? = some x ∧ nums[j]? = some y ∧
        x + y = target) := by
  obtain ⟨h1, _, h3⟩ := twoSum_wrapping nums target hn ht
  constructor
  · intro r hr
    obtain ⟨i, j, x, y, hrij, hij, hj, hx, hy, hsum⟩ := h1 r hr
    refine ⟨i, j, x, y, hrij, hij, hj, hx, hy, ?_⟩
    rw [← goAdd_exact (hno x (List.getElem?_mem hx) y (List.getElem?_mem hy))]
    exact hsum
  · rw [h3]
    constructor
    · rintro hno2 ⟨i, j, x, y, hij, hx, hy, hsum⟩
      exact hno2 ⟨i, j, x, y, hij, hx, hy, by
        rw [goAdd_exact (hno x (List.getElem?_mem hx) y (List.getElem?_mem hy))]
        exact hsum⟩
    · rintro hno2 ⟨i, j, x, y, hij, hx, hy, hsum⟩
      exact hno2 ⟨i, j, x, y, hij, hx, hy, by
        rw [← goAdd_exact (hno x (List.getElem?_mem hx) y (List.getElem?_mem hy))]
        exact hsum⟩

/-- C14, as stated, fails when a sum leaves the range of `int`: for
`nums = [9223372036854775807, 1]` and `target = -9223372036854775808` no two distinct
indices hold values whose sum is `target`, and `twoSum` returns `[0, 1]` instead of `nil`,
with `nums[0] + nums[1] = 9223372036854775808`, which is not `target`. -/
theorem twoSum_counterexample :
    (∀ x ∈ [9223372036854775807, (1 : Int)], isInt x) ∧ isInt (-9223372036854775808) ∧
    twoSum [9223372036854775807, 1] (-9223372036854775808) = some [0, 1] ∧
    (9223372036854775807 : Int) + 1 ≠ -9223372036854775808 ∧
    ¬ ∃ (i j : Nat) (x y : Int), i ≠ j ∧
      [9223372036854775807, (1 : Int)][i]? = some x ∧
      [9223372036854775807, (1 : Int)][j]? = some y ∧ x + y = -9223372036854775808 := by
  refine ⟨by decide, by decide, by decide, by decide, ?_⟩
  rintro ⟨i, j, x, y, _, hx, hy, hsum⟩
  have h1 : ∀ z ∈ [9223372036854775807, (1 : Int)], 1 ≤ z := by decide
  have hx1 := h1 x (List.getElem?_mem hx)
  have hy1 := h1 y (List.getElem?_mem hy)
  omega

/-- C14, amended: for every list `nums` of `int` values and every `int` `target`, with
`+` read as Go's `+` on `int`, which wraps around: a non-nil result of `twoSum` is `[i, j]`
with `i < j < len(nums)` and `nums[i] + nums[j] == target`; a result is returned whenever
two distinct indices hold values that sum to `target`; and the result is `nil` exactly when
no such pair exists.  The last part states the same for the mathematical sum, under the
condition that no sum of two elements leaves the range of `int`. -/
theorem twoSum_spec (nums : List Int) (target : Int) (hn : ∀ x ∈ nums, isInt x)
    (ht : isInt target) :
    (∀ r, twoSum nums target = some r →
      ∃ (i j : Nat) (x y : Int), r = [i, j] ∧ i < j ∧ j < nums.length ∧
        nums[i]? = some x ∧ nums[j]? = some y ∧ goAdd x y = target) ∧
    ((∃ (i j : Nat) (x y : Int), i ≠ j ∧ nums[i]? = some x ∧ nums[j]? = some y ∧
        goAdd x y = target) →
      ∃ r, twoSum nums target = some r) ∧
    (twoSum nums target = none ↔
      ¬ ∃ (i j : Nat) (x y : Int), i ≠ j ∧ nums[i]? = some x ∧ nums[j]? = some y ∧
        goAdd x y = target) ∧
    ((∀ x ∈ nums, ∀ y ∈ nums, isInt (x + y)) →
      (∀ r, twoSum nums target = some r →
        ∃ (i j : Nat) (x y : Int), r = [i, j] ∧ i < j ∧ j < nums.length ∧
          nums[i]? = some x ∧ nums[j]? = some y ∧ x + y = target) ∧
      (twoSum nums target = none ↔
        ¬ ∃ (i j : Nat) (x y : Int), i ≠ j ∧ nums[i]? = some x ∧ nums[j]? = some y ∧
          x + y = target)) :=
  ⟨(twoSum_wrapping nums target hn ht).1, (twoSum_wrapping nums target hn ht).2.1,
    (twoSum_wrapping nums target hn ht).2.2, fun hno => twoSum_exact nums target hn ht hno⟩

/-- Witness of the amended C14 on the first test case of `main`: `nums = [2, 7, 11, 15]`,
`target = 9`. -/
theorem twoSum_spec_witness :
    (∀ x ∈ [2, 7, 11, 15], isInt x) ∧ isInt 9 ∧
    ((∀ r, twoSum [2, 7, 11, 15] 9 = some r →
      ∃ (i j : Nat) (x y : Int), r = [i, j] ∧ i < j ∧ j < [2, 7, 11, (15 : Int)].length ∧
        [2, 7, 11, (15 : Int)][i]? = some x ∧ [2, 7, 11, (15 : Int)][j]? = some y ∧
        goAdd x y = 9) ∧
    ((∃ (i j : Nat) (x y : Int), i ≠ j ∧ [2, 7, 11, (15 : Int)][i]? = some x ∧
        [2, 7, 11, (15 : Int)][j]? = some y ∧ goAdd x y = 9) →
      ∃ r, twoSum [2, 7, 11, 15] 9 = some r) ∧
    (twoSum [2, 7, 11, 15] 9 = none ↔
      ¬ ∃ (i j : Nat) (x y : Int), i ≠ j ∧ [2, 7, 11, (15 : Int)][i]? = some x ∧
        [2, 7, 11, (15 : Int)][j]? = some y ∧ goAdd x y = 9) ∧
    ((∀ x ∈ [2, 7, 11, (15 : Int)], ∀ y ∈ [2, 7, 11, (15 : Int)], isInt (x + y)) →
      (∀ r, twoSum [2, 7, 11, 15] 9 = some r →
        ∃ (i j : Nat) (x y : Int), r = [i, j] ∧ i < j ∧ j < [2, 7, 11, (15 : Int)].length ∧
          [2, 7, 11, (15 : Int)][i]? = some x ∧ [2, 7, 11, (15 : Int)][j]? = some y ∧
          x + y = 9) ∧
      (twoSum [2, 7, 11, 15] 9 = none ↔
        ¬ ∃ (i j : Nat) (x y : Int), i ≠ j ∧ [2, 7, 11, (15 : Int)][i]? = some x ∧
          [2, 7, 11, (15 : Int)][j]? = some y ∧ x + y = 9))) :=
  ⟨by decide, by decide, twoSum_spec [2, 7, 11, 15] 9 (by decide) (by decide)⟩

/-- The test cases of `main`, and a pair whose sum only equals the target after the
wrap-around of `int`: `twoSum` finds it, as `nums[0] + nums[1] == target` holds in Go. -/
theorem twoSum_examples :
    twoSum [2, 7, 11, 15] 9 = some [0, 1] ∧ twoSum [3, 2, 4] 6 = some [1, 2] ∧
    twoSum [3, 3] 6 = some [0, 1] ∧ twoSum [-1, -2, -3, -4, -5] (-8) = some [2, 4] ∧
    twoSum [0, 4, 3, 0] 0 = some [0, 3] ∧ twoSum [1, 2] 7 = none ∧
    twoSum [9223372036854775807, 1] (-9223372036854775808) = some [0, 1] := by
  decide

theorem addLoop_done : addTwoNumbersLoop [] [] 0 = [] := by
  rw [addTwoNumbersLoop]; simp

theorem addLoop_step (l1 l2 : List Int) (carry : Int) (h : l1 ≠ [] ∨ l2 ≠ [] ∨ carry ≠ 0) :
    addTwoNumbersLoop l1 l2 carry =
      (carry + l1.headD 0 + l2.headD 0).tmod 10 ::
        addTwoNumbersLoop l1.tail l2.tail ((carry + l1.headD 0 + l2.headD 0).tdiv 10) := by
  rw [addTwoNumbersLoop]; simp only [if_pos h]

theorem allDigits_tail {l : List Int} (h : allDigits l) : allDigits l.tail :=
  fun d hd => h d (List.mem_of_mem_tail hd)

theorem headD_digit {l : List Int} (h : allDigits l) : 0 ≤ l.headD 0 ∧ l.headD 0 ≤ 9 := by
  cases l with
  | nil => simp
  | cons a l => exact h a (List.mem_cons_self _ _)

theorem decimalValue_split (l : List Int) :
    decimalValue l = l.headD 0 + 10 * decimalValue l.tail := by
  cases l with
  | nil => simp [decimalValue]
  | cons a l => simp [decimalValue]

/-- The loop, started with a carry of at most 9 on two digit lists, produces digits whose
value is the sum of the two values and the carry. -/
theorem addLoop_spec (n : Nat) :
    ∀ (l1 l2 : List Int) (carry : Int), l1.length + l2.length = n →
      allDigits l1 → allDigits l2 → 0 ≤ carry → carry ≤ 9 →
      allDigits (addTwoNumbersLoop l1 l2 carry) ∧
      decimalValue (addTwoNumbersLoop l1 l2 carry) =
        decimalValue l1 + decimalValue l2 + carry := by
  induction n using Nat.strong_induction_on with
  | _ n ih =>
    intro l1 l2 carry hn h1 h2 hc0 hc9
    by_cases hl : l1 ≠ [] ∨ l2 ≠ []
    · have hstep := addLoop_step l1 l2 carry (by tauto)
      have hx := headD_digit h1
      have hy := headD_digit h2
      have hlen : l1.tail.length + l2.tail.length < n := by
        rcases hl with hl | hl
        · cases l1 with
          | nil => exact absurd rfl hl
          | cons a l1 =>
            simp only [List.tail_cons, List.length_cons] at hn ⊢
            have := List.length_tail l2; omega
        · cases l2 with
          | nil => exact absurd rfl hl
          | cons a l2 =>
            simp only [List.tail_cons, List.length_cons] at hn ⊢
            have := List.length_tail l1; omega
      have hs0 : 0 ≤ carry + l1.headD 0 + l2.headD 0 := by omega
      have hdiv := Int.tdiv_eq_ediv hs0 (show (0 : Int) ≤ 10 by decide)
      have hmod := Int.tmod_eq_emod hs0 (show (0 : Int) ≤ 10 by decide)
      obtain ⟨hd, hv⟩ := ih _ hlen l1.tail l2.tail
        ((carry + l1.headD 0 + l2.headD 0).tdiv 10) rfl (allDigits_tail h1)
        (allDigits_tail h2) (by rw [hdiv]; omega) (by rw [hdiv]; omega)
      rw [hstep]
      constructor
      · intro d hdm
        rcases List.mem_cons.mp hdm with hdm | hdm
        · rw [hdm, hmod]; omega
        · exact hd d hdm
      · rw [decimalValue, hv, decimalValue_split l1, decimalValue_split l2, hdiv, hmod]
        omega
    · have e1 : l1 = [] := by by_contra hne; exact hl (Or.inl hne)
      have e2 : l2 = [] := by by_contra hne; exact hl (Or.inr hne)
      subst e1 e2
      by_cases hc : carry = 0
      · subst hc
        rw [addLoop_done]
        exact ⟨fun d hd => by simp at hd, by simp [decimalValue]⟩
      · have hstep := addLoop_step [] [] carry (by tauto)
        simp only [List.headD_nil, Int.add_zero, List.tail_nil] at hstep
        have hdiv := Int.tdiv_eq_ediv hc0 (show (0 : Int) ≤ 10 by decide)
        have hmod := Int.tmod_eq_emod hc0 (show (0 : Int) ≤ 10 by decide)
        have hq : carry / 10 = 0 := by omega
        have hr : carry % 10 = carry := by omega
        rw [hstep, hdiv, hmod, hq, hr, addLoop_done]
        constructor
        · intro d hd
          rw [List.mem_singleton.mp hd]; exact ⟨hc0, hc9⟩
        · simp [decimalValue]

/-- C15: for every two lists of decimal digits `l1`, `l2` (least significant digit first,
either possibly empty), `addTwoNumbers(l1, l2)` is a list of decimal digits whose value,
as an unbounded number, is the value of `l1` plus the value of `l2`. -/
theorem addTwoNumbers_spec (l1 l2 : List Int) (h1 : allDigits l1) (h2 : allDigits l2) :
    allDigits (addTwoNumbers l1 l2) ∧
    decimalValue (addTwoNumbers l1 l2) = decimalValue l1 + decimalValue l2 := by
  have := addLoop_spec _ l1 l2 0 rfl h1 h2 (Int.le_refl 0) (by decide)
  simpa [addTwoNumbers] using this

/-- Witness of C15 on the third test case of `main`, 9999999 + 9999. -/
theorem addTwoNumbers_spec_witness :
    allDigits [9, 9, 9, 9, 9, 9, 9] ∧ allDigits [9, 9, 9, 9] ∧
    allDigits (addTwoNumbers [9, 9, 9, 9, 9, 9, 9] [9, 9, 9, 9]) ∧
    decimalValue (addTwoNumbers [9, 9, 9, 9, 9, 9, 9] [9, 9, 9, 9]) =
      decimalValue [9, 9, 9, 9, 9, 9, 9] + decimalValue [9, 9, 9, 9] :=
  ⟨by decide, by decide,
    addTwoNumbers_spec [9, 9, 9, 9, 9, 9, 9] [9, 9, 9, 9] (by decide) (by decide)⟩

/-- The first test case of `main`, 342 + 465 = 807, and the empty lists. -/
theorem addTwoNumbers_examples :
    addTwoNumbers [2, 4, 3] [5, 6, 4] = [7, 0, 8] ∧ addTwoNumbers [] [] = [] ∧
    addTwoNumbers [5] [5] = [0, 1] := by
  refine ⟨?_, ?_, ?_⟩ <;>
    simp [addTwoNumbers, addLoop_step, addLoop_done, Int.tmod, Int.tdiv]

/-! ## The sliding window on lists -/

theorem dropThrough_suffix (c : Char) (w : List Char) : dropThrough c w <:+ w := by
  induction w with
  | nil => exact List.suffix_refl _
  | cons d w ih =>
    unfold dropThrough
    split
    · exact List.suffix_cons d w
    · exact ih.trans (List.suffix_cons d w)

theorem not_mem_dropThrough {c : Char} {w : List Char} (hw : w.Nodup) :
    c ∉ dropThrough c w := by
  induction w with
  | nil => simp [dropThrough]
  | cons d w ih =>
    rw [List.nodup_cons] at hw
    unfold dropThrough
    split
    · rename_i hdc; rw [← hdc]; exact hw.1
    · exact ih hw.2

theorem suffix_dropThrough {c : Char} {w t : List Char} (ht : t <:+ w) (hc : c ∉ t)
    (hcw : c ∈ w) : t <:+ dropThrough c w := by
  induction w with
  | nil => simp at hcw
  | cons d w ih =>
    unfold dropThrough
    rcases List.suffix_cons_iff.mp ht with heq | hsuf
    · rw [heq] at hc; exact absurd hcw hc
    · split
      · exact hsuf
      · rename_i hdc
        rcases List.mem_cons.mp hcw with h | h
        · exact absurd h.symm hdc
        · exact ih hsuf h

theorem suffix_of_suffix_of_length_le {p t w : List Char} (ht : t <:+ p) (hw : w <:+ p)
    (hle : t.length ≤ w.length) : t <:+ w :=
  List.suffix_of_suffix_length_le ht hw hle

theorem slide_suffix {p w : List Char} (hw : w <:+ p) (c : Char) : slide w c <:+ p ++ [c] := by
  unfold slide
  have h1 : (if c ∈ w then dropThrough c w else w) <:+ p := by
    split
    · exact (dropThrough_suffix c w).trans hw
    · exact hw
  obtain ⟨t, ht⟩ := h1
  exact ⟨t, by rw [← ht]; simp⟩

theorem slide_nodup {w : List Char} (hn : w.Nodup) (c : Char) : (slide w c).Nodup := by
  unfold slide
  split
  · exact List.Nodup.append ((dropThrough_suffix c w).sublist.nodup hn) (List.nodup_singleton c)
      (by simpa using not_mem_dropThrough hn)
  · rename_i hc
    exact List.Nodup.append hn (List.nodup_singleton c) (by simpa using hc)

theorem slide_longest {p w : List Char} (hw : w <:+ p)
    (hl : ∀ v, v <:+ p → v.Nodup → v.length ≤ w.length) (c : Char) :
    ∀ v, v <:+ p ++ [c] → v.Nodup → v.length ≤ (slide w c).length := by
  intro v hv hvn
  rcases List.suffix_concat_iff.mp hv with h | ⟨t, hvt, hts⟩
  · rw [h]; exact Nat.zero_le _
  · subst hvt
    have htn : t.Nodup := (List.sublist_append_left t [c]).nodup hvn
    have hct : c ∉ t := by
      intro hmem
      have := List.nodup_append.mp hvn
      exact this.2.2 hmem (List.mem_singleton_self c)
    have htw : t <:+ w := suffix_of_suffix_of_length_le hts hw (hl t hts htn)
    unfold slide
    simp only [List.length_append, List.length_singleton]
    split
    · rename_i hcw
      exact Nat.succ_le_succ (suffix_dropThrough htw hct hcw).length_le
    · exact Nat.succ_le_succ htw.length_le

/-- The window computation returns the length of a longest infix without repeated
characters. -/
theorem longestFrom_spec (rest : List Char) :
    ∀ (p w : List Char) (m : Nat), w <:+ p → w.Nodup →
      (∀ v, v <:+ p → v.Nodup → v.length ≤ w.length) →
      (∀ v, v <:+: p → v.Nodup → v.length ≤ m) →
      (∃ v, v <:+: p ∧ v.Nodup ∧ v.length = m) →
      (∀ v, v <:+: p ++ rest → v.Nodup → v.length ≤ longestFrom w m rest) ∧
      ∃ v, v <:+: p ++ rest ∧ v.Nodup ∧ v.length = longestFrom w m rest := by
  induction rest with
  | nil =>
    intro p w m _ _ _ hm hex
    simpa [longestFrom] using And.intro hm hex
  | cons c rest ih =>
    intro p w m hw hn hl hm hex
    have happ : p ++ c :: rest = (p ++ [c]) ++ rest := by simp
    rw [happ]
    unfold longestFrom
    apply ih (p ++ [c]) (slide w c) (max m (slide w c).length) (slide_suffix hw c)
      (slide_nodup hn c) (slide_longest hw hl c)
    · intro v hv hvn
      rcases List.infix_concat_iff.mp hv with h | h
      · exact Nat.le_trans (slide_longest hw hl c v h hvn) (Nat.le_max_right _ _)
      · exact Nat.le_trans (hm v h hvn) (Nat.le_max_left _ _)
    · rcases Nat.le_total m (slide w c).length with hle | hle
      · rw [Nat.max_eq_right hle]
        exact ⟨slide w c, (slide_suffix hw c).isInfix, slide_nodup hn c, rfl⟩
      · rw [Nat.max_eq_left hle]
        obtain ⟨v, hv, hvn, hvl⟩ := hex
        exact ⟨v, by
          obtain ⟨a, b, hab⟩ := hv
          exact ⟨a, b ++ [c], by rw [← hab]; simp⟩, hvn, hvl⟩



/-! ## The three implementations against the window computation -/

theorem utf8Size_ascii (c : Char) (h : c.toNat < 128) : c.utf8Size = 1 := by
  have h1 : c.val.toNat < 128 := h
  have h2 : c.val ≤ 127 := by
    rw [UInt32.le_def]
    show c.val.toNat ≤ 127
    omega
  simp [Char.utf8Size, h2]

theorem dropThrough_eq_drop {c : Char} {w : List Char} (hn : w.Nodup) :
    ∀ k, w[k]? = some c → dropThrough c w = w.drop (k + 1) := by
  induction w with
  | nil => intro k hk; simp at hk
  | cons d w ih =>
    intro k hk
    rw [List.nodup_cons] at hn
    cases k with
    | zero =>
      simp only [List.getElem?_cons_zero, Option.some.injEq] at hk
      simp [dropThrough, hk]
    | succ k =>
      simp only [List.getElem?_cons_succ] at hk
      have hcw : c ∈ w := List.getElem?_mem hk
      have hdc : d ≠ c := fun h => hn.1 (h ▸ hcw)
      simp [dropThrough, hdc, ih hn.2 k hk]

/-- Length of the next window, from the last index at which `c` occurs in the text read so
far. -/
theorem slide_length {p w : List Char} (hw : w <:+ p) (hn : w.Nodup) (c : Char) :
    (c ∉ p → (slide w c).length = w.length + 1) ∧
    (∀ i, p[i]? = some c → (∀ j, i < j → p[j]? ≠ some c) →
      (slide w c).length = if p.length - w.length ≤ i then p.length - i else w.length + 1) := by
  have hle := hw.length_le
  have hwd : w = p.drop (p.length - w.length) := List.suffix_iff_eq_drop.mp hw
  constructor
  · intro hc
    have : c ∉ w := fun h => hc (hw.subset h)
    simp [slide, this]
  · intro i hi hlast
    have hip : i < p.length := by
      by_contra hge
      rw [List.getElem?_eq_none (by omega)] at hi
      cases hi
    by_cases hs : p.length - w.length ≤ i
    · have hk : w[i - (p.length - w.length)]? = some c := by
        rw [hwd, List.getElem?_drop, List.length_drop]
        rw [← hi]; congr 1; omega
      have hcw : c ∈ w := List.getElem?_mem hk
      simp only [slide, if_pos hcw, if_pos hs, List.length_append, List.length_singleton,
        dropThrough_eq_drop hn _ hk, List.length_drop]
      omega
    · have hcw : c ∉ w := by
        intro hmem
        obtain ⟨k, hk⟩ := List.getElem?_of_mem hmem
        rw [hwd, List.getElem?_drop] at hk
        exact hlast _ (by omega) hk
      simp [slide, hcw, hs]

theorem mapHolds_concat {p : List Char} {charIndex : Char → Option Int}
    (h : mapHolds p charIndex) (c : Char) :
    mapHolds (p ++ [c]) (fun k => if k = c then some (p.length : Int) else charIndex k) := by
  intro k
  by_cases hk : k = c
  · subst hk
    refine ⟨fun h0 => by simp at h0, fun j hj => ?_⟩
    simp only [if_true, Option.some.injEq] at hj
    refine ⟨p.length, hj.symm, by simp, fun i hi => ?_⟩
    rw [List.getElem?_eq_none (by simp; omega)]
    exact fun h0 => by cases h0
  · refine ⟨fun h0 => ?_, fun j hj => ?_⟩
    · simp only [if_neg hk] at h0
      have := (h k).1 h0
      simp [this, hk]
    · simp only [if_neg hk] at hj
      obtain ⟨i, hji, hi, hlast⟩ := (h k).2 j hj
      have hip : i < p.length := by
        by_contra hge
        rw [List.getElem?_eq_none (by omega)] at hi
        cases hi
      refine ⟨i, hji, by rw [List.getElem?_append_left hip]; exact hi, fun m hm => ?_⟩
      by_cases hmp : m < p.length
      · rw [List.getElem?_append_left hmp]; exact hlast m hm
      · by_cases hme : m = p.length
        · subst hme
          simp only [List.getElem?_concat_length, ne_eq, Option.some.injEq]
          exact fun h0 => hk h0.symm
        · rw [List.getElem?_eq_none (by simp; omega)]
          exact fun h0 => by cases h0

/-- On ASCII text the loop of `lengthOfLongestSubstring` is the window computation. -/
theorem map_loop_eq (rest : List Char) :
    ∀ (p w : List Char) (m : Nat) (charIndex : Char → Option Int),
      (∀ c ∈ rest, c.toNat < 128) → w <:+ p → w.Nodup → mapHolds p charIndex →
      lengthOfLongestSubstringLoop charIndex (m : Int) ((p.length : Int) - (w.length : Int))
        (rangeString p.length rest) = (longestFrom w m rest : Int) := by
  induction rest with
  | nil => intro p w m charIndex _ _ _ _; rfl
  | cons c rest ih =>
    intro p w m charIndex hascii hw hn hmap
    have hle := hw.length_le
    have hc1 : c.utf8Size = 1 := utf8Size_ascii c (hascii c (List.mem_cons_self _ _))
    have hsl := slide_length hw hn c
    have hsuf := slide_suffix hw c
    have hle2 := hsuf.length_le
    simp only [List.length_append, List.length_singleton] at hle2
    have key := ih (p ++ [c]) (slide w c) (max m (slide w c).length)
      (fun k => if k = c then some (p.length : Int) else charIndex k)
      (fun d hd => hascii d (List.mem_cons_of_mem _ hd)) hsuf (slide_nodup hn c)
      (mapHolds_concat hmap c)
    simp only [List.length_append, List.length_singleton] at key
    have hmax : ∀ x : Int, x = ((slide w c).length : Int) →
        (if x > (m : Int) then x else (m : Int)) = ((max m (slide w c).length : Nat) : Int) := by
      intro x hx
      rcases Nat.le_total m (slide w c).length with h | h
      · rw [Nat.max_eq_right h]; split <;> omega
      · rw [Nat.max_eq_left h]; split <;> omega
    have hoff : p.length + 1 = p.length + 1 := rfl
    simp only [rangeString, lengthOfLongestSubstringLoop, longestFrom, hc1]
    rw [← key]
    cases hci : charIndex c with
    | none =>
      have hlen := hsl.1 ((hmap c).1 hci)
      have e1 : (p.length : Int) - (w.length : Int) =
          ((p.length + 1 : Nat) : Int) - ((slide w c).length : Int) := by omega
      have hx : (p.length : Int) - ((p.length : Int) - (w.length : Int)) + 1 =
          ((slide w c).length : Int) := by omega
      simp only []
      rw [hmax _ hx, e1]
    | some j =>
      obtain ⟨i, hji, hi, hlast⟩ := (hmap c).2 j hci
      have hlen := hsl.2 i hi hlast
      have hip : i < p.length := by
        by_contra hge
        rw [List.getElem?_eq_none (by omega)] at hi
        cases hi
      subst hji
      simp only []
      by_cases hs : p.length - w.length ≤ i
      · rw [if_pos hs] at hlen
        have e1 : (i : Int) + 1 =
            ((p.length + 1 : Nat) : Int) - ((slide w c).length : Int) := by omega
        have hge : (i : Int) ≥ (p.length : Int) - (w.length : Int) := by omega
        rw [if_pos hge, hmax, e1]
        omega
      · rw [if_neg hs] at hlen
        have e1 : (p.length : Int) - (w.length : Int) =
            ((p.length + 1 : Nat) : Int) - ((slide w c).length : Int) := by omega
        have hge : ¬ (i : Int) ≥ (p.length : Int) - (w.length : Int) := by omega
        rw [if_neg hge, hmax, e1]
        omega

theorem char_toNat_inj {c d : Char} (h : c.toNat = d.toNat) : c = d := by
  apply Char.ext
  apply UInt32.ext
  exact h

/-- On ASCII text the loop of `lengthOfLongestSubstringASCII` does not panic and returns
what the loop of `lengthOfLongestSubstring` returns. -/
theorem ascii_loop_eq (pairs : List (Nat × Char)) :
    ∀ (charLastIndex : List Int) (charIndex : Char → Option Int) (maxLength start : Int),
      (∀ x ∈ pairs, x.2.toNat < 128) → tableHolds charLastIndex charIndex → 0 ≤ start →
      lengthOfLongestSubstringASCIILoop charLastIndex maxLength start pairs =
        some (lengthOfLongestSubstringLoop charIndex maxLength start pairs) := by
  induction pairs with
  | nil => intro _ _ _ _ _ _ _; rfl
  | cons x pairs ih =>
    obtain ⟨e, c⟩ := x
    intro arr charIndex maxLength start hascii htab hstart
    obtain ⟨hlen, hget, hpos⟩ := htab
    have hc : c.toNat < 128 := hascii (e, c) (List.mem_cons_self _ _)
    have hset : sliceSet arr c.toNat (e : Int) = some (arr.set c.toNat (e : Int)) := by
      simp [sliceSet, hlen, hc]
    have hstart2 :
        (if (charIndex c).getD (-1) ≥ start then (charIndex c).getD (-1) + 1 else start) =
        (match charIndex c with
          | some prevIndex => if prevIndex ≥ start then prevIndex + 1 else start
          | none => start) := by
      cases hci : charIndex c with
      | none =>
        simp only [Option.getD_none]
        rw [if_neg (by omega)]
      | some j => simp only [Option.getD_some]
    have hstart3 : 0 ≤
        (if (charIndex c).getD (-1) ≥ start then (charIndex c).getD (-1) + 1 else start) := by
      split <;> omega
    have htab2 : tableHolds (arr.set c.toNat (e : Int))
        (fun k => if k = c then some (e : Int) else charIndex k) := by
      refine ⟨by simp [hlen], fun k hk => ?_, fun k j hkj => ?_⟩
      · rw [List.getElem?_set]
        by_cases hkc : k = c
        · subst hkc
          simp [hlen, hk]
        · have hne : c.toNat ≠ k.toNat := fun h => hkc (char_toNat_inj h).symm
          simp only [if_neg hne, if_neg hkc]
          exact hget k hk
      · by_cases hkc : k = c
        · simp only [if_pos hkc, Option.some.injEq] at hkj
          omega
        · simp only [if_neg hkc] at hkj
          exact hpos k j hkj
    have key := ih (arr.set c.toNat (e : Int))
      (fun k => if k = c then some (e : Int) else charIndex k)
      (if (e : Int) -
          (if (charIndex c).getD (-1) ≥ start then (charIndex c).getD (-1) + 1 else start) + 1 >
            maxLength
        then (e : Int) -
          (if (charIndex c).getD (-1) ≥ start then (charIndex c).getD (-1) + 1 else start) + 1
        else maxLength)
      (if (charIndex c).getD (-1) ≥ start then (charIndex c).getD (-1) + 1 else start)
      (fun y hy => hascii y (List.mem_cons_of_mem _ hy)) htab2 hstart3
    simp only [lengthOfLongestSubstringASCIILoop, if_pos hc, sliceGet, hget c hc, hset,
      Option.bind_eq_bind, Option.some_bind, lengthOfLongestSubstringLoop]
    rw [key, hstart2]

theorem dropThrough_length_le (c : Char) (w : List Char) :
    (dropThrough c w).length ≤ w.length :=
  (dropThrough_suffix c w).length_le

/-- The inner loop of `lengthOfLongestSubstringSet` on a window `w` that starts at index
`start` and whose characters are the set: it does not panic, and it drops the front of the
window up to and including `c` when `c` is in the window. -/
theorem shrinkWindow_spec (runes : List Char) (c : Char) (w : List Char) :
    ∀ (start : Nat) (charSet : Char → Bool),
      (∀ i, i < w.length → runes[start + i]? = w[i]?) → w.Nodup →
      (∀ k, charSet k = true ↔ k ∈ w) →
      ∃ cs, shrinkWindow runes c charSet start =
          some (cs, start + (w.length - (if c ∈ w then dropThrough c w else w).length)) ∧
        ∀ k, cs k = true ↔ k ∈ (if c ∈ w then dropThrough c w else w) := by
  induction w with
  | nil =>
    intro start charSet _ _ hset
    have hc : charSet c = false := by
      cases h : charSet c with
      | false => rfl
      | true => exact absurd ((hset c).mp h) (List.not_mem_nil c)
    refine ⟨charSet, ?_, by simpa using hset⟩
    rw [shrinkWindow]
    simp [hc]
  | cons d w ih =>
    intro start charSet hwin hn hset
    rw [List.nodup_cons] at hn
    by_cases hcw : c ∈ d :: w
    · have hc : charSet c = true := (hset c).mpr hcw
      have h0 := hwin 0 (by simp)
      simp only [Nat.add_zero, List.getElem?_cons_zero] at h0
      have hlt : start < runes.length := by
        by_contra hge
        rw [List.getElem?_eq_none (by omega)] at h0
        cases h0
      have hd : runes[start] = d := by
        rw [List.getElem?_eq_getElem hlt] at h0
        exact Option.some.inj h0
      obtain ⟨cs, hcs, hmem⟩ := ih (start + 1)
        (fun k => if k = runes[start] then false else charSet k)
        (fun i hi => by
          have := hwin (i + 1) (by simp; omega)
          simp only [List.getElem?_cons_succ] at this
          rw [← this]; congr 1; omega)
        hn.2
        (fun k => by
          rw [hd]
          by_cases hkd : k = d
          · subst hkd; simp [hn.1]
          · simp only [if_neg hkd]
            rw [hset k]; simp [hkd])
      refine ⟨cs, ?_, ?_⟩
      · rw [shrinkWindow]
        simp only [hc, if_true, dif_pos hlt, hcs, if_pos hcw]
        by_cases hdc : d = c
        · have hcw2 : c ∉ w := hdc ▸ hn.1
          simp [dropThrough, hdc, hcw2]
        · have hcw2 : c ∈ w := by
            rcases List.mem_cons.mp hcw with h | h
            · exact absurd h.symm hdc
            · exact h
          have := dropThrough_length_le c w
          simp only [dropThrough, if_neg hdc, if_pos hcw2, List.length_cons, Option.some.injEq,
            Prod.mk.injEq, true_and]
          omega
      · intro k
        rw [hmem k, if_pos hcw]
        by_cases hdc : d = c
        · have hcw2 : c ∉ w := hdc ▸ hn.1
          simp [dropThrough, hdc, hcw2]
        · have hcw2 : c ∈ w := by
            rcases List.mem_cons.mp hcw with h | h
            · exact absurd h.symm hdc
            · exact h
          simp [dropThrough, hdc, hcw2]
    · have hc : charSet c = false := by
        cases h : charSet c with
        | false => rfl
        | true => exact absurd ((hset c).mp h) hcw
      refine ⟨charSet, ?_, by simpa [hcw] using hset⟩
      rw [shrinkWindow]
      simp [hc, hcw]

/-- The outer loop of `lengthOfLongestSubstringSet` from index `e` on does not panic and
is the window computation on the rest of the text. -/
theorem set_loop_eq (runes : List Char) (n : Nat) :
    ∀ (e : Nat) (w : List Char) (m : Nat) (charSet : Char → Bool),
      e + n = runes.length → w <:+ runes.take e → w.Nodup →
      (∀ k, charSet k = true ↔ k ∈ w) →
      lengthOfLongestSubstringSetLoop runes charSet (m : Int) (e - w.length)
          (List.range' e n) =
        some ((longestFrom w m (runes.drop e) : Nat) : Int) := by
  induction n with
  | zero =>
    intro e w m charSet he _ _ _
    have : runes.drop e = [] := List.drop_of_length_le (by omega)
    simp [lengthOfLongestSubstringSetLoop, this, longestFrom]
  | succ n ih =>
    intro e w m charSet he hw hn hset
    have hlt : e < runes.length := by omega
    have hwl : w.length ≤ e := by
      have := hw.length_le
      simp only [List.length_take] at this
      omega
    have hwd : w = (runes.take e).drop (e - w.length) := by
      have := List.suffix_iff_eq_drop.mp hw
      simpa [List.length_take, Nat.min_eq_left (Nat.le_of_lt hlt)] using this
    have hwin : ∀ i, i < w.length → runes[e - w.length + i]? = w[i]? := by
      intro i hi
      conv_rhs => rw [hwd]
      rw [List.getElem?_drop, List.getElem?_take_of_lt (by omega)]
    obtain ⟨cs, hcs, hmem⟩ := shrinkWindow_spec runes runes[e] w (e - w.length) charSet hwin hn
      hset
    have hdrop : runes.drop e = runes[e] :: runes.drop (e + 1) := List.drop_eq_getElem_cons hlt
    have hsuf : slide w runes[e] <:+ runes.take (e + 1) := by
      have := slide_suffix hw runes[e]
      rwa [List.take_succ, List.getElem?_eq_getElem hlt]
    have hw0 := (dropThrough_length_le runes[e] w)
    have hlen : (slide w runes[e]).length =
        (if runes[e] ∈ w then dropThrough runes[e] w else w).length + 1 := by
      simp [slide]
    have hw0le : (if runes[e] ∈ w then dropThrough runes[e] w else w).length ≤ w.length := by
      split
      · exact hw0
      · exact Nat.le_refl _
    have hstart : e - w.length +
        (w.length - (if runes[e] ∈ w then dropThrough runes[e] w else w).length) =
        e + 1 - (slide w runes[e]).length := by
      rw [hlen]; omega
    have key := ih (e + 1) (slide w runes[e]) (max m (slide w runes[e]).length)
      (fun k => if k = runes[e] then true else cs k) (by omega) hsuf (slide_nodup hn _)
      (fun k => by
        by_cases hk : k = runes[e]
        · simp [hk, slide]
        · simp only [if_neg hk, hmem k, slide, List.mem_append, List.mem_singleton, hk,
            or_false, if_false])
    have hmax : (if ((e : Int) - ((e + 1 - (slide w runes[e]).length : Nat) : Int) + 1) > (m : Int)
        then ((e : Int) - ((e + 1 - (slide w runes[e]).length : Nat) : Int) + 1)
        else (m : Int)) = ((max m (slide w runes[e]).length : Nat) : Int) := by
      have hle2 : (slide w runes[e]).length ≤ e + 1 := by rw [hlen]; omega
      rcases Nat.le_total m (slide w runes[e]).length with h | h
      · rw [Nat.max_eq_right h]; split <;> omega
      · rw [Nat.max_eq_left h]; split <;> omega
    rw [List.range'_succ, hdrop]
    simp only [lengthOfLongestSubstringSetLoop, sliceGet, List.getElem?_eq_getElem hlt,
      Option.bind_eq_bind, Option.some_bind, hcs, hstart, hmax, longestFrom]
    exact key

theorem mem_rangeString {x : Nat × Char} {s : List Char} :
    ∀ {offset : Nat}, x ∈ rangeString offset s → x.2 ∈ s := by
  induction s with
  | nil => intro _ h; simp [rangeString] at h
  | cons c s ih =>
    intro offset h
    simp only [rangeString, List.mem_cons] at h
    rcases h with h | h
    · rw [h]; exact List.mem_cons_self _ _
    · exact List.mem_cons_of_mem _ (ih h)

theorem longestFrom_correct (s : List Char) :
    (∃ w, w <:+: s ∧ w.Nodup ∧ w.length = longestFrom [] 0 s) ∧
    ∀ w, w <:+: s → w.Nodup → w.length ≤ longestFrom [] 0 s := by
  have key := longestFrom_spec s [] [] 0 (List.suffix_refl _) List.nodup_nil
    (fun v hv _ => by rw [List.suffix_nil.mp hv])
    (fun v hv _ => by rw [List.infix_nil.mp hv]; exact Nat.le_refl _)
    ⟨[], List.infix_refl _, List.nodup_nil, rfl⟩
  rw [List.nil_append] at key
  exact ⟨key.2, key.1⟩

/-- `lengthOfLongestSubstringSet` works on the characters of the text, for every text. -/
theorem lengthOfLongestSubstringSet_eq (s : List Char) :
    lengthOfLongestSubstringSet s = some ((longestFrom [] 0 s : Nat) : Int) := by
  have key := set_loop_eq s s.length 0 [] 0 (fun _ => false) (by omega) (by simp)
    List.nodup_nil (by simp)
  simpa [lengthOfLongestSubstringSet, List.range_eq_range'] using key

/-- C19: for every text `s` of ASCII characters (code points below 128),
`lengthOfLongestSubstring`, `lengthOfLongestSubstringASCII` and
`lengthOfLongestSubstringSet` return (without panic) the same number `r`, and `r` is the
length of a longest contiguous part of `s` without a repeated character: some such part
has length `r` and none is longer. -/
theorem longest_substring_ascii (s : List Char) (hascii : ∀ c ∈ s, c.toNat < 128) :
    ∃ r : Nat, lengthOfLongestSubstring s = (r : Int) ∧
      lengthOfLongestSubstringASCII s = some (r : Int) ∧
      lengthOfLongestSubstringSet s = some (r : Int) ∧
      (∃ w, w <:+: s ∧ w.Nodup ∧ w.length = r) ∧
      ∀ w, w <:+: s → w.Nodup → w.length ≤ r := by
  have hmap : lengthOfLongestSubstring s = ((longestFrom [] 0 s : Nat) : Int) := by
    have key := map_loop_eq s [] [] 0 (fun _ => none) hascii (List.suffix_refl _)
      List.nodup_nil (fun c => ⟨fun _ => List.not_mem_nil c, fun j hj => by cases hj⟩)
    simpa [lengthOfLongestSubstring] using key
  have hasc : lengthOfLongestSubstringASCII s = some (lengthOfLongestSubstring s) := by
    apply ascii_loop_eq (rangeString 0 s) (List.replicate 128 (-1)) (fun _ => none) 0 0
      (fun x hx => hascii x.2 (mem_rangeString hx))
    · refine ⟨by simp, fun c hc => ?_, fun c j hj => by cases hj⟩
      rw [List.getElem?_replicate, if_pos hc]; rfl
    · exact Int.le_refl 0
  refine ⟨longestFrom [] 0 s, hmap, by rw [hasc, hmap], lengthOfLongestSubstringSet_eq s,
    (longestFrom_correct s).1, (longestFrom_correct s).2⟩

/-- Witness of C19 on the first test case of `main`, `abcabcbb`. -/
theorem longest_substring_ascii_witness :
    (∀ c ∈ ['a', 'b', 'c', 'a', 'b', 'c', 'b', 'b'], c.toNat < 128) ∧
    ∃ r : Nat, lengthOfLongestSubstring ['a', 'b', 'c', 'a', 'b', 'c', 'b', 'b'] = (r : Int) ∧
      lengthOfLongestSubstringASCII ['a', 'b', 'c', 'a', 'b', 'c', 'b', 'b'] = some (r : Int) ∧
      lengthOfLongestSubstringSet ['a', 'b', 'c', 'a', 'b', 'c', 'b', 'b'] = some (r : Int) ∧
      (∃ w, w <:+: ['a', 'b', 'c', 'a', 'b', 'c', 'b', 'b'] ∧ w.Nodup ∧ w.length = r) ∧
      ∀ w, w <:+: ['a', 'b', 'c', 'a', 'b', 'c', 'b', 'b'] → w.Nodup → w.length ≤ r :=
  ⟨by decide, longest_substring_ascii ['a', 'b', 'c', 'a', 'b', 'c', 'b', 'b'] (by decide)⟩

/-- C18 fails on the code: on the two-character text `éa` (`é` is encoded on two bytes)
`lengthOfLongestSubstring` returns 3, because `end` of `range s` is a byte offset, while
the text has two characters, both different (`lengthOfLongestSubstringSet` returns 2). -/
theorem lengthOfLongestSubstring_counts_bytes :
    lengthOfLongestSubstring ['é', 'a'] = 3 ∧
    rangeString 0 ['é', 'a'] = [(0, 'é'), (2, 'a')] ∧
    ['é', 'a'].Nodup ∧ ['é', 'a'].length = 2 ∧
    lengthOfLongestSubstringSet ['é', 'a'] = some 2 ∧
    ∀ w, w <:+: ['é', 'a'] → w.Nodup → w.length ≤ 2 := by
  have h2 : longestFrom [] 0 ['é', 'a'] = 2 := by decide
  refine ⟨by decide, by decide, by decide, rfl, ?_, ?_⟩
  · rw [lengthOfLongestSubstringSet_eq, h2]; rfl
  · intro w hw _
    exact hw.length_le

/-! ## Expand around centers -/

theorem sliceGetInt_natCast (xs : List T) (i : Nat) : sliceGetInt xs (i : Int) = xs[i]? := by
  simp [sliceGetInt]

theorem expandLoop_unfold (runes : List Char) (fuel l r : Nat) (hlr : l ≤ r) :
    expandLoop runes (fuel + 1) l r =
      if r < runes.length ∧ runes[l]? = runes[r]? then
        expandLoop runes fuel ((l : Int) - 1) ((r : Int) + 1)
      else some ((r : Int) - l - 1) := by
  by_cases hr : r < runes.length
  · have hl : l < runes.length := by omega
    have hc : (0 : Int) ≤ l ∧ (r : Int) < runes.length := ⟨by omega, by omega⟩
    simp only [expandLoop, if_pos hc, sliceGetInt_natCast, List.getElem?_eq_getElem hl,
      List.getElem?_eq_getElem hr, Option.bind_eq_bind, Option.some_bind, hr, true_and,
      Option.some.injEq]
  · have hc : ¬ ((0 : Int) ≤ l ∧ (r : Int) < runes.length) := by omega
    simp only [expandLoop, if_neg hc, hr, false_and, if_false]

/-- What `expandAroundCenter(runes, l, r)` returns for `0 <= l <= r`: with `k` the number
of iterations, `r - l - 1 + 2k`; the `k` pairs compared are equal, and the loop stopped
because the next pair is out of range or differs. -/
theorem expandAroundCenter_spec (runes : List Char) (l : Nat) :
    ∀ r : Nat, l ≤ r →
      ∃ k : Nat, expandAroundCenter runes l r = some ((r : Int) - l - 1 + 2 * k) ∧
        k ≤ l + 1 ∧
        (∀ j, j < k → r + j < runes.length ∧ runes[l - j]? = runes[r + j]?) ∧
        (k = l + 1 ∨ ¬ (r + k < runes.length) ∨ runes[l - k]? ≠ runes[r + k]?) := by
  have hfuel : ∀ l : Nat, ((l : Int) + 1).toNat = l + 1 := fun l => by omega
  unfold expandAroundCenter
  induction l with
  | zero =>
    intro r hlr
    rw [hfuel, expandLoop_unfold runes 0 0 r hlr]
    by_cases hc : r < runes.length ∧ runes[0]? = runes[r]?
    · refine ⟨1, ?_, by omega, ?_, Or.inl rfl⟩
      · rw [if_pos hc]; simp only [expandLoop, Option.some.injEq]; push_cast; omega
      · intro j hj
        have : j = 0 := by omega
        subst this
        exact hc
    · refine ⟨0, ?_, by omega, fun j hj => by omega, ?_⟩
      · rw [if_neg hc]; simp
      · by_cases hr : r < runes.length
        · exact Or.inr (Or.inr (fun h => hc ⟨hr, h⟩))
        · exact Or.inr (Or.inl hr)
  | succ l ih =>
    intro r hlr
    rw [hfuel, expandLoop_unfold runes (l + 1) (l + 1) r hlr]
    by_cases hc : r < runes.length ∧ runes[l + 1]? = runes[r]?
    · obtain ⟨k, hk, hkl, hall, hmax⟩ := ih (r + 1) (by omega)
      rw [hfuel] at hk
      have e1 : ((l + 1 : Nat) : Int) - 1 = (l : Int) := by push_cast; omega
      have e2 : (r : Int) + 1 = ((r + 1 : Nat) : Int) := by push_cast; omega
      refine ⟨k + 1, ?_, by omega, ?_, ?_⟩
      · rw [if_pos hc, e1, e2, hk]; simp only [Option.some.injEq]; push_cast; omega
      · intro j hj
        cases j with
        | zero => exact hc
        | succ j =>
          have := hall j (by omega)
          refine ⟨by omega, ?_⟩
          have e3 : l + 1 - (j + 1) = l - j := by omega
          have e4 : r + (j + 1) = r + 1 + j := by omega
          rw [e3, e4]; exact this.2
      · rcases hmax with h | h | h
        · exact Or.inl (by omega)
        · exact Or.inr (Or.inl (by omega))
        · refine Or.inr (Or.inr ?_)
          have e3 : l + 1 - (k + 1) = l - k := by omega
          have e4 : r + (k + 1) = r + 1 + k := by omega
          rw [e3, e4]; exact h
    · refine ⟨0, ?_, by omega, fun j hj => by omega, ?_⟩
      · rw [if_neg hc]; simp
      · by_cases hr : r < runes.length
        · exact Or.inr (Or.inr (fun h => hc ⟨hr, h⟩))
        · exact Or.inr (Or.inl hr)

theorem palAt_odd {runes : List Char} {i k : Nat} (hk1 : 1 ≤ k) (hki : k ≤ i + 1)
    (h : ∀ j, j < k → i + j < runes.length ∧ runes[i - j]? = runes[i + j]?) :
    palAt runes (i + 1 - k) (2 * k - 1) := by
  refine ⟨by have := (h (k - 1) (by omega)).1; omega, fun t ht => ?_⟩
  by_cases htk : t ≤ k - 1
  · have := (h (k - 1 - t) (by omega)).2
    have e1 : i - (k - 1 - t) = i + 1 - k + t := by omega
    have e2 : i + (k - 1 - t) = i + 1 - k + (2 * k - 1 - 1 - t) := by omega
    rw [e1, e2] at this; exact this
  · have := (h (t - (k - 1)) (by omega)).2
    have e1 : i - (t - (k - 1)) = i + 1 - k + (2 * k - 1 - 1 - t) := by omega
    have e2 : i + (t - (k - 1)) = i + 1 - k + t := by omega
    rw [e1, e2] at this; exact this.symm

theorem palAt_even {runes : List Char} {i k : Nat} (hk1 : 1 ≤ k) (hki : k ≤ i + 1)
    (h : ∀ j, j < k → i + 1 + j < runes.length ∧ runes[i - j]? = runes[i + 1 + j]?) :
    palAt runes (i + 1 - k) (2 * k) := by
  refine ⟨by have := (h (k - 1) (by omega)).1; omega, fun t ht => ?_⟩
  by_cases htk : t ≤ k - 1
  · have := (h (k - 1 - t) (by omega)).2
    have e1 : i - (k - 1 - t) = i + 1 - k + t := by omega
    have e2 : i + 1 + (k - 1 - t) = i + 1 - k + (2 * k - 1 - t) := by omega
    rw [e1, e2] at this; exact this
  · have := (h (t - k) (by omega)).2
    have e1 : i - (t - k) = i + 1 - k + (2 * k - 1 - t) := by omega
    have e2 : i + 1 + (t - k) = i + 1 - k + t := by omega
    rw [e1, e2] at this; exact this.symm

/-- One iteration of the loop of `longestPalindrome`, at center `i`: it does not panic,
the pair `(start, maxLen)` stays a palindrome of `runes`, `maxLen` does not decrease, and
no palindrome centered at `i` is longer than the new `maxLen`. -/
theorem center_step (runes : List Char) (i : Nat) (hi : i < runes.length) (a L : Nat)
    (hL : 1 ≤ L) (hp : palAt runes a L) :
    ∃ a2 L2 : Nat,
      (∀ is, longestPalindromeLoop runes a L (i :: is) =
        longestPalindromeLoop runes a2 L2 is) ∧
      L ≤ L2 ∧ palAt runes a2 L2 ∧
      ∀ a1 L1, 1 ≤ L1 → palAt runes a1 L1 → a1 + (L1 - 1) / 2 = i → L1 ≤ L2 := by
  obtain ⟨k1, h1, hk1, hall1, hmax1⟩ := expandAroundCenter_spec runes i i (Nat.le_refl i)
  obtain ⟨k2, h2, hk2, hall2, hmax2⟩ := expandAroundCenter_spec runes i (i + 1) (by omega)
  have e1 : ((i + 1 : Nat) : Int) = (i : Int) + 1 := by push_cast; rfl
  rw [e1] at h2
  have hk1pos : 1 ≤ k1 := by
    by_contra hk
    have hk0 : k1 = 0 := by omega
    subst hk0
    rcases hmax1 with h | h | h
    · omega
    · exact h (by omega)
    · exact h rfl
  -- no palindrome centered at `i` is longer than what the two expansions return
  have hodd : ∀ a1 c, palAt runes a1 (2 * c + 1) → a1 + c = i → c + 1 ≤ k1 := by
    intro a1 c hpal hc
    by_contra hlt
    have hk : k1 ≤ c := by omega
    rcases hmax1 with h | h | h
    · omega
    · exact h (by have := hpal.1; omega)
    · apply h
      have := hpal.2 (c - k1) (by omega)
      have e3 : a1 + (c - k1) = i - k1 := by omega
      have e4 : a1 + (2 * c + 1 - 1 - (c - k1)) = i + k1 := by omega
      rw [e3, e4] at this; exact this
  have heven : ∀ a1 c, 1 ≤ c → palAt runes a1 (2 * c) → a1 + c - 1 = i → c ≤ k2 := by
    intro a1 c hc1 hpal hc
    by_contra hlt
    have hk : k2 < c := by omega
    rcases hmax2 with h | h | h
    · omega
    · exact h (by have := hpal.1; omega)
    · apply h
      have := hpal.2 (c - 1 - k2) (by omega)
      have e3 : a1 + (c - 1 - k2) = i - k2 := by omega
      have e4 : a1 + (2 * c - 1 - (c - 1 - k2)) = i + 1 + k2 := by omega
      rw [e3, e4] at this; exact this
  have hcenter : ∀ a1 L1, 1 ≤ L1 → palAt runes a1 L1 → a1 + (L1 - 1) / 2 = i →
      L1 ≤ 2 * k1 - 1 ∨ L1 ≤ 2 * k2 := by
    intro a1 L1 hL1 hpal hc
    rcases Nat.even_or_odd' L1 with ⟨c, hc2 | hc2⟩
    · subst hc2
      exact Or.inr (by have := heven a1 c (by omega) hpal (by omega); omega)
    · subst hc2
      exact Or.inl (by have := hodd a1 c hpal (by omega); omega)
  have hstep : ∀ is, longestPalindromeLoop runes a L (i :: is) =
      if maxInt (2 * (k1 : Int) - 1) (2 * (k2 : Int)) > (L : Int) then
        longestPalindromeLoop runes
          ((i : Int) - (maxInt (2 * (k1 : Int) - 1) (2 * (k2 : Int)) - 1).tdiv 2)
          (maxInt (2 * (k1 : Int) - 1) (2 * (k2 : Int))) is
      else longestPalindromeLoop runes a L is := by
    intro is
    have e5 : (i : Int) - i - 1 + 2 * k1 = 2 * (k1 : Int) - 1 := by omega
    have e6 : (i : Int) + 1 - i - 1 + 2 * k2 = 2 * (k2 : Int) := by omega
    simp only [longestPalindromeLoop, h1, h2, Option.bind_eq_bind, Option.some_bind, e5, e6]
  by_cases hgt : maxInt (2 * (k1 : Int) - 1) (2 * (k2 : Int)) > (L : Int)
  · by_cases hcmp : 2 * (k1 : Int) - 1 > 2 * (k2 : Int)
    · have hm : maxInt (2 * (k1 : Int) - 1) (2 * (k2 : Int)) = ((2 * k1 - 1 : Nat) : Int) := by
        simp only [maxInt, if_pos hcmp]; omega
      have hdiv : ((2 * k1 - 1 : Nat) : Int) - 1 = 2 * ((k1 - 1 : Nat) : Int) := by omega
      have hs : (i : Int) - (((2 * k1 - 1 : Nat) : Int) - 1).tdiv 2 =
          ((i + 1 - k1 : Nat) : Int) := by
        rw [hdiv, Int.tdiv_eq_ediv (by omega) (by decide)]; omega
      rw [hm] at hgt
      refine ⟨i + 1 - k1, 2 * k1 - 1, fun is => ?_, by omega, palAt_odd hk1pos hk1 hall1, ?_⟩
      · rw [hstep, hm, if_pos hgt, hs]
      · intro a1 L1 hL1 hpal hc
        rcases hcenter a1 L1 hL1 hpal hc with h | h <;> omega
    · have hm : maxInt (2 * (k1 : Int) - 1) (2 * (k2 : Int)) = ((2 * k2 : Nat) : Int) := by
        simp only [maxInt, if_neg hcmp]; omega
      rw [hm] at hgt
      have hk2pos : 1 ≤ k2 := by omega
      have hs : (i : Int) - (((2 * k2 : Nat) : Int) - 1).tdiv 2 =
          ((i + 1 - k2 : Nat) : Int) := by
        rw [Int.tdiv_eq_ediv (by omega) (by decide)]; omega
      refine ⟨i + 1 - k2, 2 * k2, fun is => ?_, by omega, palAt_even hk2pos hk2 hall2, ?_⟩
      · rw [hstep, hm, if_pos hgt, hs]
      · intro a1 L1 hL1 hpal hc
        rcases hcenter a1 L1 hL1 hpal hc with h | h <;> omega
  · refine ⟨a, L, fun is => by rw [hstep, if_neg hgt], Nat.le_refl L, hp, ?_⟩
    intro a1 L1 hL1 hpal hc
    have hle : 2 * (k1 : Int) - 1 ≤ L ∧ 2 * (k2 : Int) ≤ L := by
      unfold maxInt at hgt
      split at hgt <;> omega
    rcases hcenter a1 L1 hL1 hpal hc with h | h <;> omega

/-- The loop of `longestPalindrome` from center `i0` on: it does not panic and ends with
a palindrome of `runes` that no palindrome of `runes` exceeds in length. -/
theorem longestPalindromeLoop_spec (runes : List Char) (m : Nat) :
    ∀ (i0 a L : Nat), i0 + m = runes.length → 1 ≤ L → palAt runes a L →
      (∀ a1 L1, 1 ≤ L1 → palAt runes a1 L1 → a1 + (L1 - 1) / 2 < i0 → L1 ≤ L) →
      ∃ a2 L2 : Nat,
        longestPalindromeLoop runes a L (List.range' i0 m) = some ((a2 : Int), (L2 : Int)) ∧
        1 ≤ L2 ∧ palAt runes a2 L2 ∧
        ∀ a1 L1, palAt runes a1 L1 → L1 ≤ L2 := by
  induction m with
  | zero =>
    intro i0 a L hn hL hp hbest
    refine ⟨a, L, rfl, hL, hp, fun a1 L1 hpal => ?_⟩
    by_cases hL1 : 1 ≤ L1
    · exact hbest a1 L1 hL1 hpal (by
        have := hpal.1
        have := Nat.div_le_self (L1 - 1) 2
        omega)
    · omega
  | succ m ih =>
    intro i0 a L hn hL hp hbest
    obtain ⟨a2, L2, hstep, hle, hp2, hc⟩ := center_step runes i0 (by omega) a L hL hp
    obtain ⟨a3, L3, hrun, hL3, hp3, hall⟩ := ih (i0 + 1) a2 L2 (by omega) (by omega) hp2
      (fun a1 L1 hL1 hpal hlt => by
        by_cases hci : a1 + (L1 - 1) / 2 = i0
        · exact hc a1 L1 hL1 hpal hci
        · exact Nat.le_trans (hbest a1 L1 hL1 hpal (by omega)) hle)
    exact ⟨a3, L3, by rw [List.range'_succ, hstep, hrun], hL3, hp3, hall⟩

theorem palAt_of_infix {s w : List Char} (hw : w <:+: s) (hrev : w.reverse = w) :
    ∃ a, palAt s a w.length := by
  obtain ⟨x, y, hxy⟩ := hw
  refine ⟨x.length, by rw [← hxy]; simp, fun t ht => ?_⟩
  have hget : ∀ u, u < w.length → s[x.length + u]? = w[u]? := by
    intro u hu
    rw [← hxy, List.append_assoc, List.getElem?_append_right (by omega),
      List.getElem?_append_left (by omega)]
    congr 1; omega
  rw [hget t ht, hget _ (by omega)]
  conv_lhs => rw [← hrev]
  rw [List.getElem?_reverse ht]

theorem reverse_of_palAt {s : List Char} {a L : Nat} (h : palAt s a L) :
    ((s.drop a).take L).reverse = (s.drop a).take L := by
  have hlen : ((s.drop a).take L).length = L := by
    simp only [List.length_take, List.length_drop]; have := h.1; omega
  apply List.ext_getElem?
  intro t
  by_cases ht : t < L
  · rw [List.getElem?_reverse (by omega), hlen, List.getElem?_take_of_lt (by omega),
      List.getElem?_take_of_lt ht, List.getElem?_drop, List.getElem?_drop]
    exact (h.2 t ht).symm
  · rw [List.getElem?_eq_none (by simp only [List.length_reverse]; omega),
      List.getElem?_eq_none (by omega)]

/-- C16: for every string `s`, `longestPalindrome(s)` returns (without panic) a contiguous
part of the characters of `s` that reads the same forwards and backwards, no palindromic
contiguous part of `s` is longer, and for the empty string the result is empty. -/
theorem longestPalindrome_spec (s : List Char) :
    ∃ r, longestPalindrome s = some r ∧ r <:+: s ∧ r.reverse = r ∧
      (∀ w, w <:+: s → w.reverse = w → w.length ≤ r.length) ∧
      (s = [] → r = []) := by
  by_cases hs : s.length = 0
  · have hnil : s = [] := List.length_eq_zero.mp hs
    subst hnil
    refine ⟨[], rfl, List.infix_refl _, rfl, fun w hw _ => ?_, fun _ => rfl⟩
    rw [List.infix_nil.mp hw]
  · have hstart : palAt s 0 1 := ⟨by omega, fun t ht => by
      have : t = 0 := by omega
      subst this; rfl⟩
    obtain ⟨a, L, hrun, hL, hp, hall⟩ := longestPalindromeLoop_spec s s.length 0 0 1 (by omega)
      (Nat.le_refl 1) hstart (fun a1 L1 _ _ h => by omega)
    have hrange : List.range s.length = List.range' 0 s.length := List.range_eq_range' _
    have hcond : (0 : Int) ≤ a ∧ (a : Int) ≤ a + L ∧ (a : Int) + L ≤ s.length := by
      have := hp.1; omega
    have hres : longestPalindrome s = some ((s.drop a).take L) := by
      simp only [longestPalindrome, if_neg hs, hrange]
      have h01 : longestPalindromeLoop s 0 1 (List.range' 0 s.length) =
          longestPalindromeLoop s ((0 : Nat) : Int) ((1 : Nat) : Int)
            (List.range' 0 s.length) := rfl
      rw [h01, hrun]
      have hsub : ((a : Int) + L - a).toNat = L := by omega
      simp only [Option.bind_eq_bind, Option.some_bind, sliceRange, if_pos hcond,
        Int.toNat_ofNat, hsub]
    have hlen : ((s.drop a).take L).length = L := by
      simp only [List.length_take, List.length_drop]; have := hp.1; omega
    refine ⟨(s.drop a).take L, hres, ?_, reverse_of_palAt hp, fun w hw hrev => ?_,
      fun h => absurd (by rw [h]; rfl) hs⟩
    · exact (List.take_prefix _ _).isInfix.trans (List.drop_suffix _ _).isInfix
    · obtain ⟨a1, hpal⟩ := palAt_of_infix hw hrev
      rw [hlen]
      exact hall a1 w.length hpal

/-- The test cases of `main` for `longestPalindrome`. -/
theorem longestPalindrome_examples :
    longestPalindrome ['b', 'a', 'b', 'a', 'd'] = some ['b', 'a', 'b'] ∧
    longestPalindrome ['c', 'b', 'b', 'd'] = some ['b', 'b'] ∧
    longestPalindrome ['a', 'c'] = some ['a'] ∧
    longestPalindrome ['n', 'o', 'o', 'n'] = some ['n', 'o', 'o', 'n'] ∧
    longestPalindrome ['b', 'a', 'n', 'a', 'n', 'a', 's'] = some ['a', 'n', 'a', 'n', 'a'] ∧
    longestPalindrome [] = some [] := by
  decide

/-- C17 fails on the code: on the one-character string `^` the function
`longestPalindromeManacher` panics (the character equals the sentinel `^` at index 0 of
`processed`, the expansion at `i = 1` goes on and reads `runes[-1]`), while
`longestPalindrome` returns `^`.  With ordinary letters both return the same string. -/
theorem longestPalindromeManacher_sentinel :
    longestPalindromeManacher ['^'] = none ∧ longestPalindrome ['^'] = some ['^'] ∧
    preprocess ['^'] = ['^', '#', '^', '#', '$'] ∧
    longestPalindromeManacher ['$'] = none ∧
    longestPalindromeManacher ['b', 'a', 'b', 'a', 'd'] = some ['b', 'a', 'b'] ∧
    longestPalindromeManacher ['c', 'b', 'b', 'd'] = some ['b', 'b'] := by
  decide

/-! ## Median of two sorted arrays -/

theorem sorted_getD_le {xs : List Int} (h : xs.Sorted (· ≤ ·)) {i j : Nat} (hij : i ≤ j)
    (hj : j < xs.length) : xs.getD i 0 ≤ xs.getD j 0 := by
  rw [List.getD_eq_getElem _ _ (by omega), List.getD_eq_getElem _ _ hj]
  exact h.rel_get_of_le (a := ⟨i, by omega⟩) (b := ⟨j, hj⟩) hij

theorem mem_take_getD {xs : List Int} {p : Nat} {x : Int} (hx : x ∈ xs.take p) :
    ∃ i, i < p ∧ i < xs.length ∧ x = xs.getD i 0 := by
  obtain ⟨i, hi, rfl⟩ := List.getElem_of_mem hx
  simp only [List.length_take] at hi
  refine ⟨i, by omega, by omega, ?_⟩
  rw [List.getElem_take, List.getD_eq_getElem _ _ (by omega)]

theorem mem_drop_getD {xs : List Int} {p : Nat} {x : Int} (hx : x ∈ xs.drop p) :
    ∃ i, p ≤ i ∧ i < xs.length ∧ x = xs.getD i 0 := by
  obtain ⟨i, hi, rfl⟩ := List.getElem_of_mem hx
  simp only [List.length_drop] at hi
  refine ⟨p + i, by omega, by omega, ?_⟩
  rw [List.getElem_drop, List.getD_eq_getElem _ _ (by omega)]

theorem getD_mem_take {xs : List Int} {p i : Nat} (hi : i < p) (hl : i < xs.length) :
    xs.getD i 0 ∈ xs.take p := by
  rw [List.getD_eq_getElem _ _ hl]
  exact List.mem_iff_getElem.mpr ⟨i, by simp; omega, by simp [List.getElem_take]⟩

theorem getD_mem_drop {xs : List Int} {p i : Nat} (hi : p ≤ i) (hl : i < xs.length) :
    xs.getD i 0 ∈ xs.drop p := by
  rw [List.getD_eq_getElem _ _ hl]
  exact List.mem_iff_getElem.mpr ⟨i - p, by simp; omega, by
    simp only [List.getElem_drop]; congr 1; omega⟩

/-- The last element of a non-decreasing list is its greatest element. -/
theorem sorted_last {L : List Int} (hs : L.Sorted (· ≤ ·)) {M : Int} (hM : M ∈ L)
    (hmax : ∀ x ∈ L, x ≤ M) : L.getD (L.length - 1) 0 = M := by
  obtain ⟨j, hj, hjM⟩ := List.getElem_of_mem hM
  have h1 : L.getD j 0 ≤ L.getD (L.length - 1) 0 := sorted_getD_le hs (by omega) (by omega)
  rw [List.getD_eq_getElem _ _ hj, hjM] at h1
  have h2 : L.getD (L.length - 1) 0 ∈ L := by
    rw [List.getD_eq_getElem _ _ (by omega)]; exact List.getElem_mem _
  exact Int.le_antisymm (hmax _ h2) h1

/-- The first element of a non-decreasing list is its least element. -/
theorem sorted_first {L : List Int} (hs : L.Sorted (· ≤ ·)) {M : Int} (hM : M ∈ L)
    (hmin : ∀ x ∈ L, M ≤ x) : L.getD 0 0 = M := by
  obtain ⟨j, hj, hjM⟩ := List.getElem_of_mem hM
  have h1 : L.getD 0 0 ≤ L.getD j 0 := sorted_getD_le hs (by omega) hj
  rw [List.getD_eq_getElem _ _ hj, hjM] at h1
  have h2 : L.getD 0 0 ∈ L := by
    rw [List.getD_eq_getElem _ _ (by omega)]; exact List.getElem_mem _
  exact Int.le_antisymm h1 (hmin _ h2)

theorem leftMax_range {xs : List Int} (hr : inInt32 xs) {p : Nat} (hp : p ≤ xs.length) :
    MinInt32 ≤ leftMax xs p ∧ leftMax xs p ≤ MaxInt32 := by
  unfold leftMax
  split
  · rw [List.getD_eq_getElem _ _ (by omega)]; exact hr _ (List.getElem_mem _)
  · exact ⟨Int.le_refl _, by decide⟩

theorem rightMin_range {xs : List Int} (hr : inInt32 xs) (p : Nat) :
    MinInt32 ≤ rightMin xs p ∧ rightMin xs p ≤ MaxInt32 := by
  unfold rightMin
  split
  · rename_i h
    rw [List.getD_eq_getElem _ _ h]; exact hr _ (List.getElem_mem _)
  · exact ⟨by decide, Int.le_refl _⟩

theorem le_leftMax {xs : List Int} (hs : xs.Sorted (· ≤ ·)) {p : Nat} (hp : p ≤ xs.length)
    {x : Int} (hx : x ∈ xs.take p) : x ≤ leftMax xs p := by
  obtain ⟨i, hip, hil, rfl⟩ := mem_take_getD hx
  simp only [leftMax, if_pos (show 0 < p by omega)]
  exact sorted_getD_le hs (by omega) (by omega)

theorem rightMin_le {xs : List Int} (hs : xs.Sorted (· ≤ ·)) {p : Nat}
    {x : Int} (hx : x ∈ xs.drop p) : rightMin xs p ≤ x := by
  obtain ⟨i, hip, hil, rfl⟩ := mem_drop_getD hx
  simp only [rightMin, if_pos (show p < xs.length by omega)]
  exact sorted_getD_le hs hip hil

/-- A cut of the two arrays at `p` and `q` whose left parts are below the right parts
splits the sorted merge at `p + q`: the element before the split is the larger `maxLeft`,
the element after it the smaller `minRight`. -/
theorem partition_median {A B : List Int} (hsA : A.Sorted (· ≤ ·)) (hsB : B.Sorted (· ≤ ·))
    (hrA : inInt32 A) (hrB : inInt32 B) {p q : Nat} (hp : p ≤ A.length) (hq : q ≤ B.length)
    (hpq : 1 ≤ p + q) (hA : leftMax A p ≤ rightMin B q) (hB : leftMax B q ≤ rightMin A p) :
    (sortedMerge A B).getD (p + q - 1) 0 = maxInt (leftMax A p) (leftMax B q) ∧
    (p + q < A.length + B.length →
      (sortedMerge A B).getD (p + q) 0 = minInt (rightMin A p) (rightMin B q)) := by
  have hAA : leftMax A p ≤ rightMin A p := by
    unfold leftMax rightMin
    split
    · split
      · exact sorted_getD_le hsA (by omega) (by omega)
      · rw [List.getD_eq_getElem _ _ (by omega)]; exact (hrA _ (List.getElem_mem _)).2
    · exact (rightMin_range hrA p).1
  have hBB : leftMax B q ≤ rightMin B q := by
    unfold leftMax rightMin
    split
    · split
      · exact sorted_getD_le hsB (by omega) (by omega)
      · rw [List.getD_eq_getElem _ _ (by omega)]; exact (hrB _ (List.getElem_mem _)).2
    · exact (rightMin_range hrB q).1
  -- the left parts and the right parts of the cut
  have hcross : ∀ x ∈ A.take p ++ B.take q, ∀ y ∈ A.drop p ++ B.drop q, x ≤ y := by
    intro x hx y hy
    rcases List.mem_append.mp hx with hx | hx <;> rcases List.mem_append.mp hy with hy | hy
    · exact Int.le_trans (le_leftMax hsA hp hx) (Int.le_trans hAA (rightMin_le hsA hy))
    · exact Int.le_trans (le_leftMax hsA hp hx) (Int.le_trans hA (rightMin_le hsB hy))
    · exact Int.le_trans (le_leftMax hsB hq hx) (Int.le_trans hB (rightMin_le hsA hy))
    · exact Int.le_trans (le_leftMax hsB hq hx) (Int.le_trans hBB (rightMin_le hsB hy))
  have hperm : (A.take p ++ B.take q ++ (A.drop p ++ B.drop q)).Perm (A ++ B) := by
    have h1 : (A.take p ++ B.take q ++ (A.drop p ++ B.drop q)).Perm
        (A.take p ++ A.drop p ++ (B.take q ++ B.drop q)) := by
      rw [List.append_assoc, List.append_assoc]
      apply List.Perm.append_left
      rw [← List.append_assoc, ← List.append_assoc]
      exact List.Perm.append_right _ List.perm_append_comm
    rwa [List.take_append_drop, List.take_append_drop] at h1
  have hsplit : sortedMerge A B =
      (A.take p ++ B.take q).insertionSort (· ≤ ·) ++
        (A.drop p ++ B.drop q).insertionSort (· ≤ ·) := by
    apply List.eq_of_perm_of_sorted (r := (· ≤ ·))
    · unfold sortedMerge
      refine (List.perm_insertionSort _ _).trans (hperm.symm.trans ?_)
      exact List.Perm.append (List.perm_insertionSort _ _).symm
        (List.perm_insertionSort _ _).symm
    · exact List.sorted_insertionSort _ _
    · unfold List.Sorted
      rw [List.pairwise_append]
      refine ⟨List.sorted_insertionSort _ _, List.sorted_insertionSort _ _, fun x hx y hy => ?_⟩
      exact hcross x ((List.perm_insertionSort _ _).mem_iff.mp hx) y
        ((List.perm_insertionSort _ _).mem_iff.mp hy)
  have hlenL : ((A.take p ++ B.take q).insertionSort (· ≤ ·)).length = p + q := by
    rw [List.length_insertionSort]; simp; omega
  constructor
  · rw [hsplit, List.getD_append _ _ _ _ (by omega)]
    have := sorted_last (List.sorted_insertionSort (· ≤ ·) (A.take p ++ B.take q))
      (M := maxInt (leftMax A p) (leftMax B q)) ?_ ?_
    · rwa [hlenL] at this
    · rw [(List.perm_insertionSort _ _).mem_iff]
      have hmA : 0 < p → leftMax A p ∈ A.take p ++ B.take q := fun h0 => by
        simp only [leftMax, if_pos h0]
        exact List.mem_append_left _ (getD_mem_take (by omega) (by omega))
      have hmB : 0 < q → leftMax B q ∈ A.take p ++ B.take q := fun h0 => by
        simp only [leftMax, if_pos h0]
        exact List.mem_append_right _ (getD_mem_take (by omega) (by omega))
      have hrA1 := leftMax_range hrA hp
      have hrB1 := leftMax_range hrB hq
      unfold maxInt
      by_cases hp0 : 0 < p
      · by_cases hq0 : 0 < q
        · split
          · exact hmA hp0
          · exact hmB hq0
        · have hBm : leftMax B q = MinInt32 := by simp [leftMax, hq0]
          split
          · exact hmA hp0
          · have : leftMax A p = leftMax B q := by omega
            rw [← this]; exact hmA hp0
      · have hAm : leftMax A p = MinInt32 := by simp [leftMax, hp0]
        have hq0 : 0 < q := by omega
        split
        · omega
        · exact hmB hq0
    · intro x hx
      rw [(List.perm_insertionSort _ _).mem_iff] at hx
      unfold maxInt
      rcases List.mem_append.mp hx with hx | hx
      · have := le_leftMax hsA hp hx
        split <;> omega
      · have := le_leftMax hsB hq hx
        split <;> omega
  · intro hlt
    rw [hsplit, List.getD_append_right _ _ _ _ (by omega), hlenL, Nat.sub_self]
    apply sorted_first (List.sorted_insertionSort (· ≤ ·) (A.drop p ++ B.drop q))
    · rw [(List.perm_insertionSort _ _).mem_iff]
      have hmA : p < A.length → rightMin A p ∈ A.drop p ++ B.drop q := fun h0 => by
        simp only [rightMin, if_pos h0]
        exact List.mem_append_left _ (getD_mem_drop (Nat.le_refl _) h0)
      have hmB : q < B.length → rightMin B q ∈ A.drop p ++ B.drop q := fun h0 => by
        simp only [rightMin, if_pos h0]
        exact List.mem_append_right _ (getD_mem_drop (Nat.le_refl _) h0)
      have hrA1 := rightMin_range hrA p
      have hrB1 := rightMin_range hrB q
      unfold minInt
      by_cases hp0 : p < A.length
      · by_cases hq0 : q < B.length
        · split
          · exact hmA hp0
          · exact hmB hq0
        · have hBm : rightMin B q = MaxInt32 := by simp [rightMin, hq0]
          split
          · exact hmA hp0
          · have : rightMin A p = rightMin B q := by omega
            rw [← this]; exact hmA hp0
      · have hAm : rightMin A p = MaxInt32 := by simp [rightMin, hp0]
        have hq0 : q < B.length := by omega
        split
        · omega
        · exact hmB hq0
    · intro x hx
      rw [(List.perm_insertionSort _ _).mem_iff] at hx
      unfold minInt
      rcases List.mem_append.mp hx with hx | hx
      · have := rightMin_le hsA hx
        split <;> omega
      · have := rightMin_le hsB hx
        split <;> omega

theorem read_leftMax (xs : List Int) {p : Nat} (hp : p ≤ xs.length) :
    (if (p : Int) > 0 then sliceGetInt xs ((p : Int) - 1) else some MinInt32) =
      some (leftMax xs p) := by
  unfold leftMax
  by_cases h0 : 0 < p
  · have e : (p : Int) - 1 = ((p - 1 : Nat) : Int) := by omega
    rw [if_pos (by omega), if_pos h0, e]
    simp only [sliceGetInt, Int.toNat_ofNat]
    rw [if_pos (by omega), List.getElem?_eq_getElem (by omega),
      List.getD_eq_getElem _ _ (by omega)]
  · rw [if_neg (by omega), if_neg h0]

theorem read_rightMin (xs : List Int) (p : Nat) :
    (if (p : Int) < (xs.length : Int) then sliceGetInt xs (p : Int) else some MaxInt32) =
      some (rightMin xs p) := by
  unfold rightMin
  by_cases h0 : p < xs.length
  · rw [if_pos (by omega), if_pos h0]
    simp only [sliceGetInt, Int.toNat_ofNat]
    rw [if_pos (by omega), List.getElem?_eq_getElem h0, List.getD_eq_getElem _ _ h0]
  · rw [if_neg (by omega), if_neg h0]

/-- The search interval cannot become empty: a cut at `r` whose `maxLeft2` is above its
`minRight1` and a cut at `r + 1` whose `maxLeft1` is above its `minRight2` contradict each
other. -/
theorem search_nonempty {A B : List Int} (hrA : inInt32 A) (hrB : inInt32 B)
    (hlen : A.length ≤ B.length) {r : Nat} (hrm : r ≤ A.length)
    (hL : ¬ (leftMax B ((A.length + B.length + 1) / 2 - r) ≤ rightMin A r))
    (hR : r = A.length ∨
      ¬ (leftMax A (r + 1) ≤ rightMin B ((A.length + B.length + 1) / 2 - (r + 1)))) :
    False := by
  by_cases hre : r = A.length
  · apply hL
    subst hre
    have : rightMin A A.length = MaxInt32 := by simp [rightMin]
    rw [this]
    exact (leftMax_range hrB (by omega)).2
  · have hrl : r < A.length := by omega
    rcases hR with hR | hR
    · exact hre hR
    · have h1 : leftMax A (r + 1) = A.getD r 0 := by simp [leftMax]
      have h2 : rightMin A r = A.getD r 0 := by simp [rightMin, hrl]
      rw [h1] at hR
      rw [h2] at hL
      have h3 : leftMax B ((A.length + B.length + 1) / 2 - r) =
          B.getD ((A.length + B.length + 1) / 2 - (r + 1)) 0 := by
        have : 0 < (A.length + B.length + 1) / 2 - r := by omega
        simp only [leftMax, if_pos this]
        congr 1
      rw [h3] at hL
      unfold rightMin at hR
      split at hR
      · omega
      · have := (hrA (A.getD r 0) (by
          rw [List.getD_eq_getElem _ _ hrl]; exact List.getElem_mem _)).2
        omega

/-- The binary search of `findMedianSortedArrays` on `[l, r]`, given that every cut left
of `l` has its `maxLeft2` above its `minRight1` and every cut right of `r` has its
`maxLeft1` above its `minRight2` (stated for the two neighbours, which is what the loop
establishes): it does not panic, does not run past `left <= right`, and returns the median
of the sorted merge. -/
theorem findMedianLoop_spec {A B : List Int} (hsA : A.Sorted (· ≤ ·))
    (hsB : B.Sorted (· ≤ ·)) (hrA : inInt32 A) (hrB : inInt32 B)
    (hlen : A.length ≤ B.length) (hne : 1 ≤ A.length + B.length) (fuel : Nat) :
    ∀ l r : Nat, l ≤ r + 1 → r ≤ A.length → r + 1 - l ≤ fuel →
      (l = 0 ∨ ¬ (leftMax B ((A.length + B.length + 1) / 2 - (l - 1)) ≤ rightMin A (l - 1))) →
      (r = A.length ∨
        ¬ (leftMax A (r + 1) ≤ rightMin B ((A.length + B.length + 1) / 2 - (r + 1)))) →
      findMedianLoop A B A.length B.length ((A.length : Int) + B.length)
        (((A.length : Int) + B.length + 1).tdiv 2) fuel l r =
        some (medianOfSorted (sortedMerge A B)) := by
  have hhalf : ((A.length : Int) + B.length + 1).tdiv 2 =
      (((A.length + B.length + 1) / 2 : Nat) : Int) := by
    rw [Int.tdiv_eq_ediv (by omega) (by decide)]; omega
  have hhm : A.length ≤ (A.length + B.length + 1) / 2 := by omega
  have hhn : (A.length + B.length + 1) / 2 ≤ B.length := by omega
  induction fuel with
  | zero =>
    intro l r hlr hrm hfuel hL hR
    exfalso
    have hl : l = r + 1 := by omega
    subst hl
    rcases hL with hL | hL
    · omega
    · simp only [Nat.add_sub_cancel] at hL
      exact search_nonempty hrA hrB hlen hrm hL hR
  | succ fuel ih =>
    intro l r hlr hrm hfuel hL hR
    by_cases hle : l ≤ r
    · have hmid : ((l : Int) + r).tdiv 2 = (((l + r) / 2 : Nat) : Int) := by
        rw [Int.tdiv_eq_ediv (by omega) (by decide)]; omega
      have hp1 : l ≤ (l + r) / 2 := by omega
      have hp2 : (l + r) / 2 ≤ r := by omega
      have hq : (((A.length + B.length + 1) / 2 : Nat) : Int) - (((l + r) / 2 : Nat) : Int) =
          (((A.length + B.length + 1) / 2 - (l + r) / 2 : Nat) : Int) := by omega
      have hqn : (A.length + B.length + 1) / 2 - (l + r) / 2 ≤ B.length := by omega
      rw [findMedianLoop, if_pos (by omega)]
      simp only [hmid, hhalf, hq, read_leftMax A (show (l + r) / 2 ≤ A.length by omega),
        read_rightMin A, read_leftMax B hqn, read_rightMin B, Option.bind_eq_bind,
        Option.some_bind]
      by_cases hfound : leftMax A ((l + r) / 2) ≤
          rightMin B ((A.length + B.length + 1) / 2 - (l + r) / 2) ∧
          leftMax B ((A.length + B.length + 1) / 2 - (l + r) / 2) ≤ rightMin A ((l + r) / 2)
      · rw [if_pos hfound]
        have hsum : (l + r) / 2 + ((A.length + B.length + 1) / 2 - (l + r) / 2) =
            (A.length + B.length + 1) / 2 := by omega
        obtain ⟨hm1, hm2⟩ := partition_median hsA hsB hrA hrB
          (show (l + r) / 2 ≤ A.length by omega) hqn (by omega) hfound.1 hfound.2
        rw [hsum] at hm1 hm2
        have hSlen : (sortedMerge A B).length = A.length + B.length := by
          simp [sortedMerge, List.length_insertionSort]
        unfold medianOfSorted
        rw [hSlen]
        by_cases hodd : (A.length + B.length) % 2 = 1
        · have hoddI : ((A.length : Int) + B.length).tmod 2 = 1 := by
            rw [Int.tmod_eq_emod (by omega) (by decide)]; omega
          rw [if_pos hoddI, if_pos hodd, ← hm1]
          congr 3; omega
        · have hoddI : ¬ ((A.length : Int) + B.length).tmod 2 = 1 := by
            rw [Int.tmod_eq_emod (by omega) (by decide)]; omega
          rw [if_neg hoddI, if_neg hodd, ← hm1, ← hm2 (by omega)]
          have e1 : (A.length + B.length + 1) / 2 - 1 = (A.length + B.length) / 2 - 1 := by
            omega
          have e2 : (A.length + B.length + 1) / 2 = (A.length + B.length) / 2 := by omega
          rw [e1, e2]
      · rw [if_neg hfound]
        by_cases hgt : leftMax A ((l + r) / 2) >
            rightMin B ((A.length + B.length + 1) / 2 - (l + r) / 2)
        · rw [if_pos hgt]
          have hp0 : 0 < (l + r) / 2 := by
            by_contra h0
            have h00 : (l + r) / 2 = 0 := by omega
            rw [h00] at hgt
            have : leftMax A 0 = MinInt32 := by simp [leftMax]
            rw [this] at hgt
            have := (rightMin_range hrB ((A.length + B.length + 1) / 2 - 0)).1
            omega
          have e : (((l + r) / 2 : Nat) : Int) - 1 = (((l + r) / 2 - 1 : Nat) : Int) := by
            omega
          rw [e]
          apply ih l ((l + r) / 2 - 1) (by omega) (by omega) (by omega) hL
          right
          have e2 : (l + r) / 2 - 1 + 1 = (l + r) / 2 := by omega
          rw [e2]
          omega
        · rw [if_neg hgt]
          have hnb : ¬ (leftMax B ((A.length + B.length + 1) / 2 - (l + r) / 2) ≤
              rightMin A ((l + r) / 2)) := fun hb => hfound ⟨by omega, hb⟩
          have hpm : (l + r) / 2 < A.length := by
            by_contra hge
            have hpe : (l + r) / 2 = A.length := by omega
            apply hnb
            rw [hpe]
            have : rightMin A A.length = MaxInt32 := by simp [rightMin]
            rw [this]
            exact (leftMax_range hrB (by omega)).2
          have e : (((l + r) / 2 : Nat) : Int) + 1 = (((l + r) / 2 + 1 : Nat) : Int) := by
            omega
          rw [e]
          apply ih ((l + r) / 2 + 1) r (by omega) hrm (by omega) _ hR
          right
          simpa using hnb
    · exfalso
      have hl : l = r + 1 := by omega
      subst hl
      rcases hL with hL | hL
      · omega
      · simp only [Nat.add_sub_cancel] at hL
        exact search_nonempty hrA hrB hlen hrm hL hR

theorem sortedMerge_comm (A B : List Int) : sortedMerge B A = sortedMerge A B := by
  apply List.eq_of_perm_of_sorted (r := (· ≤ ·))
  · unfold sortedMerge
    exact (List.perm_insertionSort _ _).trans
      (List.perm_append_comm.trans (List.perm_insertionSort _ _).symm)
  · exact List.sorted_insertionSort _ _
  · exact List.sorted_insertionSort _ _

theorem findMedianOrdered_spec {A B : List Int} (hsA : A.Sorted (· ≤ ·))
    (hsB : B.Sorted (· ≤ ·)) (hrA : inInt32 A) (hrB : inInt32 B)
    (hlen : A.length ≤ B.length) (hne : 1 ≤ A.length + B.length) :
    findMedianOrdered A B = some (medianOfSorted (sortedMerge A B)) := by
  have key := findMedianLoop_spec hsA hsB hrA hrB hlen hne (A.length + 1) 0 A.length
    (by omega) (Nat.le_refl _) (by omega) (Or.inl rfl) (Or.inl rfl)
  simpa [findMedianOrdered] using key

/-- C20: for every two non-decreasing arrays `nums1`, `nums2`, not both empty, with
elements in the signed 32-bit range, `findMedianSortedArrays(nums1, nums2)` returns
(without panic) the median of their sorted merge as an exact rational: the middle element
when the total length is odd, half the sum of the two middle elements when it is even;
and the arguments in the other order give the same result. -/
theorem findMedianSortedArrays_spec (nums1 nums2 : List Int)
    (h1 : nums1.Sorted (· ≤ ·)) (h2 : nums2.Sorted (· ≤ ·))
    (hne : nums1 ≠ [] ∨ nums2 ≠ []) (hr1 : inInt32 nums1) (hr2 : inInt32 nums2) :
    findMedianSortedArrays nums1 nums2 = some (medianOfSorted (sortedMerge nums1 nums2)) ∧
    findMedianSortedArrays nums2 nums1 = findMedianSortedArrays nums1 nums2 := by
  have hpos : 1 ≤ nums1.length + nums2.length := by
    rcases hne with h | h
    · have := List.length_pos.mpr h; omega
    · have := List.length_pos.mpr h; omega
  have hmain : ∀ (A B : List Int), A.Sorted (· ≤ ·) → B.Sorted (· ≤ ·) → inInt32 A →
      inInt32 B → 1 ≤ A.length + B.length →
      findMedianSortedArrays A B = some (medianOfSorted (sortedMerge A B)) := by
    intro A B hsA hsB hrA hrB hp
    unfold findMedianSortedArrays
    by_cases hgt : A.length > B.length
    · rw [if_pos hgt, findMedianOrdered_spec hsB hsA hrB hrA (by omega) (by omega),
        sortedMerge_comm]
    · rw [if_neg hgt, findMedianOrdered_spec hsA hsB hrA hrB (by omega) hp]
  refine ⟨hmain nums1 nums2 h1 h2 hr1 hr2 hpos, ?_⟩
  rw [hmain nums1 nums2 h1 h2 hr1 hr2 hpos, hmain nums2 nums1 h2 h1 hr2 hr1 (by omega),
    sortedMerge_comm]

/-- Witness of C20 on the test case `Negative numbers` of `main`. -/
theorem findMedianSortedArrays_spec_witness :
    List.Sorted (· ≤ ·) ([-5, -3, -1] : List Int) ∧
    List.Sorted (· ≤ ·) ([-2, 0, 4] : List Int) ∧
    (([-5, -3, -1] : List Int) ≠ [] ∨ ([-2, 0, 4] : List Int) ≠ []) ∧
    inInt32 [-5, -3, -1] ∧ inInt32 [-2, 0, 4] ∧
    findMedianSortedArrays [-5, -3, -1] [-2, 0, 4] =
      some (medianOfSorted (sortedMerge [-5, -3, -1] [-2, 0, 4])) ∧
    findMedianSortedArrays [-2, 0, 4] [-5, -3, -1] =
      findMedianSortedArrays [-5, -3, -1] [-2, 0, 4] :=
  ⟨by decide, by decide, by decide, by decide, by decide,
    findMedianSortedArrays_spec [-5, -3, -1] [-2, 0, 4] (by decide) (by decide) (by decide)
      (by decide) (by decide)⟩

/-- The test cases of `main`, and the two empty arrays, which the claim excludes: the
sentinels then give -1/2. -/
theorem findMedianSortedArrays_examples :
    findMedianSortedArrays [1, 3] [2] = some ((2 : Int) : ℚ) ∧
    findMedianSortedArrays [1, 2] [3, 4] = some (((5 : Int) : ℚ) / 2) ∧
    findMedianSortedArrays [] [1] = some ((1 : Int) : ℚ) ∧
    findMedianSortedArrays [2] [] = some ((2 : Int) : ℚ) ∧
    findMedianSortedArrays [1, 3, 5, 7, 9] [2, 4, 6, 8, 10] = some (((11 : Int) : ℚ) / 2) ∧
    findMedianSortedArrays [1, 2] [1, 2] = some (((3 : Int) : ℚ) / 2) ∧
    findMedianSortedArrays [-5, -3, -1] [-2, 0, 4] = some (((-3 : Int) : ℚ) / 2) ∧
    findMedianSortedArrays [] [] = some (((-1 : Int) : ℚ) / 2) :=
  ⟨rfl, rfl, rfl, rfl, rfl, rfl, rfl, rfl⟩

/-! ## Resize and the growth of the buffer -/

/-- On a full buffer `resize` returns the closed form `grown`, whatever the cursors. -/
theorem resize_full [Inhabited T] (q : OptimalQueue T) (hfull : q.size = q.data.length) :
    resize q = some (grown q) := by
  have hlen : q.size = 0 ∨ 0 < q.data.length := by omega
  have hle : q.size ≤ (List.replicate (newLen q) (default : T)).length := by
    have := newLen_gt q; simp only [List.length_replicate]; omega
  have := copyLoop_eq q _ hlen hle
  simp only [resize, grown]
  unfold newLen at this
  rw [this]
  simp [newLen]

theorem grown_length_full [Inhabited T] (q : OptimalQueue T) (hfull : q.size = q.data.length) :
    (grown q).data.length = newLen q := by
  have := newLen_gt q
  simp only [grown, List.length_append, contents_length, List.length_replicate]; omega

theorem grown_slot [Inhabited T] (q : OptimalQueue T) {i : Nat} (hi : i < q.size) :
    (grown q).data[i]? = some (slot q i) := by
  have hi2 : i < (contents q).length := by rw [contents_length]; exact hi
  simp only [grown]
  rw [List.getElem?_append_left hi2]
  simp [contents, List.getElem?_range hi]

theorem step_length_cases [Inhabited T] {q q1 : OptimalQueue T} (h : Inv q) {op : Op T}
    {o : Obs T} (hs : q.step op = some (o, q1)) :
    q1.data.length = q.data.length ∨
      (q.size = q.data.length ∧ q1.data.length = newLen q) := by
  cases op with
  | toSlice => rw [step_toSlice h] at hs; cases hs; exact Or.inl rfl
  | method m =>
    cases m with
    | enqueue e =>
      rw [step_enqueue h] at hs; cases hs
      by_cases hfull : q.size = q.data.length
      · right
        exact ⟨hfull, by simp only [if_pos hfull, pushed, List.length_set, grown_length h]⟩
      · left; simp [if_neg hfull, pushed]
    | dequeue =>
      by_cases h0 : q.size = 0
      · rw [step_dequeue_empty h0] at hs; cases hs; exact Or.inl rfl
      · rw [step_dequeue h h0] at hs; cases hs; exact Or.inl rfl
    | peek =>
      by_cases h0 : q.size = 0
      · rw [step_peek_empty h0] at hs; cases hs; exact Or.inl rfl
      · rw [step_peek h h0] at hs; cases hs; exact Or.inl rfl
    | size => cases hs; exact Or.inl rfl
    | isEmpty => cases hs; exact Or.inl rfl
    | clear => cases hs; exact Or.inl rfl

/-- The buffer of a reachable state has 0 slots or `4 * 2^k` slots. -/
theorem reachable_capacity [Inhabited T] {q : OptimalQueue T} (h : Reachable q) :
    q.data.length = 0 ∨ ∃ k, q.data.length = 4 * 2 ^ k := by
  induction h with
  | init => exact Or.inl rfl
  | step op o hq hs ih =>
    rename_i q0 q1
    rcases step_length_cases (inv_of_reachable hq) hs with h1 | ⟨_, h1⟩
    · rw [h1]; exact ih
    · rw [h1]
      right
      unfold newLen
      rcases ih with h0 | ⟨k, hk⟩
      · exact ⟨0, by simp [h0]⟩
      · refine ⟨k + 1, ?_⟩
        have hpos : 0 < 2 ^ k := Nat.pow_pos (by decide)
        rw [if_neg (by omega), hk, Nat.pow_succ]; omega

theorem reachable_not_one_slot [Inhabited T] {q : OptimalQueue T} (h : Reachable q) :
    q.data.length ≠ 1 := by
  rcases reachable_capacity h with h0 | ⟨k, hk⟩
  · omega
  · have hpos : 0 < 2 ^ k := Nat.pow_pos (by decide)
    omega

/-- On a full buffer of one slot, a state that no run of the public operations produces,
`resize` allocates `2 * 1 = 2` slots. -/
theorem resize_one_slot :
    oneSlot.size = oneSlot.data.length ∧
    resize oneSlot = some { data := [7, 0], head := 0, tail := 1, size := 1 } ∧
    (2 : Nat) ≠ max 4 (2 * oneSlot.data.length) := by
  decide

/-- For every state with `size == len(data)` whose buffer does not have exactly one slot,
`resize` returns a state whose buffer has `max(4, 2 * len(data))` slots, whose slot `i`
holds the old `data[(head + i) % len(data)]` for every `i < size`, with `head = 0`,
`tail = size` and `size` unchanged. -/
theorem resize_full_spec [Inhabited T] (q : OptimalQueue T) (hfull : q.size = q.data.length)
    (hone : q.data.length ≠ 1) :
    ∃ q1, resize q = some q1 ∧ q1.data.length = max 4 (2 * q.data.length) ∧
      (∀ i, i < q.size → ∃ index v, goMod (q.head + i) q.data.length = some index ∧
        sliceGet q.data index = some v ∧ q1.data[i]? = some v) ∧
      q1.head = 0 ∧ q1.tail = q.size ∧ q1.size = q.size := by
  refine ⟨grown q, resize_full q hfull, ?_, ?_, rfl, rfl, rfl⟩
  · rw [grown_length_full q hfull]
    unfold newLen
    split <;> omega
  · intro i hi
    have hpos : 0 < q.data.length := by omega
    exact ⟨_, _, goMod_pos _ hpos, sliceGet_lt (Nat.mod_lt _ hpos), by
      rw [grown_slot q hi]; rfl⟩

/-- C24: for every state that the public operations produce from `NewOptimalQueue` and
that has `size == len(data)`, `resize` returns (no panic) a state whose buffer has
`max(4, 2 * len(data))` slots, whose slot `i` holds the old `data[(head + i) % len(data)]`
for every `i < size` (read without panic), with `head = 0`, `tail = size` and `size`
unchanged. -/
theorem resize_spec [Inhabited T] (q : OptimalQueue T) (h : Reachable q)
    (hfull : q.size = q.data.length) :
    ∃ q1, resize q = some q1 ∧ q1.data.length = max 4 (2 * q.data.length) ∧
      (∀ i, i < q.size → ∃ index v, goMod (q.head + i) q.data.length = some index ∧
        sliceGet q.data index = some v ∧ q1.data[i]? = some v) ∧
      q1.head = 0 ∧ q1.tail = q.size ∧ q1.size = q.size :=
  resize_full_spec q hfull (reachable_not_one_slot h)

/-- Witness of C24 on the full buffer whose live elements wrap around, and on the fresh
queue, whose buffer of length 0 grows to 4 slots. -/
theorem resize_spec_witness :
    (Reachable wrappedFull ∧ wrappedFull.size = wrappedFull.data.length ∧
      ∃ q1, resize wrappedFull = some q1 ∧
        q1.data.length = max 4 (2 * wrappedFull.data.length) ∧
        (∀ i, i < wrappedFull.size → ∃ index v,
          goMod (wrappedFull.head + i) wrappedFull.data.length = some index ∧
          sliceGet wrappedFull.data index = some v ∧ q1.data[i]? = some v) ∧
        q1.head = 0 ∧ q1.tail = wrappedFull.size ∧ q1.size = wrappedFull.size) ∧
    (Reachable (NewOptimalQueue : OptimalQueue Nat) ∧
      (NewOptimalQueue : OptimalQueue Nat).size =
        (NewOptimalQueue : OptimalQueue Nat).data.length ∧
      ∃ q1, resize (NewOptimalQueue : OptimalQueue Nat) = some q1 ∧
        q1.data.length = max 4 (2 * (NewOptimalQueue : OptimalQueue Nat).data.length) ∧
        (∀ i, i < (NewOptimalQueue : OptimalQueue Nat).size → ∃ index v,
          goMod ((NewOptimalQueue : OptimalQueue Nat).head + i)
            (NewOptimalQueue : OptimalQueue Nat).data.length = some index ∧
          sliceGet (NewOptimalQueue : OptimalQueue Nat).data index = some v ∧
          q1.data[i]? = some v) ∧
        q1.head = 0 ∧ q1.tail = (NewOptimalQueue : OptimalQueue Nat).size ∧
        q1.size = (NewOptimalQueue : OptimalQueue Nat).size) :=
  ⟨⟨reachable_wrappedFull, by decide,
      resize_spec wrappedFull reachable_wrappedFull (by decide)⟩,
    ⟨Reachable.init, by decide, resize_spec NewOptimalQueue Reachable.init (by decide)⟩⟩

/-! ## The fresh queue and enqueue-only runs -/

/-- C25, as stated, fails: the buffer of `NewOptimalQueue` has no slot (`make([]T, 0, 4)`
has length 0), so the first `Enqueue` finds `size == len(data)` and calls `resize`, which
allocates the 4 slots. -/
theorem fresh_buffer_counterexample :
    (NewOptimalQueue : OptimalQueue Nat).data.length = 0 ∧
    enqueueResizes (NewOptimalQueue : OptimalQueue Nat) = true ∧
    resize (NewOptimalQueue : OptimalQueue Nat) =
      some { data := [0, 0, 0, 0], head := 0, tail := 0, size := 0 } ∧
    Enqueue (NewOptimalQueue : OptimalQueue Nat) 1 =
      some { data := [1, 0, 0, 0], head := 0, tail := 1, size := 1 } := by
  decide

/-- C25, amended: `NewOptimalQueue` returns a queue with `head = 0`, `tail = 0`,
`size = 0` and a buffer of length 0; the first `Enqueue` on it calls `resize` and leaves a
buffer of 4 slots; the second, third and fourth `Enqueue` write into that buffer without a
resize; after the fourth the buffer is full, so a fifth would resize. -/
theorem fresh_buffer [Inhabited T] (e1 e2 e3 e4 : T) :
    (NewOptimalQueue : OptimalQueue T).head = 0 ∧
    (NewOptimalQueue : OptimalQueue T).tail = 0 ∧
    (NewOptimalQueue : OptimalQueue T).size = 0 ∧
    (NewOptimalQueue : OptimalQueue T).data.length = 0 ∧
    enqueueResizes (NewOptimalQueue : OptimalQueue T) = true ∧
    ∃ q1 q2 q3 q4, Enqueue NewOptimalQueue e1 = some q1 ∧ q1.data.length = 4 ∧
      enqueueResizes q1 = false ∧ Enqueue q1 e2 = some q2 ∧ q2.data = q1.data.set 1 e2 ∧
      enqueueResizes q2 = false ∧ Enqueue q2 e3 = some q3 ∧ q3.data = q2.data.set 2 e3 ∧
      enqueueResizes q3 = false ∧ Enqueue q3 e4 = some q4 ∧ q4.data = q3.data.set 3 e4 ∧
      q4.data = [e1, e2, e3, e4] ∧ enqueueResizes q4 = true := by
  refine ⟨rfl, rfl, rfl, rfl, rfl,
    { data := [e1, default, default, default], head := 0, tail := 1, size := 1 },
    { data := [e1, e2, default, default], head := 0, tail := 2, size := 2 },
    { data := [e1, e2, e3, default], head := 0, tail := 3, size := 3 },
    { data := [e1, e2, e3, e4], head := 0, tail := 0, size := 4 }, ?_, rfl, rfl, ?_, rfl, rfl,
    ?_, rfl, rfl, ?_, rfl, rfl, rfl⟩
  · simp [Enqueue, NewOptimalQueue, resize, copyLoop, sliceSet, goMod, List.replicate]
  · simp [Enqueue, sliceSet, goMod]
  · simp [Enqueue, sliceSet, goMod]
  · simp [Enqueue, sliceSet, goMod]

/-- C26: in every reachable state, `Dequeue`, `Peek`, `Size`, `IsEmpty` and `ToSlice`
return and leave the buffer as it is, `Clear` leaves the buffer as it is and sets `head`,
`tail` and `size` to 0, and `Enqueue` returns with a buffer that is as long as before or
longer: no operation makes the buffer shorter. -/
theorem buffer_never_shrinks [Inhabited T] (q : OptimalQueue T) (h : Reachable q) :
    (∃ r q1, Dequeue q = some (r, q1) ∧ q1.data = q.data) ∧
    (∃ r q1, Peek q = some (r, q1) ∧ q1.data = q.data) ∧
    (Size q).2.data = q.data ∧ (IsEmpty q).2.data = q.data ∧
    (∃ L q1, ToSlice q = some (L, q1) ∧ q1.data = q.data) ∧
    ((Clear q).data = q.data ∧ (Clear q).head = 0 ∧ (Clear q).tail = 0 ∧
      (Clear q).size = 0) ∧
    (∀ e, ∃ q1, Enqueue q e = some q1 ∧ q.data.length ≤ q1.data.length) := by
  have hi := inv_of_reachable h
  refine ⟨?_, ?_, rfl, rfl, ⟨_, _, toSlice_eq hi, rfl⟩, ⟨rfl, rfl, rfl, rfl⟩, fun e => ?_⟩
  · by_cases h0 : q.size = 0
    · exact ⟨_, _, dequeue_empty h0, rfl⟩
    · exact ⟨_, _, dequeue_eq hi h0, rfl⟩
  · by_cases h0 : q.size = 0
    · exact ⟨_, _, peek_empty h0, rfl⟩
    · exact ⟨_, _, peek_eq hi h0, rfl⟩
  · refine ⟨_, enqueue_eq hi e, ?_⟩
    by_cases hfull : q.size = q.data.length
    · have := newLen_gt q
      simp only [if_pos hfull, pushed, List.length_set, grown_length hi]; omega
    · simp [if_neg hfull, pushed]

/-- Witness of C26 on the wrapped full buffer. -/
theorem buffer_never_shrinks_witness :
    Reachable wrappedFull ∧
    ((∃ r q1, Dequeue wrappedFull = some (r, q1) ∧ q1.data = wrappedFull.data) ∧
    (∃ r q1, Peek wrappedFull = some (r, q1) ∧ q1.data = wrappedFull.data) ∧
    (Size wrappedFull).2.data = wrappedFull.data ∧
    (IsEmpty wrappedFull).2.data = wrappedFull.data ∧
    (∃ L q1, ToSlice wrappedFull = some (L, q1) ∧ q1.data = wrappedFull.data) ∧
    ((Clear wrappedFull).data = wrappedFull.data ∧ (Clear wrappedFull).head = 0 ∧
      (Clear wrappedFull).tail = 0 ∧ (Clear wrappedFull).size = 0) ∧
    (∀ e, ∃ q1, Enqueue wrappedFull e = some q1 ∧
      wrappedFull.data.length ≤ q1.data.length)) :=
  ⟨reachable_wrappedFull, buffer_never_shrinks wrappedFull reachable_wrappedFull⟩

theorem enqueueAll_concat [Inhabited T] (q : OptimalQueue T) (xs : List T) (v : T) :
    enqueueAll q (xs ++ [v]) = (enqueueAll q xs).bind (fun q1 => Enqueue q1 v) := by
  induction xs generalizing q with
  | nil =>
    simp only [List.nil_append, enqueueAll, Option.bind_eq_bind, Option.some_bind]
    cases Enqueue q v <;> rfl
  | cons x xs ih =>
    simp only [List.cons_append, enqueueAll, Option.bind_eq_bind]
    cases Enqueue q x with
    | none => rfl
    | some q1 => simpa using ih q1

/-- The state after `n` calls of `Enqueue` on a fresh queue: `size` is `n`, and the buffer
has no slot when `n = 0` and otherwise `4 * 2^k` slots for the least `k` with
`n <= 4 * 2^k`. -/
theorem enqueueAll_capacity [Inhabited T] (vs : List T) :
    ∃ q, enqueueAll NewOptimalQueue vs = some q ∧ Inv q ∧ q.size = vs.length ∧
      ((vs.length = 0 ∧ q.data.length = 0) ∨
        (1 ≤ vs.length ∧ ∃ k, q.data.length = 4 * 2 ^ k ∧ vs.length ≤ 4 * 2 ^ k ∧
          (k = 0 ∨ 4 * 2 ^ (k - 1) < vs.length))) := by
  induction vs using List.reverseRecOn with
  | nil => exact ⟨NewOptimalQueue, rfl, inv_new, rfl, Or.inl ⟨rfl, rfl⟩⟩
  | append_singleton vs v ih =>
    obtain ⟨q, hq, hi, hs, hcap⟩ := ih
    refine ⟨pushed (if q.size = q.data.length then grown q else q) v, ?_, ?_, ?_, ?_⟩
    · rw [enqueueAll_concat, hq]; exact enqueue_eq hi v
    · obtain ⟨q1, h1, hi1, _, _⟩ := enqueue_spec hi v
      rw [enqueue_eq hi] at h1; cases h1; exact hi1
    · obtain ⟨q1, h1, _, _, hs1⟩ := enqueue_spec hi v
      rw [enqueue_eq hi] at h1; cases h1
      rw [hs1, hs]; simp
    · right
      refine ⟨by simp, ?_⟩
      simp only [List.length_append, List.length_singleton]
      rcases hcap with ⟨h0, hl0⟩ | ⟨h1, k, hk, hle, hmin⟩
      · refine ⟨0, ?_, by omega, Or.inl rfl⟩
        have hfull : q.size = q.data.length := by omega
        simp only [if_pos hfull, pushed, List.length_set, grown_length hi, newLen]
        rw [if_pos (by omega)]; rfl
      · have hpos : 0 < 2 ^ k := Nat.pow_pos (by decide)
        by_cases hfull : q.size = q.data.length
        · refine ⟨k + 1, ?_, ?_, Or.inr ?_⟩
          · simp only [if_pos hfull, pushed, List.length_set, grown_length hi, newLen]
            rw [if_neg (by omega), hk, Nat.pow_succ]; omega
          · rw [Nat.pow_succ]; omega
          · simp only [Nat.add_sub_cancel]; omega
        · have := hi.size_le
          refine ⟨k, ?_, by omega, ?_⟩
          · simp only [if_neg hfull, pushed, List.length_set]; exact hk
          · rcases hmin with h | h
            · exact Or.inl h
            · exact Or.inr (by omega)

theorem pow_two_le_pow_two {j k : Nat} (h : 4 * 2 ^ j ≤ 4 * 2 ^ k) : j ≤ k := by
  by_contra hlt
  have : 2 ^ (k + 1) ≤ 2 ^ j := Nat.pow_le_pow_right (by decide) (by omega)
  rw [Nat.pow_succ] at this
  have hpos : 0 < 2 ^ k := Nat.pow_pos (by decide)
  omega

theorem least_capacity {n k : Nat} (_hle : n ≤ 4 * 2 ^ k) (hmin : k = 0 ∨ 4 * 2 ^ (k - 1) < n) :
    ∀ j, n ≤ 4 * 2 ^ j → k ≤ j := by
  intro j hj
  rcases hmin with h | h
  · omega
  · by_contra hlt
    have : 2 ^ j ≤ 2 ^ (k - 1) := Nat.pow_le_pow_right (by decide) (by omega)
    omega

/-- C27: for every `n >= 1`, `n` calls of `Enqueue` on a fresh queue return, and the
buffer then has `4 * 2^k` slots for the least `k` with `n <= 4 * 2^k`; and for every
`i < n`, the call after the first `i` calls takes the resize branch exactly when it finds
`size == len(data)`, which is exactly when `i = 0` or `i = 4 * 2^j` for some `j`, and
exactly then it leaves a buffer of another length. -/
theorem capacity_after_enqueues [Inhabited T] (vs : List T) (hn : 1 ≤ vs.length) :
    (∃ q k, enqueueAll NewOptimalQueue vs = some q ∧ q.data.length = 4 * 2 ^ k ∧
      vs.length ≤ 4 * 2 ^ k ∧ ∀ j, vs.length ≤ 4 * 2 ^ j → k ≤ j) ∧
    (∀ i, i < vs.length → ∃ qi, enqueueAll NewOptimalQueue (vs.take i) = some qi ∧
      qi.size = i ∧
      (enqueueResizes qi = true ↔ qi.size = qi.data.length) ∧
      (enqueueResizes qi = true ↔ (i = 0 ∨ ∃ j, i = 4 * 2 ^ j)) ∧
      (∀ e, ∃ q1, Enqueue qi e = some q1 ∧
        (q1.data.length ≠ qi.data.length ↔ enqueueResizes qi = true))) := by
  constructor
  · obtain ⟨q, hq, _, _, hcap⟩ := enqueueAll_capacity vs
    rcases hcap with ⟨h0, _⟩ | ⟨_, k, hk, hle, hmin⟩
    · omega
    · exact ⟨q, k, hq, hk, hle, least_capacity hle hmin⟩
  · intro i hi
    obtain ⟨qi, hq, hinv, hs, hcap⟩ := enqueueAll_capacity (vs.take i)
    have hlen : (vs.take i).length = i := by simp; omega
    rw [hlen] at hs hcap
    refine ⟨qi, hq, hs, by simp [enqueueResizes], ?_, fun e => ?_⟩
    · simp only [enqueueResizes, decide_eq_true_eq, hs]
      rcases hcap with ⟨h0, hl0⟩ | ⟨h1, k, hk, hle, hmin⟩
      · constructor
        · intro _; exact Or.inl h0
        · intro _; omega
      · constructor
        · intro h; exact Or.inr ⟨k, by omega⟩
        · rintro (h | ⟨j, hj⟩)
          · omega
          · have h1 := least_capacity hle hmin j (by omega)
            have h2 : j ≤ k := pow_two_le_pow_two (by omega)
            have : j = k := by omega
            subst this; omega
    · refine ⟨_, enqueue_eq hinv e, ?_⟩
      simp only [enqueueResizes, decide_eq_true_eq]
      by_cases hfull : qi.size = qi.data.length
      · have := newLen_gt qi
        simp only [if_pos hfull, pushed, List.length_set, grown_length hinv]
        constructor
        · intro _; trivial
        · intro _; omega
      · simp [if_neg hfull, pushed, hfull]

/-- Witness of C27 with five values: the buffer ends with 8 slots. -/
theorem capacity_after_enqueues_witness :
    1 ≤ [1, 2, 3, 4, 5].length ∧
    ((∃ q k, enqueueAll (NewOptimalQueue : OptimalQueue Nat) [1, 2, 3, 4, 5] = some q ∧
      q.data.length = 4 * 2 ^ k ∧
      [1, 2, 3, 4, 5].length ≤ 4 * 2 ^ k ∧ ∀ j, [1, 2, 3, 4, 5].length ≤ 4 * 2 ^ j → k ≤ j) ∧
    (∀ i, i < [1, 2, 3, 4, 5].length →
      ∃ qi, enqueueAll (NewOptimalQueue : OptimalQueue Nat) ([1, 2, 3, 4, 5].take i) =
          some qi ∧
        qi.size = i ∧
        (enqueueResizes qi = true ↔ qi.size = qi.data.length) ∧
        (enqueueResizes qi = true ↔ (i = 0 ∨ ∃ j, i = 4 * 2 ^ j)) ∧
        (∀ e, ∃ q1, Enqueue qi e = some q1 ∧
          (q1.data.length ≠ qi.data.length ↔ enqueueResizes qi = true)))) :=
  ⟨by decide, capacity_after_enqueues [1, 2, 3, 4, 5] (by decide)⟩

/-- Five calls of `Enqueue` on a fresh queue: the buffer has 8 slots. -/
theorem enqueue_five :
    enqueueAll (NewOptimalQueue : OptimalQueue Nat) [1, 2, 3, 4, 5] =
      some { data := [1, 2, 3, 4, 5, 0, 0, 0], head := 0, tail := 5, size := 5 } := by
  decide

/-! ## `reverse` -/

/-- The digits of `n`, most significant last, pushed onto the accumulator `r`. -/
theorem reversedDigits_eq_foldl (n : Nat) :
    reversedDigits n = (Nat.digits 10 n).foldl (fun acc d => acc * 10 + d) 0 := by
  unfold reversedDigits
  rw [Nat.ofDigits_eq_foldr, List.foldr_reverse]
  congr 1
  funext acc d
  simp [Nat.mul_comm, Nat.add_comm]

theorem foldl_push_ge (l : List Nat) (r : Nat) :
    r ≤ l.foldl (fun acc d => acc * 10 + d) r := by
  induction l generalizing r with
  | nil => simp
  | cons d l ih =>
    simp only [List.foldl_cons]
    exact le_trans (by omega) (ih _)

theorem tdiv_tmod_natCast (n : Nat) :
    Int.tdiv (n : Int) 10 = ((n / 10 : Nat) : Int) ∧
    Int.tmod (n : Int) 10 = ((n % 10 : Nat) : Int) := by
  constructor
  · rw [Int.tdiv_eq_ediv (by omega) (by omega)]; norm_cast
  · rw [Int.tmod_eq_emod (by omega) (by omega)]; norm_cast

theorem tdiv_tmod_neg_natCast (n : Nat) :
    Int.tdiv (-(n : Int)) 10 = -((n / 10 : Nat) : Int) ∧
    Int.tmod (-(n : Int)) 10 = -((n % 10 : Nat) : Int) := by
  constructor
  · rw [Int.neg_tdiv, (tdiv_tmod_natCast n).1]
  · have h1 := Int.tmod_add_tdiv (n : Int) 10
    have h2 := Int.tmod_add_tdiv (-(n : Int)) 10
    rw [Int.neg_tdiv] at h2
    rw [← (tdiv_tmod_natCast n).2]
    omega

theorem reverseLoop_nonneg (fuel : Nat) : ∀ (n r : Nat), n ≤ fuel → r ≤ 2147483647 →
    reverseLoop fuel (n : Int) (r : Int) =
      some (if (Nat.digits 10 n).foldl (fun acc d => acc * 10 + d) r ≤ 2147483647 then
        (((Nat.digits 10 n).foldl (fun acc d => acc * 10 + d) r : Nat) : Int) else 0) := by
  induction fuel with
  | zero =>
    intro n r hn hr
    have h0 : n = 0 := by omega
    subst h0
    simp [reverseLoop, hr]
  | succ fuel ih =>
    intro n r hn hr
    by_cases h0 : n = 0
    · subst h0
      simp [reverseLoop, hr]
    · have hpos : 0 < n := Nat.pos_of_ne_zero h0
      have hmax : Int.tdiv MaxInt32 10 = 214748364 := by decide
      have hmin : Int.tdiv MinInt32 10 = -214748364 := by decide
      have hne : (n : Int) ≠ 0 := by omega
      rw [Nat.digits_def' (by omega) hpos, List.foldl_cons]
      have hge := foldl_push_ge (Nat.digits 10 (n / 10)) (r * 10 + n % 10)
      unfold reverseLoop
      rw [if_pos hne]
      simp only [hmax, hmin, (tdiv_tmod_natCast n).1, (tdiv_tmod_natCast n).2]
      by_cases hc : (r : Int) > 214748364 ∨ ((r : Int) = 214748364 ∧ ((n % 10 : Nat) : Int) > 7)
      · rw [if_pos hc, if_neg (by omega)]
      · rw [if_neg hc, if_neg (by omega)]
        have hw : wrapInt ((r : Int) * 10 + ((n % 10 : Nat) : Int)) =
            ((r * 10 + n % 10 : Nat) : Int) := by
          rw [wrapInt_of_isInt (by unfold isInt; omega)]; push_cast; rfl
        rw [hw]
        exact ih (n / 10) (r * 10 + n % 10) (by omega) (by omega)

theorem reverseLoop_neg (fuel : Nat) : ∀ (n r : Nat), n ≤ fuel → r ≤ 2147483648 →
    reverseLoop fuel (-(n : Int)) (-(r : Int)) =
      some (if (Nat.digits 10 n).foldl (fun acc d => acc * 10 + d) r ≤ 2147483648 then
        -(((Nat.digits 10 n).foldl (fun acc d => acc * 10 + d) r : Nat) : Int) else 0) := by
  induction fuel with
  | zero =>
    intro n r hn hr
    have h0 : n = 0 := by omega
    subst h0
    simp [reverseLoop, hr]
  | succ fuel ih =>
    intro n r hn hr
    by_cases h0 : n = 0
    · subst h0
      simp [reverseLoop, hr]
    · have hpos : 0 < n := Nat.pos_of_ne_zero h0
      have hmax : Int.tdiv MaxInt32 10 = 214748364 := by decide
      have hmin : Int.tdiv MinInt32 10 = -214748364 := by decide
      have hne : -(n : Int) ≠ 0 := by omega
      rw [Nat.digits_def' (by omega) hpos, List.foldl_cons]
      have hge := foldl_push_ge (Nat.digits 10 (n / 10)) (r * 10 + n % 10)
      unfold reverseLoop
      rw [if_pos hne]
      simp only [hmax, hmin, (tdiv_tmod_neg_natCast n).1, (tdiv_tmod_neg_natCast n).2]
      by_cases hc : -(r : Int) < -214748364 ∨
          (-(r : Int) = -214748364 ∧ -((n % 10 : Nat) : Int) < -8)
      · rw [if_neg (by omega), if_pos hc, if_neg (by omega)]
      · rw [if_neg (by omega), if_neg hc]
        have hw : wrapInt (-(r : Int) * 10 + -((n % 10 : Nat) : Int)) =
            -((r * 10 + n % 10 : Nat) : Int) := by
          rw [wrapInt_of_isInt (by unfold isInt; omega)]; push_cast; ring
        rw [hw]
        exact ih (n / 10) (r * 10 + n % 10) (by omega) (by omega)

/-- For every integer `x` the loop of `reverse` ends and returns the value of the
specification. -/
theorem reverse_eq (x : Int) : reverse x = some (reverseSpec x) := by
  unfold reverse reverseSpec
  rw [reversedDigits_eq_foldl]
  rcases Int.natAbs_eq x with h | h
  · have h1 := reverseLoop_nonneg x.natAbs x.natAbs 0 le_rfl (by omega)
    rw [← h] at h1
    simp only [Nat.cast_zero] at h1
    rw [h1]
    by_cases hx : x = 0
    · subst hx; simp
    · have hs : Int.sign x = 1 := Int.sign_eq_one_of_pos (by omega)
      rw [hs]
      congr 1
      split_ifs <;> omega
  · have h1 := reverseLoop_neg x.natAbs x.natAbs 0 le_rfl (by omega)
    rw [← h] at h1
    simp only [Nat.cast_zero, neg_zero] at h1
    rw [h1]
    by_cases hx : x = 0
    · subst hx; simp
    · have hs : Int.sign x = -1 := Int.sign_eq_neg_one_of_neg (by omega)
      rw [hs]
      congr 1
      split_ifs <;> omega

/-- The specification evaluated on the inputs that `main` tests. -/
theorem reverseSpec_examples :
    reverseSpec 123 = 321 ∧ reverseSpec (-123) = -321 ∧ reverseSpec 120 = 21 ∧
    reverseSpec 0 = 0 ∧ reverseSpec 1534236469 = 0 ∧ reverseSpec (-2147483648) = 0 ∧
    reverseSpec 1463847412 = 2147483641 ∧ reverseSpec (-1463847412) = -2147483641 :=
  ⟨Option.some.inj ((reverse_eq 123).symm.trans (by decide)),
   Option.some.inj ((reverse_eq (-123)).symm.trans (by decide)),
   Option.some.inj ((reverse_eq 120).symm.trans (by decide)),
   Option.some.inj ((reverse_eq 0).symm.trans (by decide)),
   Option.some.inj ((reverse_eq 1534236469).symm.trans (by decide)),
   Option.some.inj ((reverse_eq (-2147483648)).symm.trans (by decide)),
   Option.some.inj ((reverse_eq 1463847412).symm.trans (by decide)),
   Option.some.inj ((reverse_eq (-1463847412)).symm.trans (by decide))⟩

/-- C23: for every integer `x`, in particular every `x` of the signed 32-bit range, the
loop of `reverse(x)` ends and returns `sign(x)` times the number obtained by reversing the
decimal digits of `|x|` when that value lies in `[-2^31, 2^31 - 1]`, and 0 otherwise; on the
listed inputs 123 gives 321, -123 gives -321, 120 gives 21, 1534236469 gives 0,
-2147483648 gives 0 and 1463847412 gives 2147483641. -/
theorem reverse_spec (x : Int) :
    reverse x = some (reverseSpec x) ∧
    (reverse 123 = some 321 ∧ reverse (-123) = some (-321) ∧ reverse 120 = some 21 ∧
      reverse 1534236469 = some 0 ∧ reverse (-2147483648) = some 0 ∧
      reverse 1463847412 = some 2147483641) :=
  ⟨reverse_eq x, by decide⟩

/-! ## Palindrome numbers: decimal strings -/

theorem toDigitsCore_eq (fuel : Nat) : ∀ (n : Nat) (acc : List Char), 0 < n → n < fuel →
    Nat.toDigitsCore 10 fuel n acc = (Nat.digits 10 n).reverse.map Nat.digitChar ++ acc := by
  induction fuel with
  | zero => intro n acc _ h; omega
  | succ fuel ih =>
    intro n acc hpos hlt
    rw [Nat.digits_def' (by omega) hpos]
    unfold Nat.toDigitsCore
    simp only []
    by_cases h0 : n / 10 = 0
    · rw [if_pos h0, h0]
      simp
    · rw [if_neg h0, ih (n / 10) _ (Nat.pos_of_ne_zero h0) (by omega)]
      simp

/-- The string of `fmt.Sprintf("%d", x)` is the decimal digit string of the specification. -/
theorem formatInt_natCast (n : Nat) : formatInt (n : Int) = decimalString n := by
  unfold formatInt decimalString
  rw [if_neg (by omega)]
  by_cases h0 : n = 0
  · subst h0; rfl
  · rw [if_neg h0, Int.natAbs_ofNat]
    unfold Nat.toDigits
    rw [toDigitsCore_eq (n + 1) n [] (Nat.pos_of_ne_zero h0) (by omega)]
    simp

theorem digitChar_inj : ∀ a, a < 10 → ∀ b, b < 10 →
    Nat.digitChar a = Nat.digitChar b → a = b := by decide

theorem map_digitChar_inj : ∀ (l1 l2 : List Nat), (∀ d ∈ l1, d < 10) → (∀ d ∈ l2, d < 10) →
    l1.map Nat.digitChar = l2.map Nat.digitChar → l1 = l2
  | [], [], _, _, _ => rfl
  | [], _ :: _, _, _, h => by simp at h
  | _ :: _, [], _, _, h => by simp at h
  | a :: l1, b :: l2, h1, h2, h => by
    simp only [List.map_cons, List.cons.injEq] at h
    rw [digitChar_inj a (h1 a (by simp)) b (h2 b (by simp)) h.1,
      map_digitChar_inj l1 l2 (fun d hd => h1 d (by simp [hd])) (fun d hd => h2 d (by simp [hd]))
        h.2]

/-- The decimal string of `n` is a palindrome exactly when the list of its digits is. -/
theorem decimalString_palindrome (n : Nat) :
    decimalString n = (decimalString n).reverse ↔
      Nat.digits 10 n = (Nat.digits 10 n).reverse := by
  unfold decimalString
  by_cases h0 : n = 0
  · subst h0; simp
  · rw [if_neg h0]
    constructor
    · intro h
      rw [← List.map_reverse] at h
      have h1 := map_digitChar_inj _ _
        (fun d hd => Nat.digits_lt_base (by omega) (List.mem_reverse.mp hd))
        (fun d hd => Nat.digits_lt_base (by omega)
          (List.mem_reverse.mp (List.mem_reverse.mp hd))) h
      rw [List.reverse_reverse] at h1
      exact h1.symm
    · intro h
      rw [← List.map_reverse, List.reverse_reverse, ← h]

theorem isPalindromeSpec_natCast (n : Nat) :
    isPalindromeSpec (n : Int) ↔ Nat.digits 10 n = (Nat.digits 10 n).reverse := by
  unfold isPalindromeSpec
  rw [Int.toNat_ofNat, decimalString_palindrome]
  simp

theorem isPalindromeSpec_neg (x : Int) (h : x < 0) : ¬ isPalindromeSpec x := by
  unfold isPalindromeSpec
  omega

/-! ## Palindrome numbers: the loops over the string -/

/-- A list is its own reversal exactly when the first half mirrors the second. -/
theorem palindrome_iff_half {α : Type} (s : List α) :
    s = s.reverse ↔ ∀ k, k < s.length / 2 → s[k]? = s[s.length - 1 - k]? := by
  constructor
  · intro h k hk
    have hk1 : k < s.length := by omega
    rw [← List.getElem?_reverse hk1, ← h]
  · intro h
    apply List.ext_getElem?
    intro i
    by_cases hi : i < s.length
    · rw [List.getElem?_reverse hi]
      by_cases h1 : i < s.length / 2
      · exact h i h1
      · by_cases h2 : s.length - 1 - i < s.length / 2
        · have h3 := h _ h2
          have h4 : s.length - 1 - (s.length - 1 - i) = i := by omega
          rw [h4] at h3
          exact h3.symm
        · have h4 : s.length - 1 - i = i := by omega
          rw [h4]
    · rw [List.getElem?_eq_none (by omega), List.getElem?_eq_none (by simp; omega)]

theorem tdiv_two_natCast (n : Nat) : Int.tdiv (n : Int) 2 = ((n / 2 : Nat) : Int) := by
  rw [Int.tdiv_eq_ediv (by omega) (by omega)]; norm_cast

theorem stringLoop_eq (s : List Char) : ∀ (fuel i : Nat), i ≤ s.length / 2 →
    s.length / 2 ≤ fuel + i → (∀ k, k < i → s[k]? = s[s.length - 1 - k]?) →
    stringLoop s (s.length : Int) fuel (i : Int) = some (decide (s = s.reverse)) := by
  intro fuel
  induction fuel with
  | zero =>
    intro i hi hf hk
    have hi2 : i = s.length / 2 := by omega
    unfold stringLoop
    rw [tdiv_two_natCast, if_neg (by omega)]
    have : s = s.reverse := (palindrome_iff_half s).2 (fun k h => hk k (by omega))
    simp [← this]
  | succ fuel ih =>
    intro i hi hf hk
    unfold stringLoop
    rw [tdiv_two_natCast]
    by_cases hlt : i < s.length / 2
    · rw [if_pos (by omega)]
      have h1 : (s.length : Int) - 1 - (i : Int) = ((s.length - 1 - i : Nat) : Int) := by omega
      rw [h1, sliceGetInt_natCast, sliceGetInt_natCast]
      have hi1 : i < s.length := by omega
      have hi2 : s.length - 1 - i < s.length := by omega
      rw [List.getElem?_eq_getElem hi1, List.getElem?_eq_getElem hi2]
      simp only [Option.bind_eq_bind, Option.some_bind]
      by_cases hab : s[i] = s[s.length - 1 - i]
      · rw [if_neg (by simpa using hab)]
        have h2 : (i : Int) + 1 = ((i + 1 : Nat) : Int) := by omega
        rw [h2]
        apply ih (i + 1) (by omega) (by omega)
        intro k hk1
        by_cases hki : k = i
        · subst hki
          rw [List.getElem?_eq_getElem hi1, List.getElem?_eq_getElem hi2, hab]
        · exact hk k (by omega)
      · rw [if_pos (by simpa using hab)]
        have : ¬ s = s.reverse := by
          intro hp
          have h3 := (palindrome_iff_half s).1 hp i hlt
          rw [List.getElem?_eq_getElem hi1, List.getElem?_eq_getElem hi2] at h3
          exact hab (Option.some.inj h3)
        simp [this]
    · rw [if_neg (by omega)]
      have hi2 : i = s.length / 2 := by omega
      have : s = s.reverse := (palindrome_iff_half s).2 (fun k h => hk k (by omega))
      simp [← this]

theorem bitsLoop_eq (s : List Char) : ∀ (fuel i : Nat), i ≤ s.length / 2 →
    s.length / 2 ≤ fuel + i → (∀ k, k < i → s[k]? = s[s.length - 1 - k]?) →
    bitsLoop s fuel (i : Int) ((s.length : Int) - 1 - (i : Int)) =
      some (decide (s = s.reverse)) := by
  intro fuel
  induction fuel with
  | zero =>
    intro i hi hf hk
    have hi2 : i = s.length / 2 := by omega
    unfold bitsLoop
    rw [if_neg (by omega)]
    have : s = s.reverse := (palindrome_iff_half s).2 (fun k h => hk k (by omega))
    simp [← this]
  | succ fuel ih =>
    intro i hi hf hk
    unfold bitsLoop
    by_cases hlt : i < s.length / 2
    · rw [if_pos (by omega)]
      have h1 : (s.length : Int) - 1 - (i : Int) = ((s.length - 1 - i : Nat) : Int) := by omega
      have h2 : (i : Int) + 1 = ((i + 1 : Nat) : Int) := by omega
      have h3 : (s.length : Int) - 1 - (i : Int) - 1 =
          (s.length : Int) - 1 - ((i + 1 : Nat) : Int) := by omega
      rw [h3, h2, h1, sliceGetInt_natCast, sliceGetInt_natCast]
      have hi1 : i < s.length := by omega
      have hi2 : s.length - 1 - i < s.length := by omega
      rw [List.getElem?_eq_getElem hi1, List.getElem?_eq_getElem hi2]
      simp only [Option.bind_eq_bind, Option.some_bind]
      by_cases hab : s[i] = s[s.length - 1 - i]
      · rw [if_neg (by simpa using hab)]
        apply ih (i + 1) (by omega) (by omega)
        intro k hk1
        by_cases hki : k = i
        · subst hki
          rw [List.getElem?_eq_getElem hi1, List.getElem?_eq_getElem hi2, hab]
        · exact hk k (by omega)
      · rw [if_pos (by simpa using hab)]
        have : ¬ s = s.reverse := by
          intro hp
          have h3 := (palindrome_iff_half s).1 hp i hlt
          rw [List.getElem?_eq_getElem hi1, List.getElem?_eq_getElem hi2] at h3
          exact hab (Option.some.inj h3)
        simp [this]
    · rw [if_neg (by omega)]
      have hi2 : i = s.length / 2 := by omega
      have : s = s.reverse := (palindrome_iff_half s).2 (fun k h => hk k (by omega))
      simp [← this]

/-! ## Palindrome numbers: the half reversal -/

theorem int64Op_of_isInt (c : Bool) {v : Int} (h : isInt v) : int64Op c v = some v := by
  unfold int64Op
  cases c <;> simp [h, wrapInt_of_isInt h]

theorem halfReverseLoop_stop (c : Bool) (fuel : Nat) (o r : Int) (h : ¬ o > r) :
    halfReverseLoop c fuel o r = some (decide (o = r ∨ o = Int.tdiv r 10)) := by
  cases fuel <;> simp [halfReverseLoop, h]

theorem digits_length_div_ten (r : Nat) :
    (Nat.digits 10 (r / 10)).length = (Nat.digits 10 r).length - 1 := by
  by_cases h : r = 0
  · subst h; simp
  · rw [Nat.digits_def' (by omega) (Nat.pos_of_ne_zero h)]; simp

theorem digits_length_pos {r : Nat} (h : r ≠ 0) : 0 < (Nat.digits 10 r).length := by
  rw [Nat.digits_def' (by omega) (Nat.pos_of_ne_zero h)]; simp

/-- A number with fewer decimal digits is smaller. -/
theorem lt_of_digits_length_lt {r o : Nat}
    (h : (Nat.digits 10 r).length < (Nat.digits 10 o).length) : r < o := by
  have ho : o ≠ 0 := by rintro rfl; simp at h
  have h1 : r < 10 ^ (Nat.digits 10 r).length := Nat.lt_base_pow_length_digits (by omega)
  have h2 := Nat.base_pow_length_digits_le 10 o (by omega) ho
  have h3 : 10 ^ ((Nat.digits 10 r).length + 1) ≤ 10 ^ (Nat.digits 10 o).length :=
    Nat.pow_le_pow_right (by omega) h
  rw [pow_succ] at h3
  omega

theorem lt_pow_of_digits_length_le {r k : Nat} (h : (Nat.digits 10 r).length ≤ k) :
    r < 10 ^ k :=
  lt_of_lt_of_le (Nat.lt_base_pow_length_digits (by omega)) (Nat.pow_le_pow_right (by omega) h)

theorem digits_length_le_of_lt_pow {n k : Nat} (h : n < 10 ^ k) :
    (Nat.digits 10 n).length ≤ k := by
  by_contra hc
  by_cases h0 : n = 0
  · subst h0; simp at hc
  · have h2 := Nat.base_pow_length_digits_le 10 n (by omega) h0
    have h3 : 10 ^ (k + 1) ≤ 10 ^ (Nat.digits 10 n).length :=
      Nat.pow_le_pow_right (by omega) (by omega)
    rw [pow_succ] at h3
    omega

/-- Two halves of equal length make a palindrome exactly when they are equal. -/
theorem palindrome_even {α : Type} (R B : List α) (h : R.length = B.length) :
    R.reverse ++ B = (R.reverse ++ B).reverse ↔ B = R := by
  rw [List.reverse_append, List.reverse_reverse]
  constructor
  · intro h1
    exact (List.append_inj h1 (by simp [h])).2
  · rintro rfl; rfl

/-- Around a middle element the two halves of a palindrome are equal. -/
theorem palindrome_odd {α : Type} (c : α) (R B : List α) (h : R.length = B.length) :
    (c :: R).reverse ++ B = ((c :: R).reverse ++ B).reverse ↔ B = R := by
  rw [List.reverse_append, List.reverse_reverse, List.reverse_cons, List.append_assoc]
  constructor
  · intro h1
    have h2 := (List.append_inj h1 (by simp [h])).2
    simp only [List.singleton_append, List.cons_append, List.cons.injEq, true_and] at h2
    exact h2
  · rintro rfl; simp

theorem halfReverse_stop_spec (o r : Nat) (hr : r ≠ 0) (hle : o ≤ r)
    (hl : (Nat.digits 10 r).length ≤ (Nat.digits 10 o).length + 1) :
    ((o : Int) = (r : Int) ∨ (o : Int) = Int.tdiv (r : Int) 10) ↔
      (Nat.digits 10 r).reverse ++ Nat.digits 10 o =
        ((Nat.digits 10 r).reverse ++ Nat.digits 10 o).reverse := by
  rw [(tdiv_tmod_natCast r).1]
  have hge : (Nat.digits 10 o).length ≤ (Nat.digits 10 r).length := by
    by_contra hc
    have := lt_of_digits_length_lt (not_le.mp hc)
    omega
  have hpos := digits_length_pos hr
  have hlen := digits_length_div_ten r
  by_cases heq : (Nat.digits 10 r).length = (Nat.digits 10 o).length
  · rw [palindrome_even _ _ heq, Nat.digits_inj_iff]
    have h1 : r / 10 < o := lt_of_digits_length_lt (by omega)
    constructor
    · rintro (h | h)
      · exact_mod_cast h
      · have : o = r / 10 := by exact_mod_cast h
        omega
    · intro h; left; exact_mod_cast h
  · have hlt : o < r := lt_of_digits_length_lt (by omega)
    have hd := Nat.digits_def' (b := 10) (by omega) (Nat.pos_of_ne_zero hr)
    rw [hd, palindrome_odd _ _ _ (by omega), Nat.digits_inj_iff]
    constructor
    · rintro (h | h)
      · have : o = r := by exact_mod_cast h
        omega
      · exact_mod_cast h
    · intro h; right; exact_mod_cast h

theorem halfReverseLoop_eq (c : Bool) (fuel : Nat) : ∀ (o r : Nat), o ≤ fuel → r ≠ 0 →
    (Nat.digits 10 r).length ≤ (Nat.digits 10 o).length + 1 →
    (Nat.digits 10 r).length + (Nat.digits 10 o).length ≤ 19 →
    halfReverseLoop c fuel (o : Int) (r : Int) =
      some (decide ((Nat.digits 10 r).reverse ++ Nat.digits 10 o =
        ((Nat.digits 10 r).reverse ++ Nat.digits 10 o).reverse)) := by
  induction fuel with
  | zero =>
    intro o r ho hr hl _
    rw [halfReverseLoop_stop c 0 _ _ (by omega)]
    exact congrArg some (decide_eq_decide.mpr (halfReverse_stop_spec o r hr (by omega) hl))
  | succ fuel ih =>
    intro o r ho hr hl hs
    by_cases hgt : o ≤ r
    · rw [halfReverseLoop_stop c _ _ _ (by omega)]
      exact congrArg some (decide_eq_decide.mpr (halfReverse_stop_spec o r hr hgt hl))
    · have hor : r < o := not_le.mp hgt
      have ho0 : 0 < o := by omega
      have hle : (Nat.digits 10 r).length ≤ (Nat.digits 10 o).length := by
        by_contra hc
        have := lt_of_digits_length_lt (not_le.mp hc)
        omega
      have hr9 : r < 10 ^ 9 := lt_pow_of_digits_length_le (by omega)
      have hdo := Nat.digits_def' (b := 10) (by omega) ho0
      have hdr : Nat.digits 10 (r * 10 + o % 10) = (o % 10) :: Nat.digits 10 r := by
        rw [Nat.digits_def' (by omega) (by omega)]
        congr 1
        · omega
        · congr 1; omega
      unfold halfReverseLoop
      rw [if_pos (by omega), (tdiv_tmod_natCast o).1, (tdiv_tmod_natCast o).2,
        int64Op_of_isInt c (by unfold isInt; omega)]
      simp only [Option.bind_eq_bind, Option.some_bind]
      rw [int64Op_of_isInt c (by unfold isInt; omega)]
      simp only [Option.some_bind]
      have hcast : (r : Int) * 10 + ((o % 10 : Nat) : Int) = ((r * 10 + o % 10 : Nat) : Int) := by
        push_cast; rfl
      rw [hcast]
      by_cases hlt : (Nat.digits 10 r).length < (Nat.digits 10 o).length
      · rw [ih (o / 10) (r * 10 + o % 10) (by omega) (by omega)
          (by rw [hdr, digits_length_div_ten]; simp only [List.length_cons]; omega)
          (by rw [hdr, digits_length_div_ten]; simp only [List.length_cons]; omega)]
        have hlist : (o % 10 :: Nat.digits 10 r).reverse ++ Nat.digits 10 (o / 10) =
            (Nat.digits 10 r).reverse ++ Nat.digits 10 o := by
          rw [hdo]; simp
        rw [hdr, hlist]
      · have heq : (Nat.digits 10 r).length = (Nat.digits 10 o).length := by omega
        have hlo := digits_length_div_ten o
        have hpos := digits_length_pos hr
        have hl1 : (Nat.digits 10 (o / 10)).length <
            (Nat.digits 10 (r * 10 + o % 10)).length := by
          rw [hdr, hlo]; simp only [List.length_cons]; omega
        have hl2 : (Nat.digits 10 (o / 10)).length < (Nat.digits 10 r).length := by
          rw [hlo]; omega
        have h1 : o / 10 < r * 10 + o % 10 := lt_of_digits_length_lt hl1
        have h2 : o / 10 < r := lt_of_digits_length_lt hl2
        rw [halfReverseLoop_stop c fuel ((o / 10 : Nat) : Int) ((r * 10 + o % 10 : Nat) : Int)
          (by omega), (tdiv_tmod_natCast _).1]
        have h3 : (r * 10 + o % 10) / 10 = r := by omega
        rw [h3]
        congr 1
        rw [decide_eq_decide, palindrome_even _ _ heq, Nat.digits_inj_iff]
        constructor
        · rintro (h | h)
          · have : o / 10 = r * 10 + o % 10 := by exact_mod_cast h
            omega
          · have : o / 10 = r := by exact_mod_cast h
            omega
        · intro h; omega

/-- The half reversal of a non-negative `n` below `2^63` decides whether the digits of
`n` are a palindrome, with or without the overflow check. -/
theorem isPalindromeHalfReverse_natCast (c : Bool) (n : Nat) (h : n < 2 ^ 63) :
    isPalindromeHalfReverse c (n : Int) =
      some (decide (Nat.digits 10 n = (Nat.digits 10 n).reverse)) := by
  unfold isPalindromeHalfReverse
  rw [(tdiv_tmod_natCast n).2]
  by_cases h0 : n = 0
  · subst h0; simp
  have hpos : 0 < n := Nat.pos_of_ne_zero h0
  have hd := Nat.digits_def' (b := 10) (by omega) hpos
  by_cases hz : n % 10 = 0
  · rw [if_pos (Or.inr ⟨by omega, by exact_mod_cast hz⟩)]
    have hlast : (Nat.digits 10 n).getLast (by simp [hd]) ≠ 0 :=
      Nat.getLast_digit_ne_zero 10 h0
    have : ¬ Nat.digits 10 n = (Nat.digits 10 n).reverse := by
      intro hp
      apply hlast
      have h1 : (Nat.digits 10 n).head? = some 0 := by rw [hd, hz]; rfl
      have h2 : (Nat.digits 10 n).getLast? = some 0 := by
        rw [hp, List.getLast?_reverse]; exact h1
      rw [List.getLast?_eq_getLast _ (by simp [hd])] at h2
      exact Option.some.inj h2
    simp [this]
  · rw [if_neg (by
      rintro (h1 | ⟨_, h1⟩)
      · omega
      · exact hz (by exact_mod_cast h1))]
    by_cases h10 : n < 10
    · rw [if_pos (by omega)]
      have : n / 10 = 0 := by omega
      rw [hd, this]
      simp
    · rw [if_neg (by omega), Int.natAbs_ofNat]
      obtain ⟨fuel, hf⟩ : ∃ fuel, n = fuel + 1 := ⟨n - 1, by omega⟩
      have hlen : (Nat.digits 10 n).length ≤ 19 :=
        digits_length_le_of_lt_pow (lt_of_lt_of_le h (by norm_num))
      have hdr : Nat.digits 10 (n % 10) = [n % 10] := by
        rw [Nat.digits_def' (by omega) (by omega)]
        have : n % 10 / 10 = 0 := by omega
        rw [this]; simp
      rw [hd] at hlen
      simp only [List.length_cons] at hlen
      nth_rewrite 1 [hf]
      unfold halfReverseLoop
      rw [if_pos (by omega), (tdiv_tmod_natCast n).1, (tdiv_tmod_natCast n).2,
        int64Op_of_isInt c (by unfold isInt; omega)]
      simp only [Option.bind_eq_bind, Option.some_bind]
      rw [int64Op_of_isInt c (by unfold isInt; omega)]
      simp only [Option.some_bind]
      have hcast : (0 : Int) * 10 + ((n % 10 : Nat) : Int) = ((n % 10 : Nat) : Int) := by omega
      rw [hcast, halfReverseLoop_eq c fuel (n / 10) (n % 10) (by omega) hz
        (by rw [hdr]; simp) (by rw [hdr]; simp only [List.length_cons, List.length_nil]; omega)]
      have hlist : [n % 10].reverse ++ Nat.digits 10 (n / 10) = Nat.digits 10 n := by
        rw [hd]; simp
      rw [hdr, hlist]

/-! ## Palindrome numbers: the comparison of outer digits -/

theorem tdiv_natCast (a b : Nat) : Int.tdiv (a : Int) (b : Int) = ((a / b : Nat) : Int) := by
  rw [Int.tdiv_eq_ediv (by omega) (by omega)]; norm_cast

theorem tmod_natCast (a b : Nat) : Int.tmod (a : Int) (b : Int) = ((a % b : Nat) : Int) := by
  rw [Int.tmod_eq_emod (by omega) (by omega)]; norm_cast

theorem padDigits_zero : ∀ w, padDigits w 0 = List.replicate w 0
  | 0 => rfl
  | w + 1 => by simp [padDigits, padDigits_zero w, List.replicate_succ]

theorem padDigits_length : ∀ w x, (padDigits w x).length = w
  | 0, _ => rfl
  | w + 1, x => by simp [padDigits, padDigits_length w]

theorem padDigits_digits : ∀ w x, (Nat.digits 10 x).length = w →
    padDigits w x = Nat.digits 10 x
  | 0, x, h => by
    rw [List.length_eq_zero] at h
    rw [h]; rfl
  | w + 1, x, h => by
    have h0 : x ≠ 0 := by rintro rfl; simp at h
    have hd := Nat.digits_def' (b := 10) (by omega) (Nat.pos_of_ne_zero h0)
    rw [hd] at h ⊢
    simp only [List.length_cons, add_left_inj] at h
    simp only [padDigits, padDigits_digits w (x / 10) h]

/-- The highest of `w + 1` digits is `x / 10^w`, the others are those of `x % 10^w`. -/
theorem padDigits_succ : ∀ w x, x < 10 ^ (w + 1) →
    padDigits (w + 1) x = padDigits w (x % 10 ^ w) ++ [x / 10 ^ w]
  | 0, x, h => by
    have : x % 10 = x := by omega
    simp [padDigits, this]
  | w + 1, x, h => by
    have hx : x / 10 < 10 ^ (w + 1) := by
      rw [pow_succ] at h; omega
    have h1 : x % 10 ^ (w + 1) % 10 = x % 10 :=
      Nat.mod_mod_of_dvd x (dvd_pow_self 10 (by omega))
    have h2 : x % 10 ^ (w + 1) / 10 = x / 10 % 10 ^ w := by
      rw [pow_succ, Nat.mul_comm, Nat.mod_mul_right_div_self]
    have h3 : x / 10 / 10 ^ w = x / 10 ^ (w + 1) := by
      rw [Nat.div_div_eq_div_mul, pow_succ, Nat.mul_comm]
    have e1 : padDigits (w + 1 + 1) x = (x % 10) :: padDigits (w + 1) (x / 10) := rfl
    have e2 : padDigits (w + 1) (x % 10 ^ (w + 1)) =
        (x % 10 ^ (w + 1) % 10) :: padDigits w (x % 10 ^ (w + 1) / 10) := rfl
    rw [e1, e2, padDigits_succ w (x / 10) hx, h1, h2, h3]
    simp

/-- A list with a first and a last element is a palindrome exactly when the two are
equal and the part between them is a palindrome. -/
theorem palindrome_cons_append {α : Type} (a b : α) (M : List α) :
    a :: (M ++ [b]) = (a :: (M ++ [b])).reverse ↔ a = b ∧ M = M.reverse := by
  simp only [List.reverse_cons, List.reverse_append, List.reverse_nil, List.nil_append,
    List.singleton_append, List.cons_append, List.cons.injEq]
  constructor
  · rintro ⟨h1, h2⟩
    exact ⟨h1, (List.append_inj h2 (by simp)).1⟩
  · rintro ⟨h1, h2⟩
    exact ⟨h1, by rw [← h2, h1]⟩

theorem isInt_of_lt_ten {k : Nat} (h : k < 10) : isInt (k : Int) := by
  unfold isInt; omega

theorem compareDigitsLoop_zero (c : Bool) (fuel : Nat) (D : Int) :
    compareDigitsLoop c fuel 0 D = some true := by
  cases fuel <;> simp [compareDigitsLoop]

theorem compareDigitsLoop_eq (c : Bool) (fuel : Nat) : ∀ (w x : Nat), x ≤ fuel → x < 10 ^ w →
    compareDigitsLoop c fuel (x : Int) ((if w = 0 then 0 else 10 ^ (w - 1) : Nat) : Int) =
      some (decide (padDigits w x = (padDigits w x).reverse)) := by
  induction fuel with
  | zero =>
    intro w x hx _
    have h0 : x = 0 := by omega
    subst h0
    rw [Nat.cast_zero, compareDigitsLoop_zero, padDigits_zero]
    simp
  | succ fuel ih =>
    intro w x hx hw
    by_cases h0 : x = 0
    · subst h0
      rw [Nat.cast_zero, compareDigitsLoop_zero, padDigits_zero]
      simp
    · have hpos : 0 < x := Nat.pos_of_ne_zero h0
      match w, hw with
      | 0, hw => simp at hw; omega
      | 1, hw =>
        have hx10 : x < 10 := by simpa using hw
        unfold compareDigitsLoop
        rw [if_pos (by omega)]
        simp only [if_neg (show ¬ (1 = 0) by omega), Nat.sub_self, pow_zero]
        unfold int64Div int64Rem
        rw [if_neg (by omega), if_neg (by omega), tdiv_natCast,
          int64Op_of_isInt c (isInt_of_lt_ten (by rw [Nat.div_one]; exact hx10))]
        simp only [Option.bind_eq_bind, Option.some_bind]
        rw [(tdiv_tmod_natCast x).2, if_neg (by
          have : x % 10 = x := by omega
          simp [this])]
        rw [tmod_natCast]
        have hz : Int.tdiv ((x % 1 : Nat) : Int) 10 = 0 := by simp
        rw [hz, compareDigitsLoop_zero]
        simp [padDigits]
      | v + 2, hw =>
        have hD : (if v + 2 = 0 then 0 else 10 ^ (v + 2 - 1)) = 10 ^ (v + 1) := by
          rw [if_neg (by omega)]; rfl
        have hDpos : 0 < 10 ^ (v + 1) := Nat.pow_pos (by omega)
        have hleft : x / 10 ^ (v + 1) < 10 := by
          rw [Nat.div_lt_iff_lt_mul hDpos]
          rw [pow_succ] at hw; omega
        have hmod : x % 10 ^ (v + 1) < 10 ^ (v + 1) := Nat.mod_lt _ hDpos
        have hmodle : x % 10 ^ (v + 1) ≤ x := Nat.mod_le _ _
        have h1 : x % 10 ^ (v + 1) % 10 = x % 10 :=
          Nat.mod_mod_of_dvd x (dvd_pow_self 10 (by omega))
        have hpad : padDigits (v + 2) x =
            (x % 10) :: (padDigits v (x % 10 ^ (v + 1) / 10) ++ [x / 10 ^ (v + 1)]) := by
          have e2 : padDigits (v + 1) (x % 10 ^ (v + 1)) =
              (x % 10 ^ (v + 1) % 10) :: padDigits v (x % 10 ^ (v + 1) / 10) := rfl
          rw [padDigits_succ (v + 1) x hw, e2, h1]
          simp
        have hnext : ((10 ^ (v + 1) / 100 : Nat)) = if v = 0 then 0 else 10 ^ (v - 1) := by
          cases v with
          | zero => simp
          | succ u =>
            rw [if_neg (by omega)]
            have : 10 ^ (u + 1 + 1) = 10 ^ u * 100 := by ring
            rw [this, Nat.mul_div_cancel _ (by omega)]
            simp
        rw [hD, hpad]
        unfold compareDigitsLoop
        rw [if_pos (by omega)]
        unfold int64Div int64Rem
        rw [if_neg (by omega), if_neg (by omega), tdiv_natCast,
          int64Op_of_isInt c (isInt_of_lt_ten hleft)]
        simp only [Option.bind_eq_bind, Option.some_bind]
        rw [(tdiv_tmod_natCast x).2]
        by_cases hne : x % 10 = x / 10 ^ (v + 1)
        · rw [if_neg (by simp [hne])]
          rw [tmod_natCast, (tdiv_tmod_natCast _).1]
          have h100 : Int.tdiv ((10 ^ (v + 1) : Nat) : Int) 100 =
              ((10 ^ (v + 1) / 100 : Nat) : Int) := tdiv_natCast _ 100
          rw [h100, hnext]
          have hx1 : x % 10 ^ (v + 1) / 10 < 10 ^ v := by
            rw [pow_succ] at hmod; omega
          rw [ih v (x % 10 ^ (v + 1) / 10) (by omega) hx1]
          exact congrArg some (decide_eq_decide.mpr
            ⟨fun h => (palindrome_cons_append _ _ _).2 ⟨hne, h⟩,
              fun h => ((palindrome_cons_append _ _ _).1 h).2⟩)
        · rw [if_pos (by
            intro h
            exact hne (by exact_mod_cast h.symm))]
          have : ¬ (x % 10 :: (padDigits v (x % 10 ^ (v + 1) / 10) ++ [x / 10 ^ (v + 1)]) =
              (x % 10 :: (padDigits v (x % 10 ^ (v + 1) / 10) ++
                [x / 10 ^ (v + 1)])).reverse) :=
            fun h => hne ((palindrome_cons_append _ _ _).1 h).1
          simp only [this, decide_False]

theorem countDigitsLoop_eq (c : Bool) (fuel : Nat) : ∀ (D t : Nat), t ≤ fuel → 0 < t →
    D * 10 ^ ((Nat.digits 10 t).length - 1) < 2 ^ 63 →
    countDigitsLoop c fuel (D : Int) (t : Int) =
      some ((D * 10 ^ ((Nat.digits 10 t).length - 1) : Nat) : Int) := by
  induction fuel with
  | zero => intro D t ht hpos _; omega
  | succ fuel ih =>
    intro D t ht hpos hb
    have hd := Nat.digits_def' (b := 10) (by omega) hpos
    unfold countDigitsLoop
    by_cases h10 : 10 ≤ t
    · have hpos1 := digits_length_pos (show t / 10 ≠ 0 by omega)
      have hlen : (Nat.digits 10 t).length - 1 = ((Nat.digits 10 (t / 10)).length - 1) + 1 := by
        rw [hd]; simp only [List.length_cons]; omega
      rw [hlen, pow_succ] at hb ⊢
      have hone : 1 ≤ 10 ^ ((Nat.digits 10 (t / 10)).length - 1) := Nat.one_le_pow _ _ (by omega)
      have hD10 : D * 10 ≤ D * (10 ^ ((Nat.digits 10 (t / 10)).length - 1) * 10) := by
        calc D * 10 = D * (1 * 10) := by ring
          _ ≤ D * (10 ^ ((Nat.digits 10 (t / 10)).length - 1) * 10) :=
            Nat.mul_le_mul_left _ (Nat.mul_le_mul_right _ hone)
      have heq : D * (10 ^ ((Nat.digits 10 (t / 10)).length - 1) * 10) =
          D * 10 * 10 ^ ((Nat.digits 10 (t / 10)).length - 1) := by ring
      rw [if_pos (by omega), int64Op_of_isInt c (by unfold isInt; norm_num at hb ⊢; omega)]
      simp only [Option.bind_eq_bind, Option.some_bind]
      rw [(tdiv_tmod_natCast t).1]
      have hcast : (D : Int) * 10 = ((D * 10 : Nat) : Int) := by push_cast; rfl
      rw [hcast, ih (D * 10) (t / 10) (by omega) (by omega) (by rw [← heq]; exact hb), heq]
    · rw [if_neg (by omega)]
      have : t / 10 = 0 := by omega
      rw [hd, this]
      simp

/-- A positive multiple of 10 is not a palindrome: its last digit is 0, its first is not. -/
theorem not_palindrome_of_mod_ten {n : Nat} (h0 : n ≠ 0) (hz : n % 10 = 0) :
    ¬ Nat.digits 10 n = (Nat.digits 10 n).reverse := by
  have hd := Nat.digits_def' (b := 10) (by omega) (Nat.pos_of_ne_zero h0)
  have hlast : (Nat.digits 10 n).getLast (by simp [hd]) ≠ 0 :=
    Nat.getLast_digit_ne_zero 10 h0
  intro hp
  apply hlast
  have h1 : (Nat.digits 10 n).head? = some 0 := by rw [hd, hz]; rfl
  have h2 : (Nat.digits 10 n).getLast? = some 0 := by
    rw [hp, List.getLast?_reverse]; exact h1
  rw [List.getLast?_eq_getLast _ (by simp [hd])] at h2
  exact Option.some.inj h2

theorem palindrome_of_lt_ten {n : Nat} (h : n < 10) :
    Nat.digits 10 n = (Nat.digits 10 n).reverse := by
  by_cases h0 : n = 0
  · subst h0; simp
  · have : n / 10 = 0 := by omega
    rw [Nat.digits_def' (by omega) (Nat.pos_of_ne_zero h0), this]
    simp

/-- The comparison of outer digits decides whether the digits of a non-negative `n`
below `2^63` are a palindrome, and never divides by zero. -/
theorem isPalindromeMath_natCast (c : Bool) (n : Nat) (h : n < 2 ^ 63) :
    isPalindromeMath c (n : Int) =
      some (decide (Nat.digits 10 n = (Nat.digits 10 n).reverse)) := by
  unfold isPalindromeMath
  rw [if_neg (by omega), (tdiv_tmod_natCast n).2]
  by_cases h10 : n < 10
  · rw [if_pos (by omega), decide_eq_true (palindrome_of_lt_ten h10)]
  · rw [if_neg (by omega)]
    by_cases hz : n % 10 = 0
    · rw [if_pos (by exact_mod_cast hz)]
      simp [not_palindrome_of_mod_ten (show n ≠ 0 by omega) hz]
    · rw [if_neg (by exact_mod_cast hz), Int.natAbs_ofNat]
      have hlen := digits_length_pos (show n ≠ 0 by omega)
      have hle := Nat.base_pow_length_digits_le 10 n (by omega) (by omega)
      have hsplit : 10 ^ (Nat.digits 10 n).length = 10 ^ ((Nat.digits 10 n).length - 1) * 10 := by
        rw [← pow_succ]; congr 1; omega
      rw [hsplit] at hle
      have hcount := countDigitsLoop_eq c n 1 n le_rfl (by omega) (by omega)
      rw [Nat.cast_one] at hcount
      rw [hcount]
      simp only [Option.bind_eq_bind, Option.some_bind, one_mul]
      have hcmp := compareDigitsLoop_eq c n (Nat.digits 10 n).length n le_rfl
        (Nat.lt_base_pow_length_digits (by omega))
      rw [if_neg (by omega)] at hcmp
      rw [hcmp, padDigits_digits _ _ rfl]

/-! ## Palindrome numbers: the five implementations -/

theorem isPalindromeNaive_natCast (n : Nat) :
    isPalindromeNaive (n : Int) =
      some (decide (Nat.digits 10 n = (Nat.digits 10 n).reverse)) := by
  unfold isPalindromeNaive
  rw [if_neg (by omega)]
  have h := stringLoop_eq (formatInt (n : Int)) (formatInt (n : Int)).length 0 (by omega)
    (by omega) (fun k hk => by omega)
  rw [Nat.cast_zero] at h
  rw [h, formatInt_natCast]
  exact congrArg some (decide_eq_decide.mpr (decimalString_palindrome n))

theorem isPalindromeString_natCast (n : Nat) :
    isPalindromeString (n : Int) =
      some (decide (Nat.digits 10 n = (Nat.digits 10 n).reverse)) :=
  isPalindromeNaive_natCast n

theorem isPalindromeBits_natCast (n : Nat) :
    isPalindromeBits (n : Int) =
      some (decide (Nat.digits 10 n = (Nat.digits 10 n).reverse)) := by
  unfold isPalindromeBits
  rw [if_neg (by omega)]
  by_cases h10 : n < 10
  · rw [if_pos (by omega), decide_eq_true (palindrome_of_lt_ten h10)]
  · rw [if_neg (by omega)]
    have h := bitsLoop_eq (formatInt (n : Int)) (formatInt (n : Int)).length 0 (by omega)
      (by omega) (fun k hk => by omega)
    rw [Nat.cast_zero, sub_zero] at h
    rw [h, formatInt_natCast]
    exact congrArg some (decide_eq_decide.mpr (decimalString_palindrome n))

/-- The map after `k` iterations of the loop of `init`. -/
theorem cacheFold_eq (k : Nat) :
    (List.range k).foldlM
      (fun cache (i : Nat) => (isPalindromeNaive (i : Int)).map
        (fun b => Function.update cache (i : Int) (some b)))
      (fun _ => none) =
    some (fun j : Int => if 0 ≤ j ∧ j < (k : Int) then
      some (decide (Nat.digits 10 j.toNat = (Nat.digits 10 j.toNat).reverse)) else none) := by
  induction k with
  | zero =>
    simp only [List.range_zero, List.foldlM_nil]
    congr 1
    funext j
    rw [if_neg (by omega)]
  | succ k ih =>
    rw [List.range_succ, List.foldlM_append, ih]
    simp only [Option.bind_eq_bind, Option.some_bind, List.foldlM_cons, List.foldlM_nil,
      isPalindromeNaive_natCast, Option.map_some', Option.bind_some]
    congr 1
    funext j
    by_cases hj : j = (k : Int)
    · subst hj
      rw [Function.update_same, if_pos (by omega), Int.toNat_ofNat]
    · rw [Function.update_noteq hj]
      by_cases hlt : 0 ≤ j ∧ j < (k : Int)
      · rw [if_pos hlt, if_pos (by omega)]
      · rw [if_neg hlt, if_neg (by omega)]

theorem isPalindromeLookup_natCast (c : Bool) (n : Nat) (h : n < 2 ^ 63) :
    isPalindromeLookup c (n : Int) =
      some (decide (Nat.digits 10 n = (Nat.digits 10 n).reverse)) := by
  unfold isPalindromeLookup
  rw [if_neg (by omega)]
  by_cases hlt : n < 100000
  · rw [if_pos (by omega)]
    unfold initCache
    rw [cacheFold_eq 100000]
    simp only [Option.map_some']
    rw [if_pos (by omega), Int.toNat_ofNat]
    rfl
  · rw [if_neg (by omega)]
    exact isPalindromeHalfReverse_natCast c n h

/-- A function on `int64` that returns `false` below 0 and decides the palindromes among
the non-negative values meets the specification. -/
theorem spec_of_natCast (f : Int → Option Bool) (hneg : ∀ x : Int, x < 0 → f x = some false)
    (hnat : ∀ n : Nat, n < 2 ^ 63 →
      f (n : Int) = some (decide (Nat.digits 10 n = (Nat.digits 10 n).reverse)))
    (x : Int) (h : isInt x) : f x = some (decide (isPalindromeSpec x)) := by
  by_cases hx : x < 0
  · rw [hneg x hx, decide_eq_false (isPalindromeSpec_neg x hx)]
  · obtain ⟨n, rfl⟩ : ∃ n : Nat, x = (n : Int) := ⟨x.toNat, by omega⟩
    unfold isInt at h
    rw [hnat n (by omega)]
    exact congrArg some (decide_eq_decide.mpr (isPalindromeSpec_natCast n).symm)

theorem isPalindromeHalfReverse_eq (c : Bool) (x : Int) (h : isInt x) :
    isPalindromeHalfReverse c x = some (decide (isPalindromeSpec x)) :=
  spec_of_natCast (isPalindromeHalfReverse c)
    (fun x hx => by unfold isPalindromeHalfReverse; rw [if_pos (Or.inl hx)])
    (isPalindromeHalfReverse_natCast c) x h

theorem isPalindromeLookup_eq (c : Bool) (x : Int) (h : isInt x) :
    isPalindromeLookup c x = some (decide (isPalindromeSpec x)) :=
  spec_of_natCast (isPalindromeLookup c)
    (fun x hx => by unfold isPalindromeLookup; rw [if_pos hx])
    (isPalindromeLookup_natCast c) x h

theorem isPalindromeMath_eq (c : Bool) (x : Int) (h : isInt x) :
    isPalindromeMath c x = some (decide (isPalindromeSpec x)) :=
  spec_of_natCast (isPalindromeMath c)
    (fun x hx => by unfold isPalindromeMath; rw [if_pos hx])
    (isPalindromeMath_natCast c) x h

theorem isPalindromeString_eq (x : Int) (h : isInt x) :
    isPalindromeString x = some (decide (isPalindromeSpec x)) :=
  spec_of_natCast isPalindromeString
    (fun x hx => by unfold isPalindromeString; rw [if_pos hx])
    (fun n _ => isPalindromeString_natCast n) x h

theorem isPalindromeBits_eq (x : Int) (h : isInt x) :
    isPalindromeBits x = some (decide (isPalindromeSpec x)) :=
  spec_of_natCast isPalindromeBits
    (fun x hx => by unfold isPalindromeBits; rw [if_pos hx])
    (fun n _ => isPalindromeBits_natCast n) x h

/-- The inputs of the correctness test of `main`, with the result that the algorithms
give: the test prints it for `isPalindromeHalfReverse`, `isPalindromeMath`,
`isPalindromeString` and `isPalindromeBits`. -/
theorem palindrome_examples :
    [0, 1, 11, 121, -121, 10, 1221, 12321, 123321, 1234321, 1234567, 99999, 100001,
      1234554321, 9223372036854775807].map (fun x =>
        (isPalindromeHalfReverse true x, isPalindromeMath true x, isPalindromeString x,
          isPalindromeBits x)) =
    [true, true, true, true, false, false, true, true, true, true, false, true, true, true,
      false].map (fun b => (some b, some b, some b, some b)) := by decide

/-- The specification on some of the inputs that `main` tests. -/
theorem isPalindromeSpec_examples :
    isPalindromeSpec 0 ∧ isPalindromeSpec 121 ∧ ¬ isPalindromeSpec (-121) ∧
    ¬ isPalindromeSpec 10 ∧ isPalindromeSpec 1234554321 ∧
    ¬ isPalindromeSpec 9223372036854775807 :=
  ⟨of_decide_eq_true (Option.some.inj
      ((isPalindromeString_eq 0 (by decide)).symm.trans (by decide))),
   of_decide_eq_true (Option.some.inj
      ((isPalindromeString_eq 121 (by decide)).symm.trans (by decide))),
   of_decide_eq_false (Option.some.inj
      ((isPalindromeString_eq (-121) (by decide)).symm.trans (by decide))),
   of_decide_eq_false (Option.some.inj
      ((isPalindromeString_eq 10 (by decide)).symm.trans (by decide))),
   of_decide_eq_true (Option.some.inj
      ((isPalindromeString_eq 1234554321 (by decide)).symm.trans (by decide))),
   of_decide_eq_false (Option.some.inj
      ((isPalindromeString_eq 9223372036854775807 (by decide)).symm.trans (by decide)))⟩

/-- C21: for every 64-bit signed integer `x`, `isPalindromeHalfReverse(x)` returns `true`
if and only if `x ≥ 0` and the decimal digit string of `x` equals its own reversal; the
run in which an arithmetic result outside `int64` is a failure returns the same value, so
no intermediate value overflows `int64`. -/
theorem isPalindromeHalfReverse_spec (x : Int) (h : isInt x) :
    isPalindromeHalfReverse false x = some (decide (isPalindromeSpec x)) ∧
    isPalindromeHalfReverse true x = some (decide (isPalindromeSpec x)) :=
  ⟨isPalindromeHalfReverse_eq false x h, isPalindromeHalfReverse_eq true x h⟩

/-- Witness of C21 on the largest `int64`, which is not a palindrome. -/
theorem isPalindromeHalfReverse_spec_witness :
    isInt 9223372036854775807 ∧
    (isPalindromeHalfReverse false 9223372036854775807 =
        some (decide (isPalindromeSpec 9223372036854775807)) ∧
      isPalindromeHalfReverse true 9223372036854775807 =
        some (decide (isPalindromeSpec 9223372036854775807))) :=
  ⟨by decide, isPalindromeHalfReverse_spec 9223372036854775807 (by decide)⟩

/-- C22: for every 64-bit signed integer `x` the five implementations
`isPalindromeHalfReverse`, `isPalindromeLookup`, `isPalindromeMath`, `isPalindromeString`
and `isPalindromeBits` return the same boolean, with wrapped and with checked arithmetic
alike; `isPalindromeMath` returns, so it never divides by zero. -/
theorem palindrome_implementations_agree (checked : Bool) (x : Int) (h : isInt x) :
    ∃ b : Bool, isPalindromeHalfReverse checked x = some b ∧
      isPalindromeLookup checked x = some b ∧ isPalindromeMath checked x = some b ∧
      isPalindromeString x = some b ∧ isPalindromeBits x = some b :=
  ⟨decide (isPalindromeSpec x), isPalindromeHalfReverse_eq checked x h,
    isPalindromeLookup_eq checked x h, isPalindromeMath_eq checked x h,
    isPalindromeString_eq x h, isPalindromeBits_eq x h⟩

/-- Witness of C22 on 1234554321, a palindrome above the keys of the cache. -/
theorem palindrome_implementations_agree_witness :
    isInt 1234554321 ∧
    ∃ b : Bool, isPalindromeHalfReverse false 1234554321 = some b ∧
      isPalindromeLookup false 1234554321 = some b ∧
      isPalindromeMath false 1234554321 = some b ∧
      isPalindromeString 1234554321 = some b ∧ isPalindromeBits 1234554321 = some b :=
  ⟨by decide, palindrome_implementations_agree false 1234554321 (by decide)⟩

end Dsa
